import Mathlib

set_option maxHeartbeats 2000000
set_option maxRecDepth 4000

/-!
# Verification of the fuel-indexer schema-analysis layer

A shallow embedding of the schema-analysis core of the `fuel-indexer`
repository:

* `packages/fuel-indexer-lib/src/graphql/parser.rs` — `ParsedGraphQLSchema::new`
  and its helper types (`JoinTableMeta`, `JoinTableRelation`, `OrderedField`);
* `packages/fuel-indexer-lib/src/graphql/mod.rs` — `GraphQLSchema`,
  `extract_foreign_key_info`, `field_id`, `is_list_type`, `field_type_name`,
  `list_field_type_name`;
* `packages/fuel-indexer-lib/src/lib.rs` — `join_table_name`,
  `join_table_typedefs_name`.

The external GraphQL grammar (`async_graphql_parser`) is a black-box
collaborator: the embedding takes its output, an abstract syntax tree
(`ServiceDocument`), as input.  Rust `HashMap`s / `HashSet`s are modelled as
association lists / duplicate-free lists; Rust panics (`expect`, `unwrap`) are
modelled as an error constructor, so that construction is a total function into
`Except`.  Machine `usize` counters are modelled as `Nat` (the ordinal counters
involved never approach overflow by construction of the pass).
-/

/-! ## String helpers (models of the Rust `str` operations used by the source) -/

/-- Rust `str::to_lowercase`, modelled per character.  The schema names this is
applied to are ASCII identifiers, on which `Char.toLower` agrees with the Rust
Unicode lowercasing. -/
def rsToLower (s : String) : String :=
  ⟨s.data.map Char.toLower⟩

/-- Rust `s.replace(['[', ']', '!'], "")`: remove every bracket and bang. -/
def stripDecorations (s : String) : String :=
  ⟨s.data.filter (fun c => !(decide (c = '[') || decide (c = ']') || decide (c = '!')))⟩

/-- Rust `s.replace('!', "")`: remove every bang. -/
def stripBangs (s : String) : String :=
  ⟨s.data.filter (fun c => !(decide (c = '!')))⟩

/-- Rust `s.matches(['[', ']']).count()`: number of bracket characters. -/
def bracketCount (s : String) : Nat :=
  (s.data.filter (fun c => decide (c = '[') || decide (c = ']'))).length

/-! ## Hash sets and hash maps as lists

Rust `HashSet<String>` is modelled as a duplicate-free `List String`,
`HashMap<String, V>` as an association list.  Iteration order of the Rust
containers is unspecified, so no claim below depends on the order of an
association list beyond its key set and per-key values. -/

/-- `HashSet::contains`. -/
def smem (x : String) (s : List String) : Bool :=
  s.any (fun y => decide (y = x))

/-- `HashSet::insert`. -/
def sInsert (s : List String) (x : String) : List String :=
  if smem x s then s else s ++ [x]

/-- `HashSet::extend`. -/
def sExtend (s : List String) (l : List String) : List String :=
  l.foldl sInsert s

/-- `HashMap::get`. -/
def alLookup {α : Type} : List (String × α) → String → Option α
  | [], _ => none
  | (k', v) :: rest, k => if k' = k then some v else alLookup rest k

/-- `HashMap::insert` (replacing any previous binding of the key). -/
def alInsert {α : Type} : List (String × α) → String → α → List (String × α)
  | [], k, v => [(k, v)]
  | (k', v') :: rest, k, v =>
    if k' = k then (k, v) :: rest else (k', v') :: alInsert rest k v

/-- `HashMap::contains_key`. -/
def alContains {α : Type} (m : List (String × α)) (k : String) : Bool :=
  (alLookup m k).isSome

/-- `HashMap::remove` (the removed value is discarded by the source). -/
def alRemove {α : Type} (m : List (String × α)) (k : String) : List (String × α) :=
  m.filter (fun p => !(decide (p.1 = k)))

/-- `map.entry(k).or_insert_with(Vec::new).push(v)`. -/
def alPush {α : Type} : List (String × List α) → String → α → List (String × List α)
  | [], k, v => [(k, [v])]
  | (k', l) :: rest, k, v =>
    if k' = k then (k', l ++ [v]) :: rest else (k', l) :: alPush rest k v

/-- `map.entry(k).or_insert_with(BTreeMap::new).insert(key, val)` for string
maps of string maps. -/
def alMapInsert (m : List (String × List (String × String))) (k key val : String) :
    List (String × List (String × String)) :=
  match alLookup m k with
  | some inner => alInsert m k (alInsert inner key val)
  | none => alInsert m k [(key, val)]

/-! ## The abstract syntax tree produced by the external IDL parser

Mirrors the parts of `async_graphql_parser::types` consumed by the source:
a directive is a name with (argument-name, rendered-argument-value) pairs, a
type is a named type or a list type with a nullability flag, and the
`to_string` rendering of a type (used by the source for all type-shape
tests) appends `!` to non-nullable types. -/

structure Directive where
  name : String
  arguments : List (String × String)
deriving DecidableEq

inductive GqlTy where
  | named (name : String) (nullable : Bool)
  | list (inner : GqlTy) (nullable : Bool)
deriving DecidableEq

/-- The `Display` rendering of `async_graphql_parser::types::Type`. -/
def GqlTy.render : GqlTy → String
  | .named n nullable => if nullable then n else n ++ "!"
  | .list t nullable =>
    if nullable then "[" ++ t.render ++ "]" else "[" ++ t.render ++ "]!"

/-- The outer `nullable` flag of a type (`f.ty.node.nullable` in the source). -/
def GqlTy.outerNullable : GqlTy → Bool
  | .named _ b => b
  | .list _ b => b

structure FieldDefinition where
  name : String
  ty : GqlTy
  directives : List Directive
deriving DecidableEq

structure ObjectType where
  fields : List FieldDefinition
deriving DecidableEq

inductive TypeKind where
  | object (o : ObjectType)
  | enum (values : List String)
  | union (members : List String)
  | unsupported
deriving DecidableEq

structure TypeDefinition where
  name : String
  directives : List Directive
  kind : TypeKind
deriving DecidableEq

inductive TypeSystemDefinition where
  | type (t : TypeDefinition)
  | directiveDef (name : String)
  | schemaDef
deriving DecidableEq

abbrev ServiceDocument := List TypeSystemDefinition

/-! ## `fuel-indexer-lib/src/graphql/mod.rs` -/

/-- `field_id`: the fully qualified name of a field on a type definition. -/
def field_id (typdef_name field_name : String) : String :=
  typdef_name ++ "." ++ field_name

/-- `is_list_type`: a field whose rendered type signature contains exactly two
bracket characters. -/
def is_list_type (f : FieldDefinition) : Bool :=
  decide (bracketCount (GqlTy.render f.ty) = 2)

/-- `field_type_name`: the rendered type with brackets and bangs removed. -/
def field_type_name (f : FieldDefinition) : String :=
  stripDecorations (GqlTy.render f.ty)

/-- `list_field_type_name`: the rendered type with bangs removed. -/
def list_field_type_name (f : FieldDefinition) : String :=
  stripBangs (GqlTy.render f.ty)

/-- Modelled from the spec: the identifier column of an entity
(`fuel-indexer-types`' `IdCol` is not under `src/`; per the spec the referenced
column defaults to the target type's identifier column, named `id`). -/
def IdCol.to_lowercase_string : String := "id"

/-- Modelled from the spec: same identifier column constant, `&str` flavour. -/
def IdCol.to_lowercase_str : String := "id"

/-- Errors of schema parsing (`ParsedError` in the source), extended with a
`panicked` constructor modelling the source's `expect`/`unwrap` aborts so that
construction is total. -/
inductive ParsedError where
  | generic
  | parseError (msg : String)
  | unsupportedTypeKind
  | listTypesUnsupported
  | inconsistentVirtualUnion (name : String)
  | unionMemberNotFound (name : String)
  | panicked (msg : String)
deriving DecidableEq

/-- `extract_foreign_key_info`: given a field that is a possible foreign key
and the accumulated field-type index, return (column type, column name, table
name).  An explicit `join` directive takes its last argument as the referenced
column and fails (panic in the source) when the referenced qualified field id
is not in the index; without a directive the fixed defaults are returned. -/
def extract_foreign_key_info (f : FieldDefinition)
    (field_type_mappings : List (String × String)) :
    Except ParsedError (String × String × String) :=
  match f.directives.find? (fun d => decide (d.name = "join")) with
  | some d =>
    match d.arguments.getLast? with
    | none => .error (.panicked "Expected directive info")
    | some arg =>
      let typdef_name := field_type_name f
      let ref_field_name := arg.2
      match alLookup field_type_mappings (field_id typdef_name ref_field_name) with
      | none => .error (.panicked "Field ID not found in schema")
      | some fk_field_type =>
        .ok (stripDecorations fk_field_type, ref_field_name, rsToLower typdef_name)
  | none =>
    .ok ("UInt8", IdCol.to_lowercase_string, rsToLower (field_type_name f))

/-- The built-in `IndexMetadata` schema fragment appended to every effective
schema (`IndexMetadata::schema_fragment`). -/
def indexMetadataFragment : String :=
  "\n\ntype IndexMetadataEntity @entity \x7b\n    id: ID!\n    time: UInt8!\n    block_height: UInt8!\n    block_id: Bytes32!\n\x7d\n"

/-- `inject_native_entities_into_schema`. -/
def inject_native_entities_into_schema (s : String) : String :=
  s ++ indexMetadataFragment

/-- `schema_version`: SHA-256 content hash of the schema text.  The hash
itself lives in the external `sha2` crate, so it is a parameter of the
embedding. -/
def schema_version (sha : String → String) (schema : String) : String :=
  sha schema

/-- `GraphQLSchema`: stored (fragment-injected) schema text plus version. -/
structure GraphQLSchema where
  schema : String
  version : String
deriving DecidableEq

/-- `GraphQLSchema::new`: version hashed over the text *after* injecting the
metadata fragment. -/
def GraphQLSchema.new (sha : String → String) (content : String) : GraphQLSchema :=
  { schema := inject_native_entities_into_schema content,
    version := schema_version sha (inject_native_entities_into_schema content) }

/-- `impl From<String> for GraphQLSchema`: version hashed over the text
*before* injecting the metadata fragment. -/
def GraphQLSchema.ofString (sha : String → String) (s : String) : GraphQLSchema :=
  { schema := inject_native_entities_into_schema s,
    version := schema_version sha s }

/-! ## `fuel-indexer-lib/src/lib.rs` -/

/-- `join_table_name`: `format!("{}s_{}s", a, b)`. -/
def join_table_name (a b : String) : String :=
  a ++ "s_" ++ b ++ "s"

/-- Rust `str::split(c)` on a character, as a list-of-characters function. -/
def splitOnCharAux (c : Char) : List Char → List Char → List (List Char)
  | [], acc => [acc.reverse]
  | x :: xs, acc =>
    if x = c then acc.reverse :: splitOnCharAux c xs []
    else splitOnCharAux c xs (x :: acc)

def splitOnChar (c : Char) (l : List Char) : List (List Char) :=
  splitOnCharAux c l []

/-- `join_table_typedefs_name`: split on `_`, take the first two parts and trim
one trailing character from each.  The source's `unwrap` (fewer than two parts)
and its out-of-range byte slice on an empty part are modelled as `none`; the
byte slice `a[0..a.len() - 1]` is modelled as dropping the last character,
which is exact for parts ending in an ASCII character such as the `s`
appended by `join_table_name`. -/
def join_table_typedefs_name (s : String) : Option (String × String) :=
  match splitOnChar '_' s.data with
  | a :: b :: _ =>
    if a.isEmpty || b.isEmpty then none
    else some (⟨a.dropLast⟩, ⟨b.dropLast⟩)
  | _ => none

/-! ## `fuel-indexer-lib/src/graphql/parser.rs` -/

inductive JoinTableRelationType where
  | parent
  | child
deriving DecidableEq

structure JoinTableRelation where
  relation_type : JoinTableRelationType
  typedef_name : String
  column_name : String
  child_position : Option Nat
deriving DecidableEq

structure JoinTableMeta where
  parent : JoinTableRelation
  child : JoinTableRelation
deriving DecidableEq

/-- `JoinTableMeta::new`. -/
def JoinTableMeta.new (parent_typedef_name parent_column_name child_typedef_name
    child_column_name : String) (child_position : Option Nat) : JoinTableMeta :=
  { parent := { relation_type := .parent,
                typedef_name := parent_typedef_name,
                column_name := parent_column_name,
                child_position := child_position },
    child := { relation_type := .child,
               typedef_name := child_typedef_name,
               column_name := child_column_name,
               child_position := none } }

def JoinTableMeta.parent_table_name (m : JoinTableMeta) : String :=
  rsToLower m.parent.typedef_name

def JoinTableMeta.child_table_name (m : JoinTableMeta) : String :=
  rsToLower m.child.typedef_name

def JoinTableMeta.table_name (m : JoinTableMeta) : String :=
  join_table_name m.parent_table_name m.child_table_name

/-- `OrderedField`: a field definition paired with its declaration index. -/
structure OrderedField where
  field : FieldDefinition
  index : Nat
deriving DecidableEq

/-- `ExecutionSource` (`fuel-indexer-lib/src/lib.rs`). -/
inductive ExecutionSource where
  | native
  | wasm
deriving DecidableEq

/-- `build_schema_types_set`: the set of declared type names and the set of
declared directive names of a document. -/
def build_schema_types_set (doc : ServiceDocument) : List String × List String :=
  (sExtend [] (doc.filterMap (fun d =>
      match d with
      | .type t => some t.name
      | _ => none)),
   sExtend [] (doc.filterMap (fun d =>
      match d with
      | .directiveDef n => some n
      | _ => none)))

/-- Modelled from the spec: the names declared by the base schema of built-in
scalar types (`base.graphql` is not under `src/`; the spec describes "a base
set of built-in scalar/system type declarations (always merged in first)").
The list is representative: it contains every scalar used by the spec's
examples, including the fixed identifier scalar type `UInt8`. -/
def baseScalarNames : List String :=
  ["Address", "AssetId", "Blob", "BlockHeight", "Boolean", "Bytes", "Bytes32",
   "Bytes4", "Bytes64", "Bytes8", "Charfield", "HexString", "ID", "Int4",
   "Int8", "Int16", "Json", "MessageId", "Nonce", "Salt", "Timestamp",
   "UInt4", "UInt8", "UInt16"]

/-- The mutable state threaded through `ParsedGraphQLSchema::new`'s single
forward pass (one component per `let mut` of the source; `type_names` is
computed outside the loop and never consulted by it, so it is kept outside). -/
structure PState where
  object_field_mappings : List (String × List (String × String))
  parsed_typedef_names : List String
  enum_names : List String
  union_names : List String
  virtual_type_names : List String
  field_type_mappings : List (String × String)
  objects : List (String × ObjectType)
  field_defs : List (String × (FieldDefinition × String))
  field_type_optionality : List (String × Bool)
  foreign_key_mappings : List (String × List (String × (String × String)))
  type_defs : List (String × TypeDefinition)
  list_field_types : List String
  list_type_defs : List (String × TypeDefinition)
  unions : List (String × TypeDefinition)
  join_table_meta : List (String × List JoinTableMeta)
  object_ordered_fields : List (String × List OrderedField)
deriving DecidableEq

def PState.init : PState :=
  ⟨[], [], [], [], [], [], [], [], [], [], [], [], [], [], [], []⟩

/-- The `entity` directive test of the `TypeKind::Object` branch
(`parser.rs` lines 348-352). -/
def isEntityDecl (t : TypeDefinition) : Bool :=
  t.directives.any (fun dr => decide (dr.name = "entity"))

/-- The `virtual` flag test of the field loop (`parser.rs` lines 381-386):
any directive argument named `virtual` — the argument's value is not
inspected. -/
def hasVirtualArg (t : TypeDefinition) : Bool :=
  t.directives.any (fun d => d.arguments.any (fun a => decide (a.1 = "virtual")))

/-- Field-loop bookkeeping of the `TypeKind::Object` branch, lines 364-390:
the ordered-field cache, the list-type caches, and the virtual flag. -/
def objFieldCaches (t : TypeDefinition) (obj_name : String) (i : Nat)
    (f : FieldDefinition) (st : PState) : PState :=
  let st := { st with
      object_ordered_fields := alPush st.object_ordered_fields obj_name ⟨f, i⟩ }
  let st :=
    if is_list_type f then
      { st with
        list_field_types := sInsert st.list_field_types (stripBangs (GqlTy.render f.ty)),
        list_type_defs := alInsert st.list_type_defs obj_name t }
    else st
  if hasVirtualArg t then
    { st with virtual_type_names := sInsert st.virtual_type_names obj_name }
  else st

/-- Field-loop foreign-key handling of the `TypeKind::Object` branch, lines
392-448: the manual `is_possible_foreign_key` check gates foreign-key
resolution; list-typed foreign keys push join-table metadata keyed under the
object's declared name, and the foreign-key map is updated under the
lowercased name. -/
def objFieldFK (t : TypeDefinition) (obj_name : String) (i : Nat)
    (f : FieldDefinition) (st : PState) : Except ParsedError PState :=
  if smem (field_type_name f) st.parsed_typedef_names
      && !(smem (field_type_name f) baseScalarNames)
      && !(smem (field_type_name f) st.enum_names)
      && !(smem (field_type_name f) st.virtual_type_names) then
    match extract_foreign_key_info f st.field_type_mappings with
    | .error e => .error e
    | .ok (_, ref_colname, ref_tablename) =>
      let st :=
        if is_list_type f then
          { st with
              join_table_meta := alPush st.join_table_meta obj_name
                                   (JoinTableMeta.new (rsToLower obj_name)
                                     IdCol.to_lowercase_str ref_tablename
                                     ref_colname (some i)) }
        else st
      .ok { st with
          foreign_key_mappings :=
            match alLookup st.foreign_key_mappings (rsToLower t.name) with
            | some fks =>
              alInsert st.foreign_key_mappings (rsToLower t.name)
                (alInsert fks f.name (rsToLower (field_type_name f), ref_colname))
            | none =>
              alInsert st.foreign_key_mappings (rsToLower t.name)
                [(f.name, (rsToLower (field_type_name f), ref_colname))] }
  else .ok st

/-- Field-loop index entries of the `TypeKind::Object` branch, lines 450-458:
the parsed-name, optionality, field-type and field-definition caches, plus
the object's local field mapping. -/
def objFieldIndex (obj_name : String) (f : FieldDefinition) (st : PState)
    (fm : List (String × String)) : PState × List (String × String) :=
  let fid := field_id obj_name f.name
  let ftype := field_type_name f
  ({ st with
     parsed_typedef_names := sInsert st.parsed_typedef_names f.name,
     field_type_optionality :=
       alInsert st.field_type_optionality fid (GqlTy.outerNullable f.ty),
     field_type_mappings := alInsert st.field_type_mappings fid ftype,
     field_defs := alInsert st.field_defs fid (f, obj_name) },
   alInsert fm f.name ftype)

/-- One iteration of the field loop of the `TypeKind::Object` branch
(`parser.rs` lines 363-459), sequencing the three blocks above in source
order. -/
def processObjField (t : TypeDefinition) (obj_name : String) (i : Nat)
    (f : FieldDefinition) (st : PState) (fm : List (String × String)) :
    Except ParsedError (PState × List (String × String)) :=
  match objFieldFK t obj_name i f (objFieldCaches t obj_name i f st) with
  | .error e => .error e
  | .ok st' => .ok (objFieldIndex obj_name f st' fm)

/-- The field loop of the `TypeKind::Object` branch (`enumerate` supplies the
running index `i`). -/
def processObjFields (t : TypeDefinition) (obj_name : String) :
    List FieldDefinition → Nat → PState → List (String × String) →
    Except ParsedError (PState × List (String × String))
  | [], _, st, fm => .ok (st, fm)
  | f :: rest, i, st, fm =>
    match processObjField t obj_name i f st fm with
    | .error e => .error e
    | .ok (st', fm') => processObjFields t obj_name rest (i + 1) st' fm'

/-- The value loop of the `TypeKind::Enum` branch. -/
def processEnumVals (name : String) : List String → PState → PState
  | [], st => st
  | v :: rest, st =>
    let st := { st with
      object_field_mappings := alMapInsert st.object_field_mappings name v name,
      field_type_mappings :=
        alInsert st.field_type_mappings (name ++ "." ++ v) name }
    processEnumVals name rest st

/-- Modelled from the spec:
`GraphQLSchemaValidator::check_derived_union_is_well_formed` (the validator
module is not under `src/`).  Per the spec's classifier and error-handling
sections, a union's members must agree on virtual-type status — an
inconsistency is an error — and a union of virtual members is itself recorded
as virtual (the function receives the virtual-name set mutably). -/
def check_derived_union_is_well_formed (t : TypeDefinition) (members : List String)
    (st : PState) : Except ParsedError PState :=
  if (members.filter (fun m => smem m st.virtual_type_names)).length = 0 then .ok st
  else if (members.filter (fun m => smem m st.virtual_type_names)).length
      = members.length then
    .ok { st with virtual_type_names := sInsert st.virtual_type_names t.name }
  else .error (.inconsistentVirtualUnion t.name)

/-- The per-field part of the first member loop of the `TypeKind::Union`
branch: skip field names already processed (without advancing the running
ordinal), otherwise run the manual foreign-key check and push union-keyed
join-table metadata for list fields, advancing the ordinal. -/
def processUnionFields (union_name : String) :
    List FieldDefinition → PState → List String → Nat →
    Except ParsedError (PState × List String × Nat)
  | [], st, processed, pos => .ok (st, processed, pos)
  | f :: rest, st, processed, pos =>
    let ftype := field_type_name f
    let fid := field_id union_name f.name
    if smem fid processed then
      processUnionFields union_name rest st processed pos
    else
      let processed := sInsert processed fid
      if smem ftype st.parsed_typedef_names && !(smem ftype baseScalarNames)
          && !(smem ftype st.enum_names) && !(smem ftype st.virtual_type_names) then
        match extract_foreign_key_info f st.field_type_mappings with
        | .error e => .error e
        | .ok (_, ref_colname, ref_tablename) =>
          let st :=
            if is_list_type f then
              { st with
                  join_table_meta := alPush st.join_table_meta union_name
                                       (JoinTableMeta.new (rsToLower union_name)
                                         IdCol.to_lowercase_str ref_tablename
                                         ref_colname (some pos)) }
            else st
          processUnionFields union_name rest st processed (pos + 1)
      else processUnionFields union_name rest st processed (pos + 1)

/-- The first member loop of the `TypeKind::Union` branch: drop any join-table
metadata keyed under a member's own name, then derive union-keyed join-table
metadata from the member's fields (the member must already be a parsed object;
the source `expect`s). -/
def processUnionMembers (union_name : String) :
    List String → PState → List String → Nat →
    Except ParsedError (PState × List String × Nat)
  | [], st, processed, pos => .ok (st, processed, pos)
  | m :: rest, st, processed, pos =>
    let st :=
      if alContains st.join_table_meta m then
        { st with join_table_meta := alRemove st.join_table_meta m }
      else st
    match alLookup st.objects m with
    | none => .error (.panicked "Union member not found in parsed TypeDefinitions.")
    | some obj =>
      match processUnionFields union_name obj.fields st processed pos with
      | .error e => .error e
      | .ok (st', processed', pos') =>
        processUnionMembers union_name rest st' processed' pos'

/-- One member-field re-registration of the second member loop of the
`TypeKind::Union` branch: cache the field under the union's qualified name. -/
def reRegisterField (union_name member_name : String) (f : FieldDefinition)
    (st : PState) : PState :=
  let fid := field_id union_name f.name
  { st with
    field_defs := alInsert st.field_defs fid (f, member_name),
    field_type_mappings := alInsert st.field_type_mappings fid (field_type_name f),
    object_field_mappings :=
      alMapInsert st.object_field_mappings union_name f.name (field_type_name f),
    field_type_optionality :=
      alInsert st.field_type_optionality fid (GqlTy.outerNullable f.ty) }

def reRegisterFields (union_name member_name : String) :
    List FieldDefinition → PState → PState
  | [], st => st
  | f :: rest, st =>
    reRegisterFields union_name member_name rest
      (reRegisterField union_name member_name f st)

/-- The second member loop of the `TypeKind::Union` branch (the source
`unwrap`s the member lookup, which cannot fail after the first loop). -/
def reRegisterMembers (union_name : String) :
    List String → PState → Except ParsedError PState
  | [], st => .ok st
  | m :: rest, st =>
    match alLookup st.objects m with
    | none => .error (.panicked "called Option::unwrap on a None value")
    | some obj =>
      reRegisterMembers union_name rest (reRegisterFields union_name m obj.fields st)

/-- One top-level declaration of the forward pass of
`ParsedGraphQLSchema::new` (`parser.rs` lines 341-596).  Non-`Type`
declarations are skipped by the source's `if let`; objects without the
`entity` directive are skipped entirely; unsupported type kinds abort. -/
def processDef (st : PState) (d : TypeSystemDefinition) : Except ParsedError PState :=
  match d with
  | .type t =>
    match t.kind with
    | .object o =>
      let obj_name := t.name
      if isEntityDecl t then
        let st := { st with
          type_defs := alInsert st.type_defs obj_name t,
          objects := alInsert st.objects obj_name o,
          parsed_typedef_names := sInsert st.parsed_typedef_names obj_name }
        match processObjFields t obj_name o.fields 0 st [] with
        | .error e => .error e
        | .ok (st', fm) =>
          .ok { st' with
                object_field_mappings := alInsert st'.object_field_mappings obj_name fm }
      else .ok st
    | .enum vals =>
      let name := t.name
      let st := { st with
        type_defs := alInsert st.type_defs name t,
        virtual_type_names := sInsert st.virtual_type_names name,
        enum_names := sInsert st.enum_names name }
      .ok (processEnumVals name vals st)
    | .union members =>
      let union_name := t.name
      let st := { st with
        parsed_typedef_names := sInsert st.parsed_typedef_names union_name,
        type_defs := alInsert st.type_defs union_name t,
        unions := alInsert st.unions union_name t,
        union_names := sInsert st.union_names union_name }
      match check_derived_union_is_well_formed t members st with
      | .error e => .error e
      | .ok st' =>
        match processUnionMembers union_name members st' [] 0 with
        | .error e => .error e
        | .ok (st'', _, _) => reRegisterMembers union_name members st''
    | .unsupported => .error .unsupportedTypeKind
  | _ => .ok st

/-- The whole forward pass. -/
def processDefs : PState → List TypeSystemDefinition → Except ParsedError PState
  | st, [] => .ok st
  | st, d :: rest =>
    match processDef st d with
    | .error e => .error e
    | .ok st' => processDefs st' rest

/-- The aggregated semantic model (`ParsedGraphQLSchema`).  The field
`nspace` renders the source's `namespace` (a Lean keyword). -/
structure ParsedGraphQLSchema where
  nspace : String
  identifier : String
  exec_source : ExecutionSource
  type_names : List String
  typedef_names_to_types : List (String × String)
  objects : List (String × ObjectType)
  unions : List (String × TypeDefinition)
  enum_names : List String
  union_names : List String
  object_field_mappings : List (String × List (String × String))
  virtual_type_names : List String
  parsed_typedef_names : List String
  field_type_mappings : List (String × String)
  scalar_names : List String
  field_type_optionality : List (String × Bool)
  ast : ServiceDocument
  field_defs : List (String × (FieldDefinition × String))
  schema : GraphQLSchema
  foreign_key_mappings : List (String × List (String × (String × String)))
  type_defs : List (String × TypeDefinition)
  list_field_types : List String
  list_type_defs : List (String × TypeDefinition)
  join_table_meta : List (String × List JoinTableMeta)
  object_ordered_fields : List (String × List OrderedField)
deriving DecidableEq

/-- `typedef_names_to_types`: lowercase names of non-enum type definitions
mapped to their declared names (`parser.rs` lines 599-607). -/
def typedefNamesToTypes (type_defs : List (String × TypeDefinition)) :
    List (String × String) :=
  (type_defs.filter (fun p =>
      !(match p.2.kind with
        | .enum _ => true
        | _ => false))).foldl
    (fun acc p => alInsert acc (rsToLower p.1) p.1) []

/-- A placeholder inhabitant (used only to extract models from `Except` values
at concrete inputs; not a model of the source's `Default` implementation). -/
def ParsedGraphQLSchema.empty : ParsedGraphQLSchema :=
  ⟨"", "", .wasm, [], [], [], [], [], [], [], [], [], [], [], [], [], [],
   ⟨"", ""⟩, [], [], [], [], [], []⟩

/-- `ParsedGraphQLSchema::new`.  The document `doc` is the abstract syntax
tree that the external `parse_schema` produced from `schema.schema()` (the
IDL grammar is an out-of-scope collaborator); `schema` is the wrapped schema
content stored in the model. -/
def ParsedGraphQLSchema.new (nspace identifier : String)
    (exec_source : ExecutionSource) (schema : GraphQLSchema)
    (doc : ServiceDocument) : Except ParsedError ParsedGraphQLSchema :=
  let type_names := sExtend baseScalarNames (build_schema_types_set doc).1
  match processDefs PState.init doc with
  | .error e => .error e
  | .ok st =>
    .ok { nspace := nspace,
          identifier := identifier,
          exec_source := exec_source,
          type_names := type_names,
          typedef_names_to_types := typedefNamesToTypes st.type_defs,
          objects := st.objects,
          unions := st.unions,
          enum_names := st.enum_names,
          union_names := st.union_names,
          object_field_mappings := st.object_field_mappings,
          virtual_type_names := st.virtual_type_names,
          parsed_typedef_names := st.parsed_typedef_names,
          field_type_mappings := st.field_type_mappings,
          scalar_names := baseScalarNames,
          field_type_optionality := st.field_type_optionality,
          ast := doc,
          field_defs := st.field_defs,
          schema := schema,
          foreign_key_mappings := st.foreign_key_mappings,
          type_defs := st.type_defs,
          list_field_types := st.list_field_types,
          list_type_defs := st.list_type_defs,
          join_table_meta := st.join_table_meta,
          object_ordered_fields := st.object_ordered_fields }

/-- `is_enum_typedef`. -/
def ParsedGraphQLSchema.is_enum_typedef (s : ParsedGraphQLSchema) (name : String) : Bool :=
  smem name s.enum_names

/-- `is_virtual_typedef`. -/
def ParsedGraphQLSchema.is_virtual_typedef (s : ParsedGraphQLSchema) (name : String) : Bool :=
  smem name s.virtual_type_names && !(s.is_enum_typedef name)

/-- `is_possible_foreign_key`. -/
def ParsedGraphQLSchema.is_possible_foreign_key (s : ParsedGraphQLSchema) (name : String) : Bool :=
  smem name s.parsed_typedef_names && !(smem name s.scalar_names)
    && !(s.is_enum_typedef name) && !(s.is_virtual_typedef name)

/-- `is_union_typedef`. -/
def ParsedGraphQLSchema.is_union_typedef (s : ParsedGraphQLSchema) (name : String) : Bool :=
  smem name s.union_names

/-- `is_list_typedef`. -/
def ParsedGraphQLSchema.is_list_typedef (s : ParsedGraphQLSchema) (name : String) : Bool :=
  alContains s.list_type_defs name

/-- `has_type`. -/
def ParsedGraphQLSchema.has_type (s : ParsedGraphQLSchema) (name : String) : Bool :=
  smem name s.type_names

/-! ## Basic lemmas about the set/map models -/

theorem smem_iff {x : String} {s : List String} : smem x s = true ↔ x ∈ s := by
  simp [smem]

theorem smem_sInsert {s : List String} {x y : String} :
    smem y (sInsert s x) = true ↔ y = x ∨ smem y s = true := by
  unfold sInsert
  split
  · next h =>
    constructor
    · exact fun hy => Or.inr hy
    · rintro (rfl | hy)
      · exact h
      · exact hy
  · simp only [smem_iff, List.mem_append, List.mem_singleton]
    tauto

theorem smem_sInsert_self {s : List String} {x : String} :
    smem x (sInsert s x) = true :=
  smem_sInsert.mpr (Or.inl rfl)

theorem smem_sInsert_of {s : List String} {x y : String} (h : smem y s = true) :
    smem y (sInsert s x) = true :=
  smem_sInsert.mpr (Or.inr h)

theorem smem_sExtend {s : List String} {l : List String} {y : String} :
    smem y (sExtend s l) = true ↔ smem y s = true ∨ y ∈ l := by
  induction l generalizing s with
  | nil => simp [sExtend]
  | cons x xs ih =>
    show smem y (sExtend (sInsert s x) xs) = true ↔ _
    rw [ih, smem_sInsert]
    simp only [List.mem_cons]
    tauto

theorem alLookup_alInsert_self {α : Type} {m : List (String × α)} {k : String} {v : α} :
    alLookup (alInsert m k v) k = some v := by
  induction m with
  | nil => simp [alInsert, alLookup]
  | cons p rest ih =>
    obtain ⟨k', v'⟩ := p
    by_cases h : k' = k
    · simp [alInsert, h, alLookup]
    · simp [alInsert, h, alLookup, ih]

theorem alLookup_alInsert_ne {α : Type} {m : List (String × α)} {k k' : String} {v : α}
    (h : k' ≠ k) : alLookup (alInsert m k v) k' = alLookup m k' := by
  have hne : ¬ k = k' := fun hh => h hh.symm
  induction m with
  | nil => simp [alInsert, alLookup, hne]
  | cons p rest ih =>
    obtain ⟨k₀, v₀⟩ := p
    by_cases h₀ : k₀ = k
    · subst h₀
      simp [alInsert, alLookup, hne]
    · simp only [alInsert, if_neg h₀, alLookup]
      by_cases h₁ : k₀ = k'
      · simp [h₁]
      · simp [h₁, ih]

theorem alLookup_alPush_self {α : Type} {m : List (String × List α)} {k : String} {v : α} :
    alLookup (alPush m k v) k = some ((alLookup m k).getD [] ++ [v]) := by
  induction m with
  | nil => simp [alPush, alLookup]
  | cons p rest ih =>
    obtain ⟨k₀, l₀⟩ := p
    by_cases h : k₀ = k
    · simp [alPush, h, alLookup]
    · simp [alPush, h, alLookup, ih]

theorem alLookup_alPush_ne {α : Type} {m : List (String × List α)} {k k' : String} {v : α}
    (h : k' ≠ k) : alLookup (alPush m k v) k' = alLookup m k' := by
  have hne : ¬ k = k' := fun hh => h hh.symm
  induction m with
  | nil => simp [alPush, alLookup, hne]
  | cons p rest ih =>
    obtain ⟨k₀, l₀⟩ := p
    by_cases h₀ : k₀ = k
    · subst h₀
      simp [alPush, alLookup, hne]
    · simp only [alPush, if_neg h₀, alLookup]
      by_cases h₁ : k₀ = k'
      · simp [h₁]
      · simp [h₁, ih]

theorem alLookup_alRemove_self {α : Type} {m : List (String × α)} {k : String} :
    alLookup (alRemove m k) k = none := by
  induction m with
  | nil => simp [alRemove, alLookup]
  | cons p rest ih =>
    obtain ⟨k₀, v₀⟩ := p
    by_cases h : k₀ = k
    · simpa [alRemove, h] using ih
    · simpa [alRemove, alLookup, h] using ih

theorem alLookup_alRemove_ne {α : Type} {m : List (String × α)} {k k' : String}
    (h : k' ≠ k) : alLookup (alRemove m k) k' = alLookup m k' := by
  have hne : ¬ k = k' := fun hh => h hh.symm
  induction m with
  | nil => simp [alRemove, alLookup]
  | cons p rest ih =>
    obtain ⟨k₀, v₀⟩ := p
    by_cases h₀ : k₀ = k
    · subst h₀
      have : ¬ k₀ = k' := hne
      simp only [alRemove, List.filter_cons, decide_True, Bool.not_true,
        Bool.false_eq_true, if_false, alLookup, if_neg this]
      simpa [alRemove] using ih
    · simp only [alRemove, List.filter_cons]
      rw [if_pos (by simp [h₀])]
      by_cases h₁ : k₀ = k'
      · simp [alLookup, h₁]
      · simp only [alLookup, if_neg h₁]
        simpa [alRemove] using ih

/-! ## String facts used for `join_table_name` and the schema wrapper -/

theorem strData_append (s t : String) : (s ++ t).data = s.data ++ t.data := by
  cases s
  cases t
  rfl

theorem strMk_data (s : String) : (⟨s.data⟩ : String) = s := rfl

theorem splitOnCharAux_no_sep {c : Char} {l : List Char} (acc : List Char)
    (h : c ∉ l) : splitOnCharAux c l acc = [acc.reverse ++ l] := by
  induction l generalizing acc with
  | nil => simp [splitOnCharAux]
  | cons x xs ih =>
    have hx : ¬ x = c := fun hh => h (hh ▸ List.mem_cons_self x xs)
    have hxs : c ∉ xs := fun hh => h (List.mem_cons_of_mem x hh)
    simp only [splitOnCharAux, if_neg hx]
    rw [ih (x :: acc) hxs]
    simp

theorem splitOnCharAux_sep {c : Char} {l₁ l₂ : List Char} (acc : List Char)
    (h : c ∉ l₁) :
    splitOnCharAux c (l₁ ++ c :: l₂) acc =
      (acc.reverse ++ l₁) :: splitOnCharAux c l₂ [] := by
  induction l₁ generalizing acc with
  | nil => simp [splitOnCharAux]
  | cons x xs ih =>
    have hx : ¬ x = c := fun hh => h (hh ▸ List.mem_cons_self x xs)
    have hxs : c ∉ xs := fun hh => h (List.mem_cons_of_mem x hh)
    simp only [List.cons_append, splitOnCharAux, if_neg hx, List.append_eq]
    rw [ih (x :: acc) hxs]
    simp

/-! ## Claim C9: join-table naming and its inverse -/

/-- **C9**: `join_table_name a b` is the concatenation `as_bs` (in particular
`wallets_accounts` for `wallet`/`account`); for non-empty, underscore-free
inputs `join_table_typedefs_name` recovers the pair; and a first half with an
internal underscore is not faithfully inverted. -/
theorem C9_join_table_name_inverse :
    join_table_name "wallet" "account" = "wallets_accounts"
    ∧ (∀ a b : String, join_table_name a b = a ++ "s_" ++ b ++ "s")
    ∧ (∀ a b : String, a ≠ "" → b ≠ "" → '_' ∉ a.data → '_' ∉ b.data →
        join_table_typedefs_name (join_table_name a b) = some (a, b))
    ∧ join_table_typedefs_name (join_table_name "a_b" "c") ≠ some ("a_b", "c") := by
  refine ⟨rfl, fun a b => rfl, ?_, by decide⟩
  intro a b _ _ ha hb
  have hdata : (join_table_name a b).data =
      (a.data ++ ['s']) ++ '_' :: (b.data ++ ['s']) := by
    show (a ++ "s_" ++ b ++ "s").data = _
    rw [strData_append, strData_append, strData_append]
    simp
  have hsep : '_' ∉ a.data ++ ['s'] := by
    intro hmem
    rcases List.mem_append.mp hmem with h | h
    · exact ha h
    · simp at h
  have hsep2 : '_' ∉ b.data ++ ['s'] := by
    intro hmem
    rcases List.mem_append.mp hmem with h | h
    · exact hb h
    · simp at h
  have hsplit : splitOnChar '_' (join_table_name a b).data =
      [a.data ++ ['s'], b.data ++ ['s']] := by
    rw [hdata]
    unfold splitOnChar
    rw [splitOnCharAux_sep [] hsep, splitOnCharAux_no_sep [] hsep2]
    simp
  unfold join_table_typedefs_name
  rw [hsplit]
  have hne1 : (a.data ++ ['s']).isEmpty = false := by
    simp [List.isEmpty_iff]
  have hne2 : (b.data ++ ['s']).isEmpty = false := by
    simp [List.isEmpty_iff]
  simp only [hne1, hne2, Bool.or_self, Bool.false_eq_true, if_false]
  rw [show (a.data ++ ['s']).dropLast = a.data from by simp,
      show (b.data ++ ['s']).dropLast = b.data from by simp]

/-- Witness for C9: the inverse round-trips on `wallet`/`account`. -/
theorem C9_witness :
    join_table_typedefs_name (join_table_name "wallet" "account")
      = some ("wallet", "account") :=
  C9_join_table_name_inverse.2.2.1 "wallet" "account" (by decide) (by decide)
    (by decide) (by decide)

/-! ## Claim C8: the two schema-wrapping constructors -/

/-- **C8**: both constructors store the same (fragment-injected) schema
content, but `GraphQLSchema::new` hashes the text after appending the metadata
fragment while `From<String>` hashes the text before appending; the two
hashed inputs always differ as strings, so whenever the hash separates them
(as a content hash does) the two paths yield different version hashes. -/
theorem C8_schema_version_paths (sha : String → String) (s : String) :
    (GraphQLSchema.new sha s).schema = (GraphQLSchema.ofString sha s).schema
    ∧ (GraphQLSchema.new sha s).version = sha (inject_native_entities_into_schema s)
    ∧ (GraphQLSchema.ofString sha s).version = sha s
    ∧ inject_native_entities_into_schema s ≠ s
    ∧ (sha (inject_native_entities_into_schema s) ≠ sha s →
        (GraphQLSchema.new sha s).version ≠ (GraphQLSchema.ofString sha s).version) := by
  refine ⟨rfl, rfl, rfl, ?_, fun hne => hne⟩
  intro h
  have h2 : (inject_native_entities_into_schema s).data.length = s.data.length :=
    congrArg (fun t => t.data.length) h
  have h3 : (s.data ++ indexMetadataFragment.data).length = s.data.length := by
    rw [← strData_append]
    exact h2
  rw [List.length_append] at h3
  have h4 : indexMetadataFragment.data.length = 0 := by omega
  exact absurd h4 (by decide)

/-- Witness for C8 at a concrete hash function and input. -/
theorem C8_witness :
    (GraphQLSchema.new (fun x => x) "").version
      ≠ (GraphQLSchema.ofString (fun x => x) "").version :=
  (C8_schema_version_paths (fun x => x) "").2.2.2.2 (by decide)

/-! ## Claim C6: failure condition of foreign-key resolution -/

/-- The failure condition exactly as the claim words it (stated from the
spec's words for comparison with the code): the field carries an explicit
`join` directive whose referenced qualified field id — formed from the target
type name and the referenced column named by the directive — is absent from
the field-type index. -/
def joinRefAbsentSpec (f : FieldDefinition) (ftm : List (String × String)) : Bool :=
  match f.directives.find? (fun d => decide (d.name = "join")) with
  | none => false
  | some d =>
    match d.arguments.getLast? with
    | none => false
    | some arg => !(alContains ftm (field_id (field_type_name f) arg.2))

/-- A field carrying a bare `join` directive with no arguments. -/
def bareJoinField : FieldDefinition :=
  ⟨"account", .named "Account" false, [⟨"join", []⟩]⟩

/-- **C6 counterexample**: on a field with an argument-less `join` directive,
`extract_foreign_key_info` fails (the source's `.pop().expect(...)` panics)
although no referenced qualified field id is absent from the index — the
claim's "fails exactly when the referenced qualified field id is absent"
condition is false at this input while the code fails. -/
theorem C6_counterexample :
    (extract_foreign_key_info bareJoinField []).toOption = none
    ∧ joinRefAbsentSpec bareJoinField [] = false := by
  exact ⟨rfl, rfl⟩

/-- **C6 (amended)**: resolution of a field *without* a `join` directive never
fails and returns the implicit default descriptor (`UInt8`, `id`, lowercased
target type name); resolution of a field *with* a `join` directive fails
exactly when the directive carries no arguments at all or the referenced
qualified field id (target type name, referenced column name) is absent from
the field-type index. -/
theorem C6_extract_foreign_key_amended (f : FieldDefinition)
    (ftm : List (String × String)) :
    (f.directives.find? (fun d => decide (d.name = "join")) = none →
      extract_foreign_key_info f ftm
        = .ok ("UInt8", "id", rsToLower (field_type_name f)))
    ∧ (∀ d, f.directives.find? (fun d' => decide (d'.name = "join")) = some d →
        ((extract_foreign_key_info f ftm).toOption = none ↔
          (d.arguments.getLast? = none ∨
            ∃ arg, d.arguments.getLast? = some arg ∧
              alLookup ftm (field_id (field_type_name f) arg.2) = none))) := by
  constructor
  · intro h
    simp [extract_foreign_key_info, h, IdCol.to_lowercase_string]
  · intro d hd
    cases harg : d.arguments.getLast? with
    | none =>
      simp [extract_foreign_key_info, hd, harg, Except.toOption]
    | some arg =>
      cases hlk : alLookup ftm (field_id (field_type_name f) arg.2) with
      | none =>
        simp [extract_foreign_key_info, hd, harg, hlk, Except.toOption]
      | some v =>
        simp [extract_foreign_key_info, hd, harg, hlk, Except.toOption]

/-- Witness for C6 at a concrete directive-free field and index. -/
theorem C6_witness :
    extract_foreign_key_info ⟨"account", .named "Account" false, []⟩ []
      = .ok ("UInt8", "id", "account") :=
  (C6_extract_foreign_key_amended ⟨"account", .named "Account" false, []⟩ []).1 rfl

/-! ## Claim C1: the end-to-end schema of spec §8 -/

/-- The bare `@entity` directive. -/
def entityDir : Directive := ⟨"entity", []⟩

/-- The `@entity(virtual: true)` directive. -/
def virtualEntityDir : Directive := ⟨"entity", [("virtual", "true")]⟩

/-- A directive-free field. -/
def fld (n : String) (ty : GqlTy) : FieldDefinition := ⟨n, ty, []⟩

/-- `T!` (non-nullable named type). -/
def tyNN (n : String) : GqlTy := .named n false

/-- `T` (nullable named type). -/
def tyOpt (n : String) : GqlTy := .named n true

/-- `[T!]!` (non-nullable list of non-nullable named type). -/
def tyListNN (n : String) : GqlTy := .list (.named n false) false

/-- The end-to-end schema of spec §8, as the document the external parser
yields for `GraphQLSchema::new(...)`'s stored content: the user declarations
in their declared order, followed by the injected `IndexMetadataEntity`
fragment. -/
def c1Doc : ServiceDocument :=
  [.type ⟨"AccountLabel", [], .enum ["PRIMARY", "SECONDARY"]⟩,
   .type ⟨"Account", [entityDir], .object ⟨[fld "id" (tyNN "ID"),
      fld "address" (tyNN "Address"), fld "label" (tyOpt "AccountLabel")]⟩⟩,
   .type ⟨"User", [entityDir], .object ⟨[fld "id" (tyNN "ID"),
      fld "account" (tyNN "Account"), fld "username" (tyNN "Charfield")]⟩⟩,
   .type ⟨"Loser", [entityDir], .object ⟨[fld "id" (tyNN "ID"),
      fld "account" (tyNN "Account"), fld "age" (tyNN "UInt8")]⟩⟩,
   .type ⟨"Metadata", [virtualEntityDir], .object ⟨[fld "count" (tyNN "UInt8")]⟩⟩,
   .type ⟨"Person", [], .union ["User", "Loser"]⟩,
   .type ⟨"Wallet", [entityDir], .object ⟨[fld "id" (tyNN "ID"),
      fld "accounts" (tyListNN "Account")]⟩⟩,
   .type ⟨"Safe", [entityDir], .object ⟨[fld "id" (tyNN "ID"),
      fld "account" (tyListNN "Account")]⟩⟩,
   .type ⟨"Vault", [entityDir], .object ⟨[fld "id" (tyNN "ID"),
      fld "label" (tyNN "Charfield"), fld "user" (tyListNN "User")]⟩⟩,
   .type ⟨"Storage", [], .union ["Safe", "Vault"]⟩,
   .type ⟨"IndexMetadataEntity", [entityDir], .object ⟨[fld "id" (tyNN "ID"),
      fld "time" (tyNN "UInt8"), fld "block_height" (tyNN "UInt8"),
      fld "block_id" (tyNN "Bytes32")]⟩⟩]

/-- The model constructed from the §8 schema (the stored schema text is
opaque to the pass and irrelevant to the claims). -/
def c1Result : Except ParsedError ParsedGraphQLSchema :=
  ParsedGraphQLSchema.new "test" "test" .wasm ⟨"", ""⟩ c1Doc

/-- **C1**: on the §8 schema, construction succeeds and the join-table map
has exactly the keys `Wallet` and `Storage` (in particular neither `Safe` nor
`Vault`); `Wallet` holds the single entry parent=(wallet, id, pos 1),
child=(account, id); `Storage` holds exactly the entry parent=(storage, id,
pos 1), child=(account, id) derived from `Safe.account` and the entry
parent=(storage, id, pos 3), child=(user, id) derived from `Vault.user`, the
positions coming from the single running ordinal over first-occurrence fields
across both members. -/
theorem C1_end_to_end_join_tables :
    c1Result.toOption.map (fun m =>
      (m.join_table_meta.map Prod.fst,
       alLookup m.join_table_meta "Wallet",
       alLookup m.join_table_meta "Storage",
       alLookup m.join_table_meta "Safe",
       alLookup m.join_table_meta "Vault"))
    = some (["Wallet", "Storage"],
            some [JoinTableMeta.new "wallet" "id" "account" "id" (some 1)],
            some [JoinTableMeta.new "storage" "id" "account" "id" (some 1),
                  JoinTableMeta.new "storage" "id" "user" "id" (some 3)],
            none, none) := by
  rfl

/-! ## Step characterization lemmas: the object field loop -/

theorem sInsert_idem {s : List String} {x : String} :
    sInsert (sInsert s x) x = sInsert s x := by
  unfold sInsert
  split
  · rfl
  · rw [if_pos]
    have : smem x (s ++ [x]) = true := by simp [smem]
    simpa [sInsert] using this

theorem objFieldCaches_spec (t : TypeDefinition) (n : String) (i : Nat)
    (f : FieldDefinition) (st : PState) :
    (objFieldCaches t n i f st).parsed_typedef_names = st.parsed_typedef_names
    ∧ (objFieldCaches t n i f st).enum_names = st.enum_names
    ∧ (objFieldCaches t n i f st).union_names = st.union_names
    ∧ (objFieldCaches t n i f st).objects = st.objects
    ∧ (objFieldCaches t n i f st).unions = st.unions
    ∧ (objFieldCaches t n i f st).type_defs = st.type_defs
    ∧ (objFieldCaches t n i f st).field_type_mappings = st.field_type_mappings
    ∧ (objFieldCaches t n i f st).join_table_meta = st.join_table_meta
    ∧ (objFieldCaches t n i f st).virtual_type_names
        = (if hasVirtualArg t then sInsert st.virtual_type_names n
           else st.virtual_type_names) := by
  unfold objFieldCaches
  by_cases h1 : is_list_type f <;> by_cases h2 : hasVirtualArg t <;> simp [h1, h2]

theorem objFieldFK_spec {t : TypeDefinition} {n : String} {i : Nat}
    {f : FieldDefinition} {st st' : PState}
    (h : objFieldFK t n i f st = .ok st') :
    st'.parsed_typedef_names = st.parsed_typedef_names
    ∧ st'.enum_names = st.enum_names
    ∧ st'.union_names = st.union_names
    ∧ st'.virtual_type_names = st.virtual_type_names
    ∧ st'.objects = st.objects
    ∧ st'.unions = st.unions
    ∧ st'.type_defs = st.type_defs
    ∧ st'.field_type_mappings = st.field_type_mappings
    ∧ (∀ k, k ≠ n → alLookup st'.join_table_meta k = alLookup st.join_table_meta k)
    ∧ (st'.join_table_meta = st.join_table_meta
       ∨ ∃ meta, meta.parent.child_position = some i
           ∧ meta.parent.typedef_name = rsToLower n
           ∧ meta.parent.column_name = "id"
           ∧ st'.join_table_meta = alPush st.join_table_meta n meta) := by
  unfold objFieldFK at h
  split at h
  · -- the manual possible-foreign-key gate passed
    split at h
    · exact absurd h (by simp)
    · rename_i fst ref_colname ref_tablename heq
      rw [Except.ok.injEq] at h
      subst h
      by_cases hl : is_list_type f
      · refine ⟨by simp [hl], by simp [hl], by simp [hl], by simp [hl], by simp [hl],
          by simp [hl], by simp [hl], by simp [hl], ?_, ?_⟩
        · intro k hk
          simp only [hl, if_true]
          exact alLookup_alPush_ne hk
        · right
          refine ⟨JoinTableMeta.new (rsToLower n) IdCol.to_lowercase_str
            ref_tablename ref_colname (some i), rfl, rfl, rfl, by simp [hl]⟩
      · refine ⟨by simp [hl], by simp [hl], by simp [hl], by simp [hl], by simp [hl],
          by simp [hl], by simp [hl], by simp [hl], ?_, Or.inl (by simp [hl])⟩
        intro k hk
        simp [hl]
  · -- the gate failed: the state is unchanged
    rw [Except.ok.injEq] at h
    subst h
    exact ⟨rfl, rfl, rfl, rfl, rfl, rfl, rfl, rfl, fun k _ => rfl, Or.inl rfl⟩

theorem objFieldIndex_spec (n : String) (f : FieldDefinition) (st : PState)
    (fm : List (String × String)) :
    (objFieldIndex n f st fm).1.parsed_typedef_names
        = sInsert st.parsed_typedef_names f.name
    ∧ (objFieldIndex n f st fm).1.enum_names = st.enum_names
    ∧ (objFieldIndex n f st fm).1.union_names = st.union_names
    ∧ (objFieldIndex n f st fm).1.virtual_type_names = st.virtual_type_names
    ∧ (objFieldIndex n f st fm).1.objects = st.objects
    ∧ (objFieldIndex n f st fm).1.unions = st.unions
    ∧ (objFieldIndex n f st fm).1.type_defs = st.type_defs
    ∧ (objFieldIndex n f st fm).1.join_table_meta = st.join_table_meta := by
  unfold objFieldIndex
  simp

theorem processObjField_spec {t : TypeDefinition} {n : String} {i : Nat}
    {f : FieldDefinition} {st : PState} {fm : List (String × String)}
    {st' : PState} {fm' : List (String × String)}
    (h : processObjField t n i f st fm = .ok (st', fm')) :
    st'.enum_names = st.enum_names
    ∧ st'.union_names = st.union_names
    ∧ st'.objects = st.objects
    ∧ st'.unions = st.unions
    ∧ st'.type_defs = st.type_defs
    ∧ st'.parsed_typedef_names = sInsert st.parsed_typedef_names f.name
    ∧ st'.virtual_type_names
        = (if hasVirtualArg t then sInsert st.virtual_type_names n
           else st.virtual_type_names)
    ∧ (∀ k, k ≠ n → alLookup st'.join_table_meta k = alLookup st.join_table_meta k)
    ∧ (st'.join_table_meta = st.join_table_meta
       ∨ ∃ meta, meta.parent.child_position = some i
           ∧ meta.parent.typedef_name = rsToLower n
           ∧ meta.parent.column_name = "id"
           ∧ st'.join_table_meta = alPush st.join_table_meta n meta) := by
  unfold processObjField at h
  cases hfk : objFieldFK t n i f (objFieldCaches t n i f st) with
  | error e =>
    rw [hfk] at h
    exact absurd h (by simp)
  | ok stf =>
    rw [hfk] at h
    rw [Except.ok.injEq] at h
    have hst : st' = (objFieldIndex n f stf fm).1 := by rw [h]
    subst hst
    have hc := objFieldCaches_spec t n i f st
    have hf := objFieldFK_spec hfk
    have hidx := objFieldIndex_spec n f stf fm
    obtain ⟨hcp, hce, hcu, hco, hcun, hct, hcm, hcj, hcv⟩ := hc
    obtain ⟨hfp, hfe, hfu, hfv, hfo, hfun, hft, hfm, hfjne, hfj⟩ := hf
    obtain ⟨hip, hie, hiu, hiv, hio, hiun, hit, hij⟩ := hidx
    refine ⟨by rw [hie, hfe, hce], by rw [hiu, hfu, hcu], by rw [hio, hfo, hco],
      by rw [hiun, hfun, hcun], by rw [hit, hft, hct], by rw [hip, hfp, hcp],
      by rw [hiv, hfv, hcv], ?_, ?_⟩
    · intro k hk
      rw [hij, hfjne k hk, hcj]
    · rcases hfj with heq | ⟨meta, hm1, hm2, hm3, heq⟩
      · exact Or.inl (by rw [hij, heq, hcj])
      · exact Or.inr ⟨meta, hm1, hm2, hm3, by rw [hij, heq, hcj]⟩

/-! ## Loop characterization lemmas -/

theorem processObjFields_spec {t : TypeDefinition} {n : String} :
    ∀ {fs : List FieldDefinition} {i : Nat} {st : PState}
      {fm : List (String × String)} {st' : PState} {fm' : List (String × String)},
    processObjFields t n fs i st fm = .ok (st', fm') →
    st'.enum_names = st.enum_names
    ∧ st'.union_names = st.union_names
    ∧ st'.objects = st.objects
    ∧ st'.unions = st.unions
    ∧ st'.type_defs = st.type_defs
    ∧ (∀ x, smem x st.parsed_typedef_names = true →
        smem x st'.parsed_typedef_names = true)
    ∧ (∀ x, smem x st'.virtual_type_names = true ↔
        (smem x st.virtual_type_names = true
         ∨ (x = n ∧ hasVirtualArg t = true ∧ fs ≠ [])))
    ∧ (∀ k, k ≠ n → alLookup st'.join_table_meta k = alLookup st.join_table_meta k) := by
  intro fs
  induction fs with
  | nil =>
    intro i st fm st' fm' h
    rw [processObjFields, Except.ok.injEq, Prod.mk.injEq] at h
    obtain ⟨h1, _⟩ := h
    subst h1
    exact ⟨rfl, rfl, rfl, rfl, rfl, fun x hx => hx, fun x => by simp, fun k _ => rfl⟩
  | cons f rest ih =>
    intro i st fm st' fm' h
    rw [processObjFields] at h
    cases hstep : processObjField t n i f st fm with
    | error e =>
      rw [hstep] at h
      exact absurd h (by simp)
    | ok p =>
      obtain ⟨st₁, fm₁⟩ := p
      rw [hstep] at h
      obtain ⟨he, hu, ho, hun, htd, hp, hv, hj, hjd⟩ := processObjField_spec hstep
      obtain ⟨ihe, ihu, iho, ihun, ihtd, ihp, ihv, ihj⟩ := ih h
      refine ⟨by rw [ihe, he], by rw [ihu, hu], by rw [iho, ho], by rw [ihun, hun],
        by rw [ihtd, htd], ?_, ?_, ?_⟩
      · intro x hx
        exact ihp x (by rw [hp]; exact smem_sInsert_of hx)
      · intro x
        rw [ihv x, hv]
        by_cases hva : hasVirtualArg t
        · simp only [hva, if_true, smem_sInsert]
          constructor
          · rintro ((rfl | hx) | ⟨rfl, _, _⟩)
            · exact Or.inr ⟨rfl, trivial, by simp⟩
            · exact Or.inl hx
            · exact Or.inr ⟨rfl, trivial, by simp⟩
          · rintro (hx | ⟨rfl, _, _⟩)
            · exact Or.inl (Or.inr hx)
            · exact Or.inl (Or.inl rfl)
        · simp only [hva, if_false]
          constructor
          · rintro (hx | ⟨rfl, hva', _⟩)
            · exact Or.inl hx
            · exact (Bool.false_ne_true hva').elim
          · rintro (hx | ⟨rfl, hva', _⟩)
            · exact Or.inl hx
            · exact (Bool.false_ne_true hva').elim
      · intro k hk
        rw [ihj k hk, hj k hk]

theorem processUnionFields_spec {u : String} :
    ∀ {fs : List FieldDefinition} {st : PState} {pr : List String} {pos : Nat}
      {st' : PState} {pr' : List String} {pos' : Nat},
    processUnionFields u fs st pr pos = .ok (st', pr', pos') →
    st'.parsed_typedef_names = st.parsed_typedef_names
    ∧ st'.enum_names = st.enum_names
    ∧ st'.union_names = st.union_names
    ∧ st'.virtual_type_names = st.virtual_type_names
    ∧ st'.objects = st.objects
    ∧ st'.unions = st.unions
    ∧ st'.type_defs = st.type_defs
    ∧ st'.field_type_mappings = st.field_type_mappings
    ∧ (∀ k, k ≠ u → alLookup st'.join_table_meta k = alLookup st.join_table_meta k) := by
  intro fs
  induction fs with
  | nil =>
    intro st pr pos st' pr' pos' h
    rw [processUnionFields, Except.ok.injEq, Prod.mk.injEq] at h
    obtain ⟨h1, _⟩ := h
    subst h1
    exact ⟨rfl, rfl, rfl, rfl, rfl, rfl, rfl, rfl, fun k _ => rfl⟩
  | cons f rest ih =>
    intro st pr pos st' pr' pos' h
    rw [processUnionFields] at h
    split at h
    · exact ih h
    · split at h
      · split at h
        · exact absurd h (by simp)
        · split at h
          · -- list-typed: metadata pushed under the union's name
            obtain ⟨ip, ie, iu, iv, io, iun, it, im, ij⟩ := ih h
            refine ⟨by rw [ip], by rw [ie], by rw [iu], by rw [iv], by rw [io],
              by rw [iun], by rw [it], by rw [im], ?_⟩
            intro k hk
            rw [ij k hk]
            simp only []
            exact alLookup_alPush_ne hk
          · exact ih h
      · exact ih h

theorem processUnionMembers_spec {u : String} :
    ∀ {ms : List String} {st : PState} {pr : List String} {pos : Nat}
      {st' : PState} {pr' : List String} {pos' : Nat},
    processUnionMembers u ms st pr pos = .ok (st', pr', pos') →
    st'.parsed_typedef_names = st.parsed_typedef_names
    ∧ st'.enum_names = st.enum_names
    ∧ st'.union_names = st.union_names
    ∧ st'.virtual_type_names = st.virtual_type_names
    ∧ st'.objects = st.objects
    ∧ st'.unions = st.unions
    ∧ st'.type_defs = st.type_defs
    ∧ st'.field_type_mappings = st.field_type_mappings
    ∧ (∀ k, k ≠ u → alLookup st'.join_table_meta k
        = (if k ∈ ms then none else alLookup st.join_table_meta k))
    ∧ (∀ m ∈ ms, alLookup st.objects m ≠ none) := by
  intro ms
  induction ms with
  | nil =>
    intro st pr pos st' pr' pos' h
    rw [processUnionMembers, Except.ok.injEq, Prod.mk.injEq] at h
    obtain ⟨h1, _⟩ := h
    subst h1
    exact ⟨rfl, rfl, rfl, rfl, rfl, rfl, rfl, rfl, fun k _ => by simp, by simp⟩
  | cons m rest ih =>
    intro st pr pos st' pr' pos' h
    rw [processUnionMembers] at h
    -- the conditional removal step
    set st₀ : PState :=
      (if alContains st.join_table_meta m then
        { st with join_table_meta := alRemove st.join_table_meta m }
      else st) with hst₀
    have hst₀fields : st₀.parsed_typedef_names = st.parsed_typedef_names
        ∧ st₀.enum_names = st.enum_names
        ∧ st₀.union_names = st.union_names
        ∧ st₀.virtual_type_names = st.virtual_type_names
        ∧ st₀.objects = st.objects
        ∧ st₀.unions = st.unions
        ∧ st₀.type_defs = st.type_defs
        ∧ st₀.field_type_mappings = st.field_type_mappings := by
      rw [hst₀]
      split <;> exact ⟨rfl, rfl, rfl, rfl, rfl, rfl, rfl, rfl⟩
    have hst₀jm : alLookup st₀.join_table_meta m = none := by
      rw [hst₀]
      split
      · next hc => exact alLookup_alRemove_self
      · next hc =>
        cases hlk : alLookup st.join_table_meta m with
        | none => rfl
        | some v => simp [alContains, hlk] at hc
    have hst₀jne : ∀ k, k ≠ m →
        alLookup st₀.join_table_meta k = alLookup st.join_table_meta k := by
      intro k hk
      rw [hst₀]
      split
      · exact alLookup_alRemove_ne hk
      · rfl
    split at h
    · exact absurd h (by simp)
    · rename_i obj hobj
      split at h
      · exact absurd h (by simp)
      next st₁ pr₁ pos₁ hpf =>
        obtain ⟨fp, fe, fu, fv, fo, fun_, ft, fm_, fj⟩ := processUnionFields_spec hpf
        obtain ⟨rp, re, ru, rv, ro, run_, rt, rm, rj, robj⟩ := ih h
        obtain ⟨zp, ze, zu, zv, zo, zun, zt, zm⟩ := hst₀fields
        refine ⟨by rw [rp, fp, zp], by rw [re, fe, ze], by rw [ru, fu, zu],
          by rw [rv, fv, zv], by rw [ro, fo, zo], by rw [run_, fun_, zun],
          by rw [rt, ft, zt], by rw [rm, fm_, zm], ?_, ?_⟩
        · intro k hk
          rw [rj k hk]
          by_cases hkm : k ∈ (m :: rest)
          · rcases List.mem_cons.mp hkm with rfl | hkr
            · -- k = m : removed at this step, never re-added under a member key
              have hl1 : alLookup st₁.join_table_meta k = none := by
                rw [fj k hk]
                exact hst₀jm
              simp [hl1]
            · simp [hkr]
          · have hkr : ¬ k ∈ rest := fun hc => hkm (List.mem_cons_of_mem m hc)
            have hkm2 : k ≠ m := fun hc => hkm (hc ▸ List.mem_cons_self m rest)
            simp only [hkm, if_false, hkr, if_false]
            rw [fj k hk, hst₀jne k hkm2]
        · intro m2 hm2
          rcases List.mem_cons.mp hm2 with rfl | hm2r
          · rw [← zo]
            simp [hobj]
          · have hrest := robj m2 hm2r
            rw [fo, zo] at hrest
            exact hrest

theorem reRegisterFields_spec (u mn : String) :
    ∀ (fs : List FieldDefinition) (st : PState),
    (reRegisterFields u mn fs st).parsed_typedef_names = st.parsed_typedef_names
    ∧ (reRegisterFields u mn fs st).enum_names = st.enum_names
    ∧ (reRegisterFields u mn fs st).union_names = st.union_names
    ∧ (reRegisterFields u mn fs st).virtual_type_names = st.virtual_type_names
    ∧ (reRegisterFields u mn fs st).objects = st.objects
    ∧ (reRegisterFields u mn fs st).unions = st.unions
    ∧ (reRegisterFields u mn fs st).type_defs = st.type_defs
    ∧ (reRegisterFields u mn fs st).join_table_meta = st.join_table_meta := by
  intro fs
  induction fs with
  | nil =>
    intro st
    exact ⟨rfl, rfl, rfl, rfl, rfl, rfl, rfl, rfl⟩
  | cons f rest ih =>
    intro st
    obtain ⟨p, e, un, v, o, uu, td, j⟩ := ih (reRegisterField u mn f st)
    rw [reRegisterFields]
    exact ⟨by rw [p]; rfl, by rw [e]; rfl, by rw [un]; rfl, by rw [v]; rfl,
      by rw [o]; rfl, by rw [uu]; rfl, by rw [td]; rfl, by rw [j]; rfl⟩

theorem reRegisterMembers_spec {u : String} :
    ∀ {ms : List String} {st st' : PState},
    reRegisterMembers u ms st = .ok st' →
    st'.parsed_typedef_names = st.parsed_typedef_names
    ∧ st'.enum_names = st.enum_names
    ∧ st'.union_names = st.union_names
    ∧ st'.virtual_type_names = st.virtual_type_names
    ∧ st'.objects = st.objects
    ∧ st'.unions = st.unions
    ∧ st'.type_defs = st.type_defs
    ∧ st'.join_table_meta = st.join_table_meta := by
  intro ms
  induction ms with
  | nil =>
    intro st st' h
    rw [reRegisterMembers, Except.ok.injEq] at h
    subst h
    exact ⟨rfl, rfl, rfl, rfl, rfl, rfl, rfl, rfl⟩
  | cons m rest ih =>
    intro st st' h
    rw [reRegisterMembers] at h
    split at h
    · exact absurd h (by simp)
    · rename_i obj hobj
      obtain ⟨rp, re, ru, rv, ro, run_, rt, rj⟩ := ih h
      obtain ⟨p, e, un, v, o, uu, td, j⟩ := reRegisterFields_spec u m obj.fields st
      exact ⟨by rw [rp, p], by rw [re, e], by rw [ru, un], by rw [rv, v],
        by rw [ro, o], by rw [run_, uu], by rw [rt, td], by rw [rj, j]⟩

theorem check_derived_spec {t : TypeDefinition} {ms : List String} {st st' : PState}
    (h : check_derived_union_is_well_formed t ms st = .ok st') :
    st'.parsed_typedef_names = st.parsed_typedef_names
    ∧ st'.enum_names = st.enum_names
    ∧ st'.union_names = st.union_names
    ∧ st'.objects = st.objects
    ∧ st'.unions = st.unions
    ∧ st'.type_defs = st.type_defs
    ∧ st'.field_type_mappings = st.field_type_mappings
    ∧ st'.join_table_meta = st.join_table_meta
    ∧ (st'.virtual_type_names = st.virtual_type_names
       ∨ st'.virtual_type_names = sInsert st.virtual_type_names t.name) := by
  unfold check_derived_union_is_well_formed at h
  split at h
  · rw [Except.ok.injEq] at h
    subst h
    exact ⟨rfl, rfl, rfl, rfl, rfl, rfl, rfl, rfl, Or.inl rfl⟩
  · split at h
    · rw [Except.ok.injEq] at h
      subst h
      exact ⟨rfl, rfl, rfl, rfl, rfl, rfl, rfl, rfl, Or.inr rfl⟩
    · exact absurd h (by simp)

theorem processEnumVals_spec (n : String) :
    ∀ (vs : List String) (st : PState),
    (processEnumVals n vs st).parsed_typedef_names = st.parsed_typedef_names
    ∧ (processEnumVals n vs st).enum_names = st.enum_names
    ∧ (processEnumVals n vs st).union_names = st.union_names
    ∧ (processEnumVals n vs st).virtual_type_names = st.virtual_type_names
    ∧ (processEnumVals n vs st).objects = st.objects
    ∧ (processEnumVals n vs st).unions = st.unions
    ∧ (processEnumVals n vs st).type_defs = st.type_defs
    ∧ (processEnumVals n vs st).join_table_meta = st.join_table_meta := by
  intro vs
  induction vs with
  | nil =>
    intro st
    exact ⟨rfl, rfl, rfl, rfl, rfl, rfl, rfl, rfl⟩
  | cons v rest ih =>
    intro st
    rw [processEnumVals]
    obtain ⟨p, e, un, vv, o, uu, td, j⟩ :=
      ih { st with
        object_field_mappings := alMapInsert st.object_field_mappings n v n,
        field_type_mappings := alInsert st.field_type_mappings (n ++ "." ++ v) n }
    exact ⟨by rw [p], by rw [e], by rw [un], by rw [vv], by rw [o], by rw [uu],
      by rw [td], by rw [j]⟩

/-! ## Declaration-level characterization lemmas -/

theorem processDef_nonType {st : PState} {d : TypeSystemDefinition}
    (hd : ∀ t, d ≠ .type t) : processDef st d = .ok st := by
  cases d with
  | type t => exact absurd rfl (hd t)
  | directiveDef n => rfl
  | schemaDef => rfl

theorem processDef_skip {st : PState} {t : TypeDefinition} {o : ObjectType}
    (hk : t.kind = .object o) (hent : isEntityDecl t = false) :
    processDef st (.type t) = .ok st := by
  obtain ⟨tn, tdirs, tkind⟩ := t
  simp only at hk
  subst hk
  simp only [processDef]
  rw [if_neg (by simp_all)]

theorem processDef_object_spec {st st' : PState} {t : TypeDefinition} {o : ObjectType}
    (hk : t.kind = .object o) (hent : isEntityDecl t = true)
    (h : processDef st (.type t) = .ok st') :
    st'.unions = st.unions
    ∧ st'.enum_names = st.enum_names
    ∧ st'.union_names = st.union_names
    ∧ smem t.name st'.parsed_typedef_names = true
    ∧ (∀ x, smem x st.parsed_typedef_names = true →
        smem x st'.parsed_typedef_names = true)
    ∧ (∀ x, smem x st'.virtual_type_names = true ↔
        (smem x st.virtual_type_names = true
         ∨ (x = t.name ∧ hasVirtualArg t = true ∧ o.fields ≠ [])))
    ∧ (∀ k, alLookup st.objects k ≠ none → alLookup st'.objects k ≠ none)
    ∧ (∀ k, k ≠ t.name → alLookup st'.objects k = alLookup st.objects k)
    ∧ (∀ k, k ≠ t.name →
        alLookup st'.join_table_meta k = alLookup st.join_table_meta k)
    ∧ (∀ k, alLookup st'.objects k ≠ none →
        alLookup st.objects k ≠ none ∨ k = t.name)
    ∧ (∀ k, alLookup st'.join_table_meta k ≠ none →
        alLookup st.join_table_meta k ≠ none ∨ k = t.name) := by
  obtain ⟨tn, tdirs, tkind⟩ := t
  simp only at hk
  subst hk
  simp only [processDef] at h
  rw [if_pos hent] at h
  split at h
  · exact absurd h (by simp)
  next p st₁ fm₁ hpof =>
    rw [Except.ok.injEq] at h
    have hst : st' = { st₁ with
        object_field_mappings := alInsert st₁.object_field_mappings tn fm₁ } := by
      rw [← h]
    subst hst
    obtain ⟨pe, pu, po, pun, ptd, pp, pv, pj⟩ := processObjFields_spec hpof
    simp only at pe pu po pun ptd pp pv pj ⊢
    refine ⟨by rw [pun], by rw [pe], by rw [pu], ?_, ?_, ?_, ?_, ?_, ?_, ?_, ?_⟩
    · exact pp tn (smem_sInsert_self)
    · intro x hx
      exact pp x (smem_sInsert_of hx)
    · intro x
      exact pv x
    · intro k hx
      rw [po]
      cases hlk : alLookup st.objects k with
      | none => exact absurd hlk hx
      | some v =>
        by_cases hkn : k = tn
        · subst hkn
          rw [show alLookup (alInsert st.objects k o) k = some o from alLookup_alInsert_self]
          simp
        · rw [alLookup_alInsert_ne hkn, hlk]
          simp
    · intro k hk
      rw [po]
      exact alLookup_alInsert_ne hk
    · intro k hk
      rw [pj k hk]
    · intro k hx
      rw [po] at hx
      by_cases hkn : k = tn
      · exact Or.inr hkn
      · rw [alLookup_alInsert_ne hkn] at hx
        exact Or.inl hx
    · intro k hx
      by_cases hkn : k = tn
      · exact Or.inr hkn
      · rw [pj k hkn] at hx
        exact Or.inl hx

theorem processDef_enum_spec {st st' : PState} {t : TypeDefinition} {vals : List String}
    (hk : t.kind = .enum vals)
    (h : processDef st (.type t) = .ok st') :
    st'.objects = st.objects
    ∧ st'.unions = st.unions
    ∧ st'.union_names = st.union_names
    ∧ st'.join_table_meta = st.join_table_meta
    ∧ st'.parsed_typedef_names = st.parsed_typedef_names
    ∧ st'.enum_names = sInsert st.enum_names t.name
    ∧ st'.virtual_type_names = sInsert st.virtual_type_names t.name := by
  obtain ⟨tn, tdirs, tkind⟩ := t
  simp only at hk
  subst hk
  simp only [processDef, Except.ok.injEq] at h
  obtain ⟨p, e, un, v, o, uu, td, j⟩ := processEnumVals_spec tn vals
    { st with
      type_defs := alInsert st.type_defs tn (⟨tn, tdirs, .enum vals⟩ : TypeDefinition),
      virtual_type_names := sInsert st.virtual_type_names tn,
      enum_names := sInsert st.enum_names tn }
  rw [← h]
  simp only at p e un v o uu td j ⊢
  exact ⟨by rw [o], by rw [uu], by rw [un], by rw [j], by rw [p], by rw [e], by rw [v]⟩

theorem processDef_union_spec {st st' : PState} {t : TypeDefinition} {ms : List String}
    (hk : t.kind = .union ms)
    (h : processDef st (.type t) = .ok st') :
    st'.objects = st.objects
    ∧ st'.enum_names = st.enum_names
    ∧ (∀ v, alLookup st'.unions t.name = some v → v = t)
    ∧ (∀ S, S ≠ t.name → alLookup st'.unions S = alLookup st.unions S)
    ∧ (∀ x, smem x st.parsed_typedef_names = true →
        smem x st'.parsed_typedef_names = true)
    ∧ (∀ x, smem x st.virtual_type_names = true →
        smem x st'.virtual_type_names = true)
    ∧ (∀ x, smem x st'.virtual_type_names = true →
        smem x st.virtual_type_names = true ∨ x = t.name)
    ∧ (∀ k, k ≠ t.name → alLookup st'.join_table_meta k
        = (if k ∈ ms then none else alLookup st.join_table_meta k))
    ∧ (∀ m ∈ ms, alLookup st.objects m ≠ none)
    ∧ (∀ k, alLookup st'.join_table_meta k ≠ none →
        alLookup st.join_table_meta k ≠ none ∨ k = t.name) := by
  obtain ⟨tn, tdirs, tkind⟩ := t
  simp only at hk
  subst hk
  simp only [processDef] at h
  split at h
  · exact absurd h (by simp)
  next st₁ hchk =>
    split at h
    · exact absurd h (by simp)
    next p st₂ pr₂ pos₂ hpum =>
      obtain ⟨cp, ce, cun, co, cu, ctd, cm, cj, cv⟩ := check_derived_spec hchk
      obtain ⟨mp, me, mun, mv, mo, mu, mtd, mm, mj, mobj⟩ := processUnionMembers_spec hpum
      obtain ⟨rp, re, run_, rv, ro, ru, rtd, rj⟩ := reRegisterMembers_spec h
      simp only at cp ce cun co cu ctd cm cj cv mp me mun mv mo mu mtd mm mj mobj ⊢
      refine ⟨?_, ?_, ?_, ?_, ?_, ?_, ?_, ?_, ?_, ?_⟩
      · rw [ro, mo, co]
      · rw [re, me, ce]
      · intro v hv
        rw [ru, mu, cu] at hv
        simp only [alLookup_alInsert_self, Option.some.injEq] at hv
        exact hv.symm
      · intro S hS
        rw [ru, mu, cu]
        exact alLookup_alInsert_ne hS
      · intro x hx
        rw [rp, mp, cp]
        exact smem_sInsert_of hx
      · intro x hx
        rw [rv, mv]
        rcases cv with hcv | hcv
        · rw [hcv]
          exact hx
        · rw [hcv]
          exact smem_sInsert_of hx
      · intro x hx
        rw [rv, mv] at hx
        rcases cv with hcv | hcv
        · rw [hcv] at hx
          exact Or.inl hx
        · rw [hcv] at hx
          rcases smem_sInsert.mp hx with rfl | hx2
          · exact Or.inr rfl
          · exact Or.inl hx2
      · intro k hk
        rw [rj, mj k hk, cj]
      · intro m hm
        have := mobj m hm
        rw [co] at this
        simpa using this
      · intro k hx
        by_cases hkn : k = tn
        · exact Or.inr hkn
        · rw [rj, mj k hkn, cj] at hx
          by_cases hkm : k ∈ ms
          · rw [if_pos hkm] at hx
            exact absurd rfl hx
          · rw [if_neg hkm] at hx
            exact Or.inl (by simpa using hx)

/-- Why a name can enter the virtual-type set while processing one
declaration: a virtual-flagged entity object with at least one field, an
enum, or a union (via the validator). -/
def virtualCause (t : TypeDefinition) : Prop :=
  (∃ o, t.kind = .object o ∧ isEntityDecl t = true ∧ o.fields ≠ []
    ∧ hasVirtualArg t = true)
  ∨ (∃ vals, t.kind = .enum vals) ∨ (∃ ms, t.kind = .union ms)

theorem processDef_sets_spec {st st' : PState} {d : TypeSystemDefinition}
    (h : processDef st d = .ok st') :
    (∀ x, smem x st.parsed_typedef_names = true →
      smem x st'.parsed_typedef_names = true)
    ∧ (∀ x, smem x st.virtual_type_names = true →
      smem x st'.virtual_type_names = true)
    ∧ (∀ x, smem x st'.virtual_type_names = true →
      smem x st.virtual_type_names = true
      ∨ ∃ t, d = .type t ∧ x = t.name ∧ virtualCause t)
    ∧ (∀ x, smem x st'.enum_names = true ↔
      (smem x st.enum_names = true
       ∨ ∃ t vals, d = .type t ∧ t.kind = .enum vals ∧ x = t.name))
    ∧ (∀ k, alLookup st'.join_table_meta k ≠ none →
      alLookup st.join_table_meta k ≠ none ∨ ∃ t, d = .type t ∧ k = t.name)
    ∧ (∀ k, alLookup st'.objects k ≠ none →
      alLookup st.objects k ≠ none ∨ ∃ t, d = .type t ∧ k = t.name)
    ∧ (∀ S v, alLookup st'.unions S = some v →
      alLookup st.unions S = some v ∨ ∃ t, d = .type t ∧ S = t.name) := by
  cases d with
  | directiveDef nm =>
    rw [processDef_nonType (by intro t hc; exact absurd hc (by simp)), Except.ok.injEq] at h
    subst h
    exact ⟨fun x hx => hx, fun x hx => hx, fun x hx => Or.inl hx,
      fun x => ⟨fun hx => Or.inl hx, fun hx => hx.elim id
        (fun ⟨t, vals, hdt, _, _⟩ => by cases hdt)⟩,
      fun k hk => Or.inl hk, fun k hk => Or.inl hk, fun S v hv => Or.inl hv⟩
  | schemaDef =>
    rw [processDef_nonType (by intro t hc; exact absurd hc (by simp)), Except.ok.injEq] at h
    subst h
    exact ⟨fun x hx => hx, fun x hx => hx, fun x hx => Or.inl hx,
      fun x => ⟨fun hx => Or.inl hx, fun hx => hx.elim id
        (fun ⟨t, vals, hdt, _, _⟩ => by cases hdt)⟩,
      fun k hk => Or.inl hk, fun k hk => Or.inl hk, fun S v hv => Or.inl hv⟩
  | type t =>
    cases ht : t.kind with
    | object o =>
      by_cases hent : isEntityDecl t = true
      · obtain ⟨ou, oe, oun, oself, opar, ovirt, oobj, oobjne, ojne, oobju, ojtu⟩ :=
          processDef_object_spec ht hent h
        refine ⟨opar, ?_, ?_, ?_, ?_, ?_, ?_⟩
        · intro x hx
          exact (ovirt x).mpr (Or.inl hx)
        · intro x hx
          rcases (ovirt x).mp hx with hx' | ⟨rfl, hva, hfs⟩
          · exact Or.inl hx'
          · exact Or.inr ⟨t, rfl, rfl, Or.inl ⟨o, ht, hent, hfs, hva⟩⟩
        · intro x
          rw [oe]
          refine ⟨fun hx => Or.inl hx, fun hx => ?_⟩
          rcases hx with hx | ⟨t', vals, hdt, hkind, _⟩
          · exact hx
          · rw [TypeSystemDefinition.type.injEq] at hdt
            subst hdt
            rw [ht] at hkind
            cases hkind
        · intro k hk
          rcases ojtu k hk with hk' | rfl
          · exact Or.inl hk'
          · exact Or.inr ⟨t, rfl, rfl⟩
        · intro k hk
          rcases oobju k hk with hk' | rfl
          · exact Or.inl hk'
          · exact Or.inr ⟨t, rfl, rfl⟩
        · intro S v hv
          rw [ou] at hv
          exact Or.inl hv
      · rw [processDef_skip ht (by simpa using hent), Except.ok.injEq] at h
        subst h
        exact ⟨fun x hx => hx, fun x hx => hx, fun x hx => Or.inl hx,
          fun x => ⟨fun hx => Or.inl hx, fun hx => hx.elim id
            (fun ⟨t', vals, hdt, hkind, _⟩ => by
              rw [TypeSystemDefinition.type.injEq] at hdt
              subst hdt
              rw [ht] at hkind
              cases hkind)⟩,
          fun k hk => Or.inl hk, fun k hk => Or.inl hk, fun S v hv => Or.inl hv⟩
    | enum vals =>
      obtain ⟨eo, eu, eun, ej, ep, ee, ev⟩ := processDef_enum_spec ht h
      refine ⟨?_, ?_, ?_, ?_, ?_, ?_, ?_⟩
      · intro x hx
        rw [ep]
        exact hx
      · intro x hx
        rw [ev]
        exact smem_sInsert_of hx
      · intro x hx
        rw [ev] at hx
        rcases smem_sInsert.mp hx with rfl | hx'
        · exact Or.inr ⟨t, rfl, rfl, Or.inr (Or.inl ⟨vals, ht⟩)⟩
        · exact Or.inl hx'
      · intro x
        rw [ee]
        rw [smem_sInsert]
        constructor
        · rintro (rfl | hx)
          · exact Or.inr ⟨t, vals, rfl, ht, rfl⟩
          · exact Or.inl hx
        · rintro (hx | ⟨t', vals', hdt, hkind, rfl⟩)
          · exact Or.inr hx
          · rw [TypeSystemDefinition.type.injEq] at hdt
            subst hdt
            exact Or.inl rfl
      · intro k hk
        rw [ej] at hk
        exact Or.inl hk
      · intro k hk
        rw [eo] at hk
        exact Or.inl hk
      · intro S v hv
        rw [eu] at hv
        exact Or.inl hv
    | union ms =>
      obtain ⟨uo, ue, uself, une, up, uv, uvu, uj, uobj, uju⟩ :=
        processDef_union_spec ht h
      refine ⟨up, uv, ?_, ?_, ?_, ?_, ?_⟩
      · intro x hx
        rcases uvu x hx with hx' | rfl
        · exact Or.inl hx'
        · exact Or.inr ⟨t, rfl, rfl, Or.inr (Or.inr ⟨ms, ht⟩)⟩
      · intro x
        rw [ue]
        refine ⟨fun hx => Or.inl hx, fun hx => ?_⟩
        rcases hx with hx | ⟨t', vals, hdt, hkind, _⟩
        · exact hx
        · rw [TypeSystemDefinition.type.injEq] at hdt
          subst hdt
          rw [ht] at hkind
          cases hkind
      · intro k hk
        rcases uju k hk with hk' | rfl
        · exact Or.inl hk'
        · exact Or.inr ⟨t, rfl, rfl⟩
      · intro k hk
        rw [uo] at hk
        exact Or.inl hk
      · intro S v hv
        by_cases hS : S = t.name
        · exact Or.inr ⟨t, rfl, hS⟩
        · rw [une S hS] at hv
          exact Or.inl hv
    | unsupported =>
      obtain ⟨tn, tdirs, tkind⟩ := t
      simp only at ht
      subst ht
      simp only [processDef] at h
      exact absurd h (by simp)

/-! ## Document-level lemmas -/

/-- The names of the type declarations of a document, in order. -/
def typeNames (doc : ServiceDocument) : List String :=
  doc.filterMap (fun d =>
    match d with
    | .type t => some t.name
    | _ => none)

theorem processDefs_decomp :
    ∀ {l₁ l₂ : List TypeSystemDefinition} {st st' : PState},
    processDefs st (l₁ ++ l₂) = .ok st' →
    ∃ st₁, processDefs st l₁ = .ok st₁ ∧ processDefs st₁ l₂ = .ok st' := by
  intro l₁
  induction l₁ with
  | nil =>
    intro l₂ st st' h
    exact ⟨st, rfl, h⟩
  | cons d rest ih =>
    intro l₂ st st' h
    rw [List.cons_append, processDefs] at h
    split at h
    · exact absurd h (by simp)
    · next st₁ hd =>
      obtain ⟨st₂, h₂, h₃⟩ := ih h
      refine ⟨st₂, ?_, h₃⟩
      rw [processDefs, hd]
      exact h₂

theorem processDef_jtm_preserve {st st' : PState} {d : TypeSystemDefinition}
    {k : String} (h : processDef st d = .ok st')
    (hn : ∀ t, d = .type t → t.name ≠ k)
    (hm : ∀ t ms, d = .type t → t.kind = .union ms → ¬ k ∈ ms) :
    alLookup st'.join_table_meta k = alLookup st.join_table_meta k := by
  cases d with
  | directiveDef nm =>
    rw [processDef_nonType (by intro t hc; exact absurd hc (by simp)),
      Except.ok.injEq] at h
    rw [← h]
  | schemaDef =>
    rw [processDef_nonType (by intro t hc; exact absurd hc (by simp)),
      Except.ok.injEq] at h
    rw [← h]
  | type t =>
    have hk : t.name ≠ k := hn t rfl
    cases ht : t.kind with
    | object o =>
      by_cases hent : isEntityDecl t = true
      · obtain ⟨_, _, _, _, _, _, _, _, ojne, _, _⟩ := processDef_object_spec ht hent h
        exact ojne k (fun hc => hk hc.symm)
      · rw [processDef_skip ht (by simpa using hent), Except.ok.injEq] at h
        rw [← h]
    | enum vals =>
      obtain ⟨_, _, _, ej, _, _, _⟩ := processDef_enum_spec ht h
      rw [ej]
    | union ms =>
      obtain ⟨_, _, _, _, _, _, _, uj, _, _⟩ := processDef_union_spec ht h
      rw [uj k (fun hc => hk hc.symm), if_neg (hm t ms rfl ht)]
    | unsupported =>
      obtain ⟨tn, tdirs, tkind⟩ := t
      simp only at ht
      subst ht
      simp only [processDef] at h
      exact absurd h (by simp)

theorem processDefs_sets_spec :
    ∀ {defs : List TypeSystemDefinition} {st st' : PState},
    processDefs st defs = .ok st' →
    (∀ x, smem x st.parsed_typedef_names = true →
      smem x st'.parsed_typedef_names = true)
    ∧ (∀ x, smem x st.virtual_type_names = true →
      smem x st'.virtual_type_names = true)
    ∧ (∀ x, smem x st'.virtual_type_names = true →
      smem x st.virtual_type_names = true
      ∨ ∃ t, (TypeSystemDefinition.type t) ∈ defs ∧ x = t.name ∧ virtualCause t)
    ∧ (∀ x, smem x st'.enum_names = true ↔
      (smem x st.enum_names = true
       ∨ ∃ t vals, (TypeSystemDefinition.type t) ∈ defs ∧ t.kind = .enum vals
           ∧ x = t.name))
    ∧ (∀ k, alLookup st'.join_table_meta k ≠ none →
      alLookup st.join_table_meta k ≠ none
      ∨ ∃ t, (TypeSystemDefinition.type t) ∈ defs ∧ k = t.name)
    ∧ (∀ k, alLookup st'.objects k ≠ none →
      alLookup st.objects k ≠ none
      ∨ ∃ t, (TypeSystemDefinition.type t) ∈ defs ∧ k = t.name)
    ∧ (∀ S v, alLookup st'.unions S = some v →
      alLookup st.unions S = some v
      ∨ ∃ t, (TypeSystemDefinition.type t) ∈ defs ∧ S = t.name) := by
  intro defs
  induction defs with
  | nil =>
    intro st st' h
    rw [processDefs, Except.ok.injEq] at h
    subst h
    exact ⟨fun x hx => hx, fun x hx => hx, fun x hx => Or.inl hx,
      fun x => ⟨fun hx => Or.inl hx, fun hx => hx.elim id
        (fun ⟨t, vals, hmem, _, _⟩ => absurd hmem (by simp))⟩,
      fun k hk => Or.inl hk, fun k hk => Or.inl hk, fun S v hv => Or.inl hv⟩
  | cons d rest ih =>
    intro st st' h
    rw [processDefs] at h
    split at h
    · exact absurd h (by simp)
    · next st₁ hd =>
      obtain ⟨dp, dvm, dvu, de, dj, dob, dun⟩ := processDef_sets_spec hd
      obtain ⟨ip, ivm, ivu, ie, ij, iob, iun⟩ := ih h
      refine ⟨fun x hx => ip x (dp x hx), fun x hx => ivm x (dvm x hx), ?_, ?_, ?_, ?_, ?_⟩
      · intro x hx
        rcases ivu x hx with hx' | ⟨t, hmem, hxt, hc⟩
        · rcases dvu x hx' with hx'' | ⟨t, hdt, hxt, hc⟩
          · exact Or.inl hx''
          · exact Or.inr ⟨t, by rw [hdt]; exact List.mem_cons_self _ _, hxt, hc⟩
        · exact Or.inr ⟨t, List.mem_cons_of_mem d hmem, hxt, hc⟩
      · intro x
        rw [ie x]
        constructor
        · rintro (hx | ⟨t, vals, hmem, hkind, hxt⟩)
          · rcases (de x).mp hx with hx' | ⟨t, vals, hdt, hkind, hxt⟩
            · exact Or.inl hx'
            · exact Or.inr ⟨t, vals, by rw [hdt]; exact List.mem_cons_self _ _, hkind, hxt⟩
          · exact Or.inr ⟨t, vals, List.mem_cons_of_mem d hmem, hkind, hxt⟩
        · rintro (hx | ⟨t, vals, hmem, hkind, hxt⟩)
          · exact Or.inl ((de x).mpr (Or.inl hx))
          · rcases List.mem_cons.mp hmem with rfl | hmem'
            · exact Or.inl ((de x).mpr (Or.inr ⟨t, vals, rfl, hkind, hxt⟩))
            · exact Or.inr ⟨t, vals, hmem', hkind, hxt⟩
      · intro k hk
        rcases ij k hk with hk' | ⟨t, hmem, hkt⟩
        · rcases dj k hk' with hk'' | ⟨t, hdt, hkt⟩
          · exact Or.inl hk''
          · exact Or.inr ⟨t, by rw [hdt]; exact List.mem_cons_self _ _, hkt⟩
        · exact Or.inr ⟨t, List.mem_cons_of_mem d hmem, hkt⟩
      · intro k hk
        rcases iob k hk with hk' | ⟨t, hmem, hkt⟩
        · rcases dob k hk' with hk'' | ⟨t, hdt, hkt⟩
          · exact Or.inl hk''
          · exact Or.inr ⟨t, by rw [hdt]; exact List.mem_cons_self _ _, hkt⟩
        · exact Or.inr ⟨t, List.mem_cons_of_mem d hmem, hkt⟩
      · intro S v hv
        rcases iun S v hv with hv' | ⟨t, hmem, hSt⟩
        · rcases dun S v hv' with hv'' | ⟨t, hdt, hSt⟩
          · exact Or.inl hv''
          · exact Or.inr ⟨t, by rw [hdt]; exact List.mem_cons_self _ _, hSt⟩
        · exact Or.inr ⟨t, List.mem_cons_of_mem d hmem, hSt⟩

theorem processDefs_jtm_preserve :
    ∀ {defs : List TypeSystemDefinition} {st st' : PState} {k : String},
    processDefs st defs = .ok st' →
    (∀ t, (TypeSystemDefinition.type t) ∈ defs →
      t.name ≠ k ∧ (∀ ms, t.kind = .union ms → ¬ k ∈ ms)) →
    alLookup st'.join_table_meta k = alLookup st.join_table_meta k := by
  intro defs
  induction defs with
  | nil =>
    intro st st' k h _
    rw [processDefs, Except.ok.injEq] at h
    rw [← h]
  | cons d rest ih =>
    intro st st' k h hcond
    rw [processDefs] at h
    split at h
    · exact absurd h (by simp)
    · next st₁ hd =>
      rw [ih h (fun t hmem => hcond t (List.mem_cons_of_mem d hmem))]
      exact processDef_jtm_preserve hd
        (fun t hdt => (hcond t (by rw [hdt]; exact List.mem_cons_self _ _)).1)
        (fun t ms hdt hk => (hcond t (by rw [hdt]; exact List.mem_cons_self _ _)).2 ms hk)

theorem processDefs_cons_ok {st st' : PState} {d : TypeSystemDefinition}
    {rest : List TypeSystemDefinition}
    (h : processDefs st (d :: rest) = .ok st') :
    ∃ st₁, processDef st d = .ok st₁ ∧ processDefs st₁ rest = .ok st' := by
  rw [processDefs] at h
  split at h
  · exact absurd h (by simp)
  · next st₁ hd => exact ⟨st₁, hd, h⟩

theorem new_ok_spec {ns ident : String} {es : ExecutionSource} {sch : GraphQLSchema}
    {doc : ServiceDocument} {model : ParsedGraphQLSchema}
    (h : ParsedGraphQLSchema.new ns ident es sch doc = .ok model) :
    ∃ stf, processDefs PState.init doc = .ok stf
      ∧ model.enum_names = stf.enum_names
      ∧ model.virtual_type_names = stf.virtual_type_names
      ∧ model.parsed_typedef_names = stf.parsed_typedef_names
      ∧ model.join_table_meta = stf.join_table_meta
      ∧ model.unions = stf.unions
      ∧ model.objects = stf.objects
      ∧ model.scalar_names = baseScalarNames
      ∧ model.type_names = sExtend baseScalarNames (build_schema_types_set doc).1 := by
  unfold ParsedGraphQLSchema.new at h
  split at h
  · exact absurd h (by simp)
  · next stf hds =>
    rw [Except.ok.injEq] at h
    exact ⟨stf, hds, by rw [← h], by rw [← h], by rw [← h], by rw [← h], by rw [← h],
      by rw [← h], by rw [← h], by rw [← h]⟩

/-! ## Claim C10: enum names are in the virtual set but not `is_virtual_typedef` -/

/-- **C10**: for every enum declared in a successfully parsed schema, the
enum's name is in the model's virtual-type-name set, yet the public predicate
`is_virtual_typedef` returns `false` for it (enums are excluded from the
virtual predicate) while `is_enum_typedef` returns `true`. -/
theorem C10_enum_virtual_classification
    (ns ident : String) (es : ExecutionSource) (sch : GraphQLSchema)
    (doc : ServiceDocument) (model : ParsedGraphQLSchema) (t : TypeDefinition)
    (vals : List String)
    (hok : ParsedGraphQLSchema.new ns ident es sch doc = .ok model)
    (hmem : (TypeSystemDefinition.type t) ∈ doc)
    (hkind : t.kind = .enum vals) :
    smem t.name model.virtual_type_names = true
    ∧ model.is_virtual_typedef t.name = false
    ∧ model.is_enum_typedef t.name = true := by
  obtain ⟨stf, hds, hme, hmv, hmp, hmj, hmu, hmo, hms, hmt⟩ := new_ok_spec hok
  obtain ⟨pre, post, hdoc⟩ := List.append_of_mem hmem
  subst hdoc
  obtain ⟨st₁, hpre, hrest⟩ := processDefs_decomp hds
  obtain ⟨st₂, hd, hpost⟩ := processDefs_cons_ok hrest
  obtain ⟨_, _, _, _, _, ee, ev⟩ := processDef_enum_spec hkind hd
  obtain ⟨_, pvm, _, pe, _, _, _⟩ := processDefs_sets_spec hpost
  have henum : smem t.name stf.enum_names = true :=
    (pe t.name).mpr (Or.inl (by rw [ee]; exact smem_sInsert_self))
  have hvirt : smem t.name stf.virtual_type_names = true :=
    pvm t.name (by rw [ev]; exact smem_sInsert_self)
  refine ⟨by rw [hmv]; exact hvirt, ?_, ?_⟩
  · unfold ParsedGraphQLSchema.is_virtual_typedef ParsedGraphQLSchema.is_enum_typedef
    rw [hme, henum]
    simp
  · unfold ParsedGraphQLSchema.is_enum_typedef
    rw [hme]
    exact henum

/-- The model computed from the §8 schema (used by witnesses). -/
def c1Model : ParsedGraphQLSchema :=
  c1Result.toOption.getD ParsedGraphQLSchema.empty

/-- Witness for C10 at the §8 schema's `AccountLabel` enum. -/
theorem C10_witness :
    smem "AccountLabel" c1Model.virtual_type_names = true
    ∧ c1Model.is_virtual_typedef "AccountLabel" = false
    ∧ c1Model.is_enum_typedef "AccountLabel" = true :=
  C10_enum_virtual_classification "test" "test" .wasm ⟨"", ""⟩ c1Doc c1Model
    ⟨"AccountLabel", [], .enum ["PRIMARY", "SECONDARY"]⟩ ["PRIMARY", "SECONDARY"]
    (by rfl) (by simp [c1Doc]) rfl

/-! ## Claim C5: characterization of `is_possible_foreign_key` -/

/-- **C5**: `is_possible_foreign_key` is false on every scalar, enum, or
virtual type name; true on every declared entity object name that is none of
those; and holds exactly of names that are known parsed type names and
neither scalar, enum, nor virtual. -/
theorem C5_is_possible_foreign_key
    (ns ident : String) (es : ExecutionSource) (sch : GraphQLSchema)
    (doc : ServiceDocument) (model : ParsedGraphQLSchema)
    (hok : ParsedGraphQLSchema.new ns ident es sch doc = .ok model) :
    (∀ name, (smem name model.scalar_names = true
        ∨ smem name model.enum_names = true
        ∨ smem name model.virtual_type_names = true) →
      model.is_possible_foreign_key name = false)
    ∧ (∀ t o, (TypeSystemDefinition.type t) ∈ doc → t.kind = .object o →
        isEntityDecl t = true →
        smem t.name model.scalar_names = false →
        smem t.name model.enum_names = false →
        smem t.name model.virtual_type_names = false →
        model.is_possible_foreign_key t.name = true)
    ∧ (∀ name, model.is_possible_foreign_key name
        = (smem name model.parsed_typedef_names
            && !(smem name model.scalar_names)
            && !(smem name model.enum_names)
            && !(smem name model.virtual_type_names))) := by
  refine ⟨?_, ?_, ?_⟩
  · intro name hname
    unfold ParsedGraphQLSchema.is_possible_foreign_key
      ParsedGraphQLSchema.is_virtual_typedef ParsedGraphQLSchema.is_enum_typedef
    rcases hname with hsc | hen | hv
    · simp [hsc]
    · simp [hen]
    · cases hen : smem name model.enum_names <;> simp [hv, hen]
  · intro t o hmem hkind hent hsc hen hv
    obtain ⟨stf, hds, hme, hmv, hmp, hmj, hmu, hmo, hms, hmt⟩ := new_ok_spec hok
    obtain ⟨pre, post, hdoc⟩ := List.append_of_mem hmem
    subst hdoc
    obtain ⟨st₁, hpre, hrest⟩ := processDefs_decomp hds
    obtain ⟨st₂, hd, hpost⟩ := processDefs_cons_ok hrest
    obtain ⟨_, _, _, oself, _, _, _, _, _, _, _⟩ := processDef_object_spec hkind hent hd
    obtain ⟨pp, _, _, _, _, _, _⟩ := processDefs_sets_spec hpost
    have hparsed : smem t.name model.parsed_typedef_names = true := by
      rw [hmp]
      exact pp t.name oself
    unfold ParsedGraphQLSchema.is_possible_foreign_key
      ParsedGraphQLSchema.is_virtual_typedef ParsedGraphQLSchema.is_enum_typedef
    rw [hparsed, hsc, hen, hv]
    rfl
  · intro name
    unfold ParsedGraphQLSchema.is_possible_foreign_key
      ParsedGraphQLSchema.is_virtual_typedef ParsedGraphQLSchema.is_enum_typedef
    cases he : smem name model.enum_names
      <;> cases hv : smem name model.virtual_type_names
      <;> simp [he, hv]

/-- Witness for C5 at the §8 schema: `Account` is a possible foreign key. -/
theorem C5_witness : c1Model.is_possible_foreign_key "Account" = true :=
  (C5_is_possible_foreign_key "test" "test" .wasm ⟨"", ""⟩ c1Doc c1Model
      (by rfl)).2.1
    ⟨"Account", [entityDir], .object ⟨[fld "id" (tyNN "ID"),
        fld "address" (tyNN "Address"), fld "label" (tyOpt "AccountLabel")]⟩⟩
    ⟨[fld "id" (tyNN "ID"), fld "address" (tyNN "Address"),
        fld "label" (tyOpt "AccountLabel")]⟩
    (by simp [c1Doc]) rfl rfl (by rfl) (by rfl) (by rfl)

/-! ## Claim C4: the virtual flag -/

theorem mem_typeNames {doc : ServiceDocument} {t : TypeDefinition}
    (h : (TypeSystemDefinition.type t) ∈ doc) : t.name ∈ typeNames doc := by
  unfold typeNames
  rw [List.mem_filterMap]
  exact ⟨.type t, h, rfl⟩

theorem typeNames_nodup_unique :
    ∀ {doc : ServiceDocument}, (typeNames doc).Nodup →
    ∀ {t t' : TypeDefinition}, (TypeSystemDefinition.type t) ∈ doc →
    (TypeSystemDefinition.type t') ∈ doc → t.name = t'.name → t = t' := by
  intro doc
  induction doc with
  | nil =>
    intro _ t t' h1 _ _
    exact absurd h1 (by simp)
  | cons d rest ih =>
    intro hnodup t t' h1 h2 hn
    cases d with
    | type t₀ =>
      have hnames : typeNames (.type t₀ :: rest) = t₀.name :: typeNames rest := rfl
      rw [hnames] at hnodup
      have hnotin := (List.nodup_cons.mp hnodup).1
      have hrest := (List.nodup_cons.mp hnodup).2
      rcases List.mem_cons.mp h1 with he1 | h1r
      · rcases List.mem_cons.mp h2 with he2 | h2r
        · rw [TypeSystemDefinition.type.injEq] at he1 he2
          rw [he1, he2]
        · rw [TypeSystemDefinition.type.injEq] at he1
          subst he1
          exact absurd (hn ▸ mem_typeNames h2r) hnotin
      · rcases List.mem_cons.mp h2 with he2 | h2r
        · rw [TypeSystemDefinition.type.injEq] at he2
          subst he2
          exact absurd (hn ▸ mem_typeNames h1r) hnotin
        · exact ih hrest h1r h2r hn
    | directiveDef nm =>
      have hnames : typeNames (.directiveDef nm :: rest) = typeNames rest := rfl
      rw [hnames] at hnodup
      rcases List.mem_cons.mp h1 with he1 | h1r
      · cases he1
      · rcases List.mem_cons.mp h2 with he2 | h2r
        · cases he2
        · exact ih hnodup h1r h2r hn
    | schemaDef =>
      have hnames : typeNames (.schemaDef :: rest) = typeNames rest := rfl
      rw [hnames] at hnodup
      rcases List.mem_cons.mp h1 with he1 | h1r
      · cases he1
      · rcases List.mem_cons.mp h2 with he2 | h2r
        · cases he2
        · exact ih hnodup h1r h2r hn

/-- An entity object with `@entity(virtual: true)` and no fields at all. -/
def c4DocEmpty : ServiceDocument :=
  [.type ⟨"Empty", [⟨"entity", [("virtual", "true")]⟩], .object ⟨[]⟩⟩]

/-- An entity object with one field whose directive carries `virtual: false`. -/
def c4DocFlag : ServiceDocument :=
  [.type ⟨"Fake", [⟨"entity", [("virtual", "false")]⟩],
    .object ⟨[fld "id" (tyNN "ID")]⟩⟩]

/-- **C4 counterexample**: a zero-field entity object carrying
`virtual: true` is *not* added to the virtual set (the flag is only examined
inside the field loop), and an entity object carrying `virtual: false` *is*
added (only the argument's name is examined, never its value) — both
directions of the claimed iff fail. -/
theorem C4_counterexample :
    ((ParsedGraphQLSchema.new "t" "t" .wasm ⟨"", ""⟩ c4DocEmpty).toOption.map
      (fun m => smem "Empty" m.virtual_type_names)) = some false
    ∧ ((ParsedGraphQLSchema.new "t" "t" .wasm ⟨"", ""⟩ c4DocFlag).toOption.map
      (fun m => smem "Fake" m.virtual_type_names)) = some true :=
  ⟨rfl, rfl⟩

/-- **C4 (amended)**: for every entity object declaration in a schema whose
type names are distinct, the type's name is in the virtual set iff the object
declares at least one field and some directive on it carries an argument
*named* `virtual` (the argument's value is never inspected). -/
theorem C4_virtual_flag_amended
    (ns ident : String) (es : ExecutionSource) (sch : GraphQLSchema)
    (doc : ServiceDocument) (model : ParsedGraphQLSchema) (t : TypeDefinition)
    (o : ObjectType)
    (hnodup : (typeNames doc).Nodup)
    (hok : ParsedGraphQLSchema.new ns ident es sch doc = .ok model)
    (hmem : (TypeSystemDefinition.type t) ∈ doc)
    (hkind : t.kind = .object o)
    (hent : isEntityDecl t = true) :
    smem t.name model.virtual_type_names = true
      ↔ (hasVirtualArg t = true ∧ o.fields ≠ []) := by
  obtain ⟨stf, hds, hme, hmv, hmp, hmj, hmu, hmo, hms, hmt⟩ := new_ok_spec hok
  rw [hmv]
  constructor
  · intro hx
    obtain ⟨_, _, pvu, _, _, _, _⟩ := processDefs_sets_spec hds
    rcases pvu t.name hx with hinit | ⟨t', hmem', hname, hcause⟩
    · exact absurd hinit (by simp [PState.init, smem])
    · have ht' : t = t' := typeNames_nodup_unique hnodup hmem hmem' hname
      subst ht'
      rcases hcause with ⟨o', hko, _, hfs, hva⟩ | ⟨vals, hke⟩ | ⟨ms, hku⟩
      · rw [hkind] at hko
        rw [TypeKind.object.injEq] at hko
        subst hko
        exact ⟨hva, hfs⟩
      · rw [hkind] at hke
        cases hke
      · rw [hkind] at hku
        cases hku
  · rintro ⟨hva, hfs⟩
    obtain ⟨pre, post, hdoc⟩ := List.append_of_mem hmem
    subst hdoc
    obtain ⟨st₁, hpre, hrest⟩ := processDefs_decomp hds
    obtain ⟨st₂, hd, hpost⟩ := processDefs_cons_ok hrest
    obtain ⟨_, _, _, _, _, ovirt, _, _, _, _, _⟩ := processDef_object_spec hkind hent hd
    obtain ⟨_, pvm, _, _, _, _, _⟩ := processDefs_sets_spec hpost
    exact pvm t.name ((ovirt t.name).mpr (Or.inr ⟨rfl, hva, hfs⟩))

/-- Witness for C4 at the §8 schema's virtual `Metadata` entity. -/
theorem C4_witness : smem "Metadata" c1Model.virtual_type_names = true :=
  (C4_virtual_flag_amended "test" "test" .wasm ⟨"", ""⟩ c1Doc c1Model
      ⟨"Metadata", [virtualEntityDir], .object ⟨[fld "count" (tyNN "UInt8")]⟩⟩
      ⟨[fld "count" (tyNN "UInt8")]⟩
      (by decide) (by rfl) (by simp [c1Doc]) rfl rfl).mpr
    ⟨rfl, by simp⟩

/-! ## Claim C7: objects without the `entity` directive -/

/-- Every component of the model except the pre-scanned type-name set and the
stored AST (the two places that see the whole document rather than only the
processed declarations). -/
def ParsedGraphQLSchema.core (m : ParsedGraphQLSchema) :=
  (m.nspace, m.identifier, m.exec_source, m.typedef_names_to_types, m.objects,
   m.unions, m.enum_names, m.union_names, m.object_field_mappings,
   m.virtual_type_names, m.parsed_typedef_names, m.field_type_mappings,
   m.scalar_names, m.field_type_optionality, m.field_defs, m.schema,
   m.foreign_key_mappings, m.type_defs, m.list_field_types, m.list_type_defs,
   m.join_table_meta, m.object_ordered_fields)

theorem processDefs_skip_middle {t : TypeDefinition} {o : ObjectType}
    (hkind : t.kind = .object o) (hent : isEntityDecl t = false) :
    ∀ (pre post : List TypeSystemDefinition) (st : PState),
    processDefs st (pre ++ (TypeSystemDefinition.type t) :: post)
      = processDefs st (pre ++ post) := by
  intro pre
  induction pre with
  | nil =>
    intro post st
    rw [List.nil_append, List.nil_append, processDefs,
      processDef_skip hkind hent]
  | cons d rest ih =>
    intro post st
    rw [List.cons_append, List.cons_append, processDefs, processDefs]
    cases hd : processDef st d with
    | error e => rfl
    | ok st₁ => exact ih post st₁

/-- **C7 (amended)**: a top-level object declaration lacking the `entity`
directive contributes nothing to any index of the model *except* the
pre-scanned type-name set: the model built with the declaration equals the
model built without it in every other component, while `has_type` on its name
returns `true` because the name pre-scan registers every declared type name,
entity or not. -/
theorem C7_non_entity_object_amended
    (ns ident : String) (es : ExecutionSource) (sch : GraphQLSchema)
    (pre post : List TypeSystemDefinition) (t : TypeDefinition) (o : ObjectType)
    (hkind : t.kind = .object o) (hent : isEntityDecl t = false) :
    (Except.map ParsedGraphQLSchema.core
        (ParsedGraphQLSchema.new ns ident es sch
          (pre ++ (TypeSystemDefinition.type t) :: post))
      = Except.map ParsedGraphQLSchema.core
          (ParsedGraphQLSchema.new ns ident es sch (pre ++ post)))
    ∧ (∀ model,
        ParsedGraphQLSchema.new ns ident es sch
          (pre ++ (TypeSystemDefinition.type t) :: post) = .ok model →
        model.has_type t.name = true) := by
  constructor
  · unfold ParsedGraphQLSchema.new
    rw [processDefs_skip_middle hkind hent pre post PState.init]
    cases hres : processDefs PState.init (pre ++ post) with
    | error e => rfl
    | ok stf => rfl
  · intro model hok
    obtain ⟨stf, hds, _, _, _, _, _, _, _, hmt⟩ := new_ok_spec hok
    unfold ParsedGraphQLSchema.has_type
    rw [hmt]
    rw [smem_sExtend]
    refine Or.inr ?_
    have hmemname : t.name ∈ typeNames (pre ++ (TypeSystemDefinition.type t) :: post) :=
      mem_typeNames (by simp)
    have hfst : (build_schema_types_set (pre ++ (TypeSystemDefinition.type t) :: post)).1
        = sExtend [] (typeNames (pre ++ (TypeSystemDefinition.type t) :: post)) := rfl
    rw [← smem_iff, hfst, smem_sExtend]
    exact Or.inr hmemname

/-- An object declaration with no `entity` directive. -/
def c7Doc : ServiceDocument :=
  [.type ⟨"Ghost", [], .object ⟨[fld "id" (tyNN "ID")]⟩⟩]

/-- **C7 counterexample**: the model built from a document declaring the
non-entity object `Ghost` answers `has_type "Ghost" = true`, while the model
built from the empty document answers `false` — so the skipped declaration is
*not* invisible to `has_type`, contradicting "behaves as if it were never
declared". -/
theorem C7_counterexample :
    ((ParsedGraphQLSchema.new "t" "t" .wasm ⟨"", ""⟩ c7Doc).toOption.map
      (fun m => m.has_type "Ghost")) = some true
    ∧ ((ParsedGraphQLSchema.new "t" "t" .wasm ⟨"", ""⟩ []).toOption.map
      (fun m => m.has_type "Ghost")) = some false :=
  ⟨rfl, rfl⟩

/-- Witness for C7 at the `Ghost` document. -/
theorem C7_witness :
    Except.map ParsedGraphQLSchema.core
        (ParsedGraphQLSchema.new "t" "t" .wasm ⟨"", ""⟩ c7Doc)
      = Except.map ParsedGraphQLSchema.core
          (ParsedGraphQLSchema.new "t" "t" .wasm ⟨"", ""⟩ []) :=
  (C7_non_entity_object_amended "t" "t" .wasm ⟨"", ""⟩ [] []
      ⟨"Ghost", [], .object ⟨[fld "id" (tyNN "ID")]⟩⟩
      ⟨[fld "id" (tyNN "ID")]⟩ rfl rfl).1

/-! ## Claim C2: union members lose their own join-table entries -/

/-- Invariant: every join-table entry filed under a key has its parent side
attributed to that key (lowercased, identifier column). -/
def jtmAttrib (st : PState) : Prop :=
  ∀ k l, alLookup st.join_table_meta k = some l →
    ∀ e ∈ l, e.parent.typedef_name = rsToLower k ∧ e.parent.column_name = "id"

theorem alPush_attrib {m : List (String × List JoinTableMeta)} {n : String}
    {meta : JoinTableMeta}
    (hinv : ∀ k l, alLookup m k = some l → ∀ e ∈ l,
      e.parent.typedef_name = rsToLower k ∧ e.parent.column_name = "id")
    (h1 : meta.parent.typedef_name = rsToLower n)
    (h2 : meta.parent.column_name = "id") :
    ∀ k l, alLookup (alPush m n meta) k = some l → ∀ e ∈ l,
      e.parent.typedef_name = rsToLower k ∧ e.parent.column_name = "id" := by
  intro k l hl e he
  by_cases hk : k = n
  · subst hk
    rw [alLookup_alPush_self, Option.some.injEq] at hl
    subst hl
    rcases List.mem_append.mp he with he' | he'
    · cases hlk : alLookup m k with
      | none =>
        rw [hlk] at he'
        simp at he'
      | some l₀ =>
        rw [hlk] at he'
        exact hinv k l₀ hlk e (by simpa using he')
    · rw [List.mem_singleton] at he'
      subst he'
      exact ⟨h1, h2⟩
  · rw [alLookup_alPush_ne hk] at hl
    exact hinv k l hl e he

theorem processObjField_attrib {t : TypeDefinition} {n : String} {i : Nat}
    {f : FieldDefinition} {st : PState} {fm : List (String × String)}
    {st' : PState} {fm' : List (String × String)}
    (h : processObjField t n i f st fm = .ok (st', fm'))
    (hinv : jtmAttrib st) : jtmAttrib st' := by
  obtain ⟨_, _, _, _, _, _, _, _, hjd⟩ := processObjField_spec h
  rcases hjd with heq | ⟨meta, _, hm2, hm3, heq⟩
  · intro k l hl
    rw [heq] at hl
    exact hinv k l hl
  · intro k l hl
    rw [heq] at hl
    exact alPush_attrib hinv hm2 hm3 k l hl

theorem processObjFields_attrib {t : TypeDefinition} {n : String} :
    ∀ {fs : List FieldDefinition} {i : Nat} {st : PState}
      {fm : List (String × String)} {st' : PState} {fm' : List (String × String)},
    processObjFields t n fs i st fm = .ok (st', fm') →
    jtmAttrib st → jtmAttrib st' := by
  intro fs
  induction fs with
  | nil =>
    intro i st fm st' fm' h hinv
    rw [processObjFields, Except.ok.injEq, Prod.mk.injEq] at h
    obtain ⟨h1, _⟩ := h
    subst h1
    exact hinv
  | cons f rest ih =>
    intro i st fm st' fm' h hinv
    rw [processObjFields] at h
    cases hstep : processObjField t n i f st fm with
    | error e =>
      rw [hstep] at h
      exact absurd h (by simp)
    | ok p =>
      obtain ⟨st₁, fm₁⟩ := p
      rw [hstep] at h
      exact ih h (processObjField_attrib hstep hinv)

theorem processUnionFields_attrib {u : String} :
    ∀ {fs : List FieldDefinition} {st : PState} {pr : List String} {pos : Nat}
      {st' : PState} {pr' : List String} {pos' : Nat},
    processUnionFields u fs st pr pos = .ok (st', pr', pos') →
    jtmAttrib st → jtmAttrib st' := by
  intro fs
  induction fs with
  | nil =>
    intro st pr pos st' pr' pos' h hinv
    rw [processUnionFields, Except.ok.injEq, Prod.mk.injEq] at h
    obtain ⟨h1, _⟩ := h
    subst h1
    exact hinv
  | cons f rest ih =>
    intro st pr pos st' pr' pos' h hinv
    rw [processUnionFields] at h
    split at h
    · exact ih h hinv
    · split at h
      · split at h
        · exact absurd h (by simp)
        · split at h
          · refine ih h ?_
            intro k l hl
            simp only [] at hl
            exact alPush_attrib hinv rfl rfl k l hl
          · exact ih h hinv
      · exact ih h hinv

theorem processUnionMembers_attrib {u : String} :
    ∀ {ms : List String} {st : PState} {pr : List String} {pos : Nat}
      {st' : PState} {pr' : List String} {pos' : Nat},
    processUnionMembers u ms st pr pos = .ok (st', pr', pos') →
    jtmAttrib st → jtmAttrib st' := by
  intro ms
  induction ms with
  | nil =>
    intro st pr pos st' pr' pos' h hinv
    rw [processUnionMembers, Except.ok.injEq, Prod.mk.injEq] at h
    obtain ⟨h1, _⟩ := h
    subst h1
    exact hinv
  | cons m rest ih =>
    intro st pr pos st' pr' pos' h hinv
    rw [processUnionMembers] at h
    have hinv₀ : jtmAttrib (if alContains st.join_table_meta m then
        { st with join_table_meta := alRemove st.join_table_meta m }
      else st) := by
      split
      · intro k l hl
        simp only [] at hl
        by_cases hk : k = m
        · subst hk
          rw [alLookup_alRemove_self] at hl
          cases hl
        · rw [alLookup_alRemove_ne hk] at hl
          exact hinv k l hl
      · exact hinv
    split at h
    · exact absurd h (by simp)
    · rename_i obj hobj
      split at h
      · exact absurd h (by simp)
      next st₁ pr₁ pos₁ hpf =>
        exact ih h (processUnionFields_attrib hpf hinv₀)

theorem processDef_attrib {st st' : PState} {d : TypeSystemDefinition}
    (h : processDef st d = .ok st') (hinv : jtmAttrib st) : jtmAttrib st' := by
  cases d with
  | directiveDef nm =>
    rw [processDef_nonType (by intro t hc; exact absurd hc (by simp)),
      Except.ok.injEq] at h
    rw [← h]
    exact hinv
  | schemaDef =>
    rw [processDef_nonType (by intro t hc; exact absurd hc (by simp)),
      Except.ok.injEq] at h
    rw [← h]
    exact hinv
  | type t =>
    cases ht : t.kind with
    | object o =>
      by_cases hent : isEntityDecl t = true
      · obtain ⟨tn, tdirs, tkind⟩ := t
        simp only at ht
        subst ht
        simp only [processDef] at h
        rw [if_pos hent] at h
        split at h
        · exact absurd h (by simp)
        next p st₁ fm₁ hpof =>
          rw [Except.ok.injEq] at h
          have hst : st' = { st₁ with
              object_field_mappings := alInsert st₁.object_field_mappings tn fm₁ } := by
            rw [← h]
          subst hst
          intro k l hl
          simp only [] at hl
          exact processObjFields_attrib hpof (by
            intro k' l' hl'
            simp only [] at hl'
            exact hinv k' l' hl') k l hl
      · rw [processDef_skip ht (by simpa using hent), Except.ok.injEq] at h
        rw [← h]
        exact hinv
    | enum vals =>
      obtain ⟨_, _, _, ej, _, _, _⟩ := processDef_enum_spec ht h
      intro k l hl
      rw [ej] at hl
      exact hinv k l hl
    | union ms =>
      obtain ⟨tn, tdirs, tkind⟩ := t
      simp only at ht
      subst ht
      simp only [processDef] at h
      split at h
      · exact absurd h (by simp)
      next st₁ hchk =>
        split at h
        · exact absurd h (by simp)
        next p st₂ pr₂ pos₂ hpum =>
          obtain ⟨_, _, _, _, _, _, _, cj, _⟩ := check_derived_spec hchk
          obtain ⟨_, _, _, _, _, _, _, rj⟩ := reRegisterMembers_spec h
          have hinv₁ : jtmAttrib st₁ := by
            intro k l hl
            rw [cj] at hl
            simp only [] at hl
            exact hinv k l hl
          have hinv₂ : jtmAttrib st₂ := processUnionMembers_attrib hpum hinv₁
          intro k l hl
          rw [rj] at hl
          exact hinv₂ k l hl
    | unsupported =>
      obtain ⟨tn, tdirs, tkind⟩ := t
      simp only at ht
      subst ht
      simp only [processDef] at h
      exact absurd h (by simp)

theorem processDefs_attrib :
    ∀ {defs : List TypeSystemDefinition} {st st' : PState},
    processDefs st defs = .ok st' → jtmAttrib st → jtmAttrib st' := by
  intro defs
  induction defs with
  | nil =>
    intro st st' h hinv
    rw [processDefs, Except.ok.injEq] at h
    rw [← h]
    exact hinv
  | cons d rest ih =>
    intro st st' h hinv
    obtain ⟨st₁, hd, hrest⟩ := processDefs_cons_ok h
    exact ih hrest (processDef_attrib hd hinv)

/-- The key C2 invariant: all keys of the objects, unions and join-table maps
come from already-processed declarations, and every member of a recorded
union is a parsed object without a join-table entry of its own. -/
def C2Inv (st : PState) (used : List String) : Prop :=
  (∀ k, alLookup st.objects k ≠ none → k ∈ used)
  ∧ (∀ k, alLookup st.unions k ≠ none → k ∈ used)
  ∧ (∀ k, alLookup st.join_table_meta k ≠ none → k ∈ used)
  ∧ (∀ S t ms, alLookup st.unions S = some t → t.kind = .union ms →
      ∀ m ∈ ms, alLookup st.join_table_meta m = none ∧ alLookup st.objects m ≠ none)

theorem C2Inv_mono {st : PState} {used used' : List String}
    (h : C2Inv st used) (hsub : ∀ x, x ∈ used → x ∈ used') : C2Inv st used' :=
  ⟨fun k hk => hsub k (h.1 k hk), fun k hk => hsub k (h.2.1 k hk),
   fun k hk => hsub k (h.2.2.1 k hk), h.2.2.2⟩

theorem processDefs_C2Inv :
    ∀ {defs : List TypeSystemDefinition} {st st' : PState} {used : List String},
    processDefs st defs = .ok st' →
    C2Inv st used →
    (typeNames defs).Nodup →
    (∀ n, n ∈ typeNames defs → ¬ n ∈ used) →
    C2Inv st' (used ++ typeNames defs) := by
  intro defs
  induction defs with
  | nil =>
    intro st st' used h hinv _ _
    rw [processDefs, Except.ok.injEq] at h
    subst h
    have hte : typeNames ([] : ServiceDocument) = [] := rfl
    rw [hte, List.append_nil]
    exact hinv
  | cons d rest ih =>
    intro st st' used h hinv hnodup hfresh
    obtain ⟨st₁, hd, hrest⟩ := processDefs_cons_ok h
    cases d with
    | directiveDef nm =>
      rw [processDef_nonType (by intro t hc; exact absurd hc (by simp)),
        Except.ok.injEq] at hd
      subst hd
      exact ih hrest hinv hnodup hfresh
    | schemaDef =>
      rw [processDef_nonType (by intro t hc; exact absurd hc (by simp)),
        Except.ok.injEq] at hd
      subst hd
      exact ih hrest hinv hnodup hfresh
    | type t =>
      have hnames : typeNames (.type t :: rest) = t.name :: typeNames rest := rfl
      rw [hnames] at hnodup hfresh ⊢
      have hheadfresh : ¬ t.name ∈ used := hfresh t.name (List.mem_cons_self _ _)
      have hnotin := (List.nodup_cons.mp hnodup).1
      have hnodup' := (List.nodup_cons.mp hnodup).2
      have hfresh' : ∀ n, n ∈ typeNames rest → ¬ n ∈ (used ++ [t.name]) := by
        intro n hn hc
        rcases List.mem_append.mp hc with hc' | hc'
        · exact hfresh n (List.mem_cons_of_mem _ hn) hc'
        · rw [List.mem_singleton] at hc'
          subst hc'
          exact hnotin hn
      have happend : (used ++ [t.name]) ++ typeNames rest
          = used ++ t.name :: typeNames rest := by
        rw [List.append_assoc]
        rfl
      have ho := hinv.1
      have hu := hinv.2.1
      have hj := hinv.2.2.1
      have hi := hinv.2.2.2
      cases ht : t.kind with
      | object o =>
        by_cases hent : isEntityDecl t = true
        · obtain ⟨ou, _, _, _, _, _, oobj, oobjne, ojne, oobju, ojtu⟩ :=
            processDef_object_spec ht hent hd
          have hinv₁ : C2Inv st₁ (used ++ [t.name]) := by
            refine ⟨?_, ?_, ?_, ?_⟩
            · intro k hk
              rcases oobju k hk with hk' | rfl
              · exact List.mem_append_left _ (ho k hk')
              · exact List.mem_append_right _ (List.mem_singleton_self _)
            · intro k hk
              rw [ou] at hk
              exact List.mem_append_left _ (hu k hk)
            · intro k hk
              rcases ojtu k hk with hk' | rfl
              · exact List.mem_append_left _ (hj k hk')
              · exact List.mem_append_right _ (List.mem_singleton_self _)
            · intro S t' ms' hS hk' m hm
              rw [ou] at hS
              obtain ⟨hm1, hm2⟩ := hi S t' ms' hS hk' m hm
              have hmused : m ∈ used := ho m hm2
              have hmne : m ≠ t.name := by
                intro hc
                subst hc
                exact hheadfresh hmused
              exact ⟨by rw [ojne m hmne]; exact hm1, oobj m hm2⟩
          rw [← happend]
          exact ih hrest hinv₁ hnodup' hfresh'
        · rw [processDef_skip ht (by simpa using hent), Except.ok.injEq] at hd
          subst hd
          rw [← happend]
          exact ih hrest
            (C2Inv_mono hinv (fun x hx => List.mem_append_left _ hx))
            hnodup' hfresh'
      | enum vals =>
        obtain ⟨eo, eu, _, ej, _, _, _⟩ := processDef_enum_spec ht hd
        have hinv₁ : C2Inv st₁ (used ++ [t.name]) := by
          refine ⟨?_, ?_, ?_, ?_⟩
          · intro k hk
            rw [eo] at hk
            exact List.mem_append_left _ (ho k hk)
          · intro k hk
            rw [eu] at hk
            exact List.mem_append_left _ (hu k hk)
          · intro k hk
            rw [ej] at hk
            exact List.mem_append_left _ (hj k hk)
          · intro S t' ms' hS hk' m hm
            rw [eu] at hS
            obtain ⟨hm1, hm2⟩ := hi S t' ms' hS hk' m hm
            exact ⟨by rw [ej]; exact hm1, by rw [eo]; exact hm2⟩
        rw [← happend]
        exact ih hrest hinv₁ hnodup' hfresh'
      | union ms =>
        obtain ⟨uo, _, uself, une, _, _, _, uj, uobj, uju⟩ :=
          processDef_union_spec ht hd
        have hmemne : ∀ m ∈ ms, m ≠ t.name := by
          intro m hm hc
          have hmu : m ∈ used := ho m (uobj m hm)
          rw [hc] at hmu
          exact hheadfresh hmu
        have hinv₁ : C2Inv st₁ (used ++ [t.name]) := by
          refine ⟨?_, ?_, ?_, ?_⟩
          · intro k hk
            rw [uo] at hk
            exact List.mem_append_left _ (ho k hk)
          · intro k hk
            by_cases hkn : k = t.name
            · subst hkn
              exact List.mem_append_right _ (List.mem_singleton_self _)
            · rw [une k hkn] at hk
              exact List.mem_append_left _ (hu k hk)
          · intro k hk
            rcases uju k hk with hk' | rfl
            · exact List.mem_append_left _ (hj k hk')
            · exact List.mem_append_right _ (List.mem_singleton_self _)
          · intro S t' ms' hS hk' m hm
            by_cases hSn : S = t.name
            · subst hSn
              have ht2 : t' = t := uself t' hS
              rw [ht2] at hk'
              rw [ht] at hk'
              rw [TypeKind.union.injEq] at hk'
              subst hk'
              have hm2 : alLookup st.objects m ≠ none := uobj m hm
              have hmne : m ≠ t.name := hmemne m hm
              refine ⟨?_, by rw [uo]; exact hm2⟩
              rw [uj m hmne, if_pos hm]
            · rw [une S hSn] at hS
              obtain ⟨hm1, hm2⟩ := hi S t' ms' hS hk' m hm
              have hmne : m ≠ t.name := by
                intro hc
                have hmu : m ∈ used := ho m hm2
                rw [hc] at hmu
                exact hheadfresh hmu
              refine ⟨?_, by rw [uo]; exact hm2⟩
              rw [uj m hmne]
              by_cases hmm : m ∈ ms
              · rw [if_pos hmm]
              · rw [if_neg hmm]
                exact hm1
        rw [← happend]
        exact ih hrest hinv₁ hnodup' hfresh'
      | unsupported =>
        obtain ⟨tn, tdirs, tkind⟩ := t
        simp only at ht
        subst ht
        simp only [processDef] at hd
        exact absurd hd (by simp)

/-! ## Claim C3: join-table entries of list-typed foreign-key fields -/

theorem processDefs_single {st st' : PState} {d : TypeSystemDefinition}
    (h : processDef st d = .ok st') : processDefs st [d] = .ok st' := by
  rw [processDefs, h]
  rfl

theorem processDefs_append {l₁ l₂ : List TypeSystemDefinition} :
    ∀ {st st₁ st₂ : PState}, processDefs st l₁ = .ok st₁ →
    processDefs st₁ l₂ = .ok st₂ →
    processDefs st (l₁ ++ l₂) = .ok st₂ := by
  induction l₁ with
  | nil =>
    intro st st₁ st₂ h1 h2
    rw [processDefs, Except.ok.injEq] at h1
    subst h1
    exact h2
  | cons d rest ih =>
    intro st st₁ st₂ h1 h2
    obtain ⟨s, hd, hrest⟩ := processDefs_cons_ok h1
    rw [List.cons_append, processDefs, hd]
    exact ih hrest h2

theorem typeNames_append (A B : List TypeSystemDefinition) :
    typeNames (A ++ B) = typeNames A ++ typeNames B := by
  unfold typeNames
  rw [List.filterMap_append]

theorem smem_sInsert_false {s : List String} {x n : String}
    (hxn : x ≠ n) (hx : smem x s = false) : smem x (sInsert s n) = false := by
  cases h : smem x (sInsert s n)
  · rfl
  · rcases smem_sInsert.mp h with rfl | h'
    · exact absurd rfl hxn
    · rw [hx] at h'
      cases h'

theorem objFieldFK_push {t : TypeDefinition} {n : String} {i : Nat}
    {f : FieldDefinition} {st : PState}
    (hgate : (smem (field_type_name f) st.parsed_typedef_names
        && !(smem (field_type_name f) baseScalarNames)
        && !(smem (field_type_name f) st.enum_names)
        && !(smem (field_type_name f) st.virtual_type_names)) = true)
    (hnj : f.directives.find? (fun d => decide (d.name = "join")) = none)
    (hl : is_list_type f = true) :
    ∃ st', objFieldFK t n i f st = .ok st'
      ∧ st'.join_table_meta = alPush st.join_table_meta n
          (JoinTableMeta.new (rsToLower n) "id"
            (rsToLower (field_type_name f)) "id" (some i)) := by
  have hex : extract_foreign_key_info f st.field_type_mappings
      = .ok ("UInt8", "id", rsToLower (field_type_name f)) := by
    unfold extract_foreign_key_info
    rw [hnj]
    rfl
  unfold objFieldFK
  rw [if_pos hgate]
  rw [hex]
  simp only [hl, if_true]
  exact ⟨_, rfl, by rfl⟩

theorem processObjField_push {t : TypeDefinition} {n : String} {i : Nat}
    {f : FieldDefinition} {st : PState} {fm : List (String × String)}
    {st' : PState} {fm' : List (String × String)}
    (h : processObjField t n i f st fm = .ok (st', fm'))
    (hUn : field_type_name f ≠ n)
    (hp : smem (field_type_name f) st.parsed_typedef_names = true)
    (hsc : smem (field_type_name f) baseScalarNames = false)
    (hse : smem (field_type_name f) st.enum_names = false)
    (hsv : smem (field_type_name f) st.virtual_type_names = false)
    (hnj : f.directives.find? (fun d => decide (d.name = "join")) = none)
    (hl : is_list_type f = true) :
    st'.join_table_meta = alPush st.join_table_meta n
      (JoinTableMeta.new (rsToLower n) "id"
        (rsToLower (field_type_name f)) "id" (some i)) := by
  obtain ⟨hcp, hce, hcu, hco, hcun, hct, hcm, hcj, hcv⟩ := objFieldCaches_spec t n i f st
  have hgate : (smem (field_type_name f)
        (objFieldCaches t n i f st).parsed_typedef_names
      && !(smem (field_type_name f) baseScalarNames)
      && !(smem (field_type_name f) (objFieldCaches t n i f st).enum_names)
      && !(smem (field_type_name f) (objFieldCaches t n i f st).virtual_type_names))
      = true := by
    rw [hcp, hce, hcv]
    have hv' : smem (field_type_name f)
        (if hasVirtualArg t then sInsert st.virtual_type_names n
         else st.virtual_type_names) = false := by
      split
      · exact smem_sInsert_false hUn hsv
      · exact hsv
    rw [hp, hsc, hse, hv']
    rfl
  obtain ⟨stfk, hfk, hjtm⟩ := objFieldFK_push hgate hnj hl
  unfold processObjField at h
  rw [hfk] at h
  rw [Except.ok.injEq] at h
  have hst : st' = (objFieldIndex n f stfk fm).1 := by rw [h]
  subst hst
  obtain ⟨_, _, _, _, _, _, _, hij⟩ := objFieldIndex_spec n f stfk fm
  rw [hij, hjtm, hcj]

/-- The entries of a join-table list whose parent position is `p`. -/
def posFilter (l : List JoinTableMeta) (p : Nat) : List JoinTableMeta :=
  l.filter (fun e => decide (e.parent.child_position = some p))

theorem posFilter_append (l₁ l₂ : List JoinTableMeta) (p : Nat) :
    posFilter (l₁ ++ l₂) p = posFilter l₁ p ++ posFilter l₂ p := by
  unfold posFilter
  rw [List.filter_append]

theorem posFilter_single_eq {meta : JoinTableMeta} {p : Nat}
    (h : meta.parent.child_position = some p) : posFilter [meta] p = [meta] := by
  simp [posFilter, h]

theorem posFilter_single_ne {meta : JoinTableMeta} {p : Nat}
    (h : meta.parent.child_position ≠ some p) : posFilter [meta] p = [] := by
  simp [posFilter, h]

theorem alPush_getD {m : List (String × List JoinTableMeta)} {n : String}
    {v : JoinTableMeta} :
    (alLookup (alPush m n v) n).getD [] = (alLookup m n).getD [] ++ [v] := by
  rw [alLookup_alPush_self]
  rfl

theorem processObjFields_pos_lower {t : TypeDefinition} {n : String} :
    ∀ {fs : List FieldDefinition} {i₀ : Nat} {st : PState}
      {fm : List (String × String)} {st' : PState} {fm' : List (String × String)},
    processObjFields t n fs i₀ st fm = .ok (st', fm') →
    ∀ p, p < i₀ →
    posFilter ((alLookup st'.join_table_meta n).getD []) p
      = posFilter ((alLookup st.join_table_meta n).getD []) p := by
  intro fs
  induction fs with
  | nil =>
    intro i₀ st fm st' fm' h p _
    rw [processObjFields, Except.ok.injEq, Prod.mk.injEq] at h
    obtain ⟨h1, _⟩ := h
    subst h1
    rfl
  | cons f rest ih =>
    intro i₀ st fm st' fm' h p hp
    rw [processObjFields] at h
    cases hstep : processObjField t n i₀ f st fm with
    | error e =>
      rw [hstep] at h
      exact absurd h (by simp)
    | ok q =>
      obtain ⟨st₁, fm₁⟩ := q
      rw [hstep] at h
      obtain ⟨_, _, _, _, _, _, _, _, hjd⟩ := processObjField_spec hstep
      have hstep_filter : posFilter ((alLookup st₁.join_table_meta n).getD []) p
          = posFilter ((alLookup st.join_table_meta n).getD []) p := by
        rcases hjd with heq | ⟨meta, hm1, _, _, heq⟩
        · rw [heq]
        · rw [heq, alPush_getD, posFilter_append,
            posFilter_single_ne (by rw [hm1]; intro hc; rw [Option.some.injEq] at hc; omega),
            List.append_nil]
      rw [ih h p (by omega), hstep_filter]

theorem processObjFields_pos_spec {t : TypeDefinition} {n U : String}
    (hUn : U ≠ n) (hsc : smem U baseScalarNames = false) :
    ∀ {fs : List FieldDefinition} {j : Nat} {f : FieldDefinition} {i₀ : Nat}
      {st : PState} {fm : List (String × String)} {st' : PState}
      {fm' : List (String × String)},
    processObjFields t n fs i₀ st fm = .ok (st', fm') →
    smem U st.parsed_typedef_names = true →
    smem U st.enum_names = false →
    smem U st.virtual_type_names = false →
    fs.get? j = some f →
    field_type_name f = U →
    is_list_type f = true →
    f.directives.find? (fun d => decide (d.name = "join")) = none →
    posFilter ((alLookup st.join_table_meta n).getD []) (i₀ + j) = [] →
    posFilter ((alLookup st'.join_table_meta n).getD []) (i₀ + j)
      = [JoinTableMeta.new (rsToLower n) "id" (rsToLower U) "id" (some (i₀ + j))] := by
  intro fs
  induction fs with
  | nil =>
    intro j f i₀ st fm st' fm' _ _ _ _ hget _ _ _ _
    rw [List.get?_nil] at hget
    cases hget
  | cons f₀ rest ih =>
    intro j f i₀ st fm st' fm' h hp hse hsv hget hft hl hnj hpre
    rw [processObjFields] at h
    cases hstep : processObjField t n i₀ f₀ st fm with
    | error e =>
      rw [hstep] at h
      exact absurd h (by simp)
    | ok q =>
      obtain ⟨st₁, fm₁⟩ := q
      rw [hstep] at h
      obtain ⟨he, hu, ho, hun, htd, hpp, hvv, hjne, hjd⟩ := processObjField_spec hstep
      cases j with
      | zero =>
        rw [List.get?_cons_zero, Option.some.injEq] at hget
        subst hget
        rw [Nat.add_zero] at hpre ⊢
        have hpush : st₁.join_table_meta = alPush st.join_table_meta n
            (JoinTableMeta.new (rsToLower n) "id" (rsToLower U) "id" (some i₀)) := by
          have := processObjField_push hstep (by rw [hft]; exact hUn)
            (by rw [hft]; exact hp) (by rw [hft]; exact hsc)
            (by rw [hft]; exact hse) (by rw [hft]; exact hsv) hnj hl
          rw [hft] at this
          exact this
        have hfilt₁ : posFilter ((alLookup st₁.join_table_meta n).getD []) i₀
            = [JoinTableMeta.new (rsToLower n) "id" (rsToLower U) "id" (some i₀)] := by
          rw [hpush, alPush_getD, posFilter_append, hpre,
            posFilter_single_eq rfl, List.nil_append]
        rw [processObjFields_pos_lower h i₀ (by omega), hfilt₁]
      | succ j' =>
        rw [List.get?_cons_succ] at hget
        have hidx : i₀ + (j' + 1) = (i₀ + 1) + j' := by omega
        have hp₁ : smem U st₁.parsed_typedef_names = true := by
          rw [hpp]
          exact smem_sInsert_of hp
        have hse₁ : smem U st₁.enum_names = false := by
          rw [he]
          exact hse
        have hsv₁ : smem U st₁.virtual_type_names = false := by
          rw [hvv]
          split
          · exact smem_sInsert_false hUn hsv
          · exact hsv
        have hpre₁ : posFilter ((alLookup st₁.join_table_meta n).getD [])
            ((i₀ + 1) + j') = [] := by
          rcases hjd with heq | ⟨meta, hm1, _, _, heq⟩
          · rw [heq, ← hidx]
            exact hpre
          · rw [heq, alPush_getD, posFilter_append,
              posFilter_single_ne (by rw [hm1]; intro hc; rw [Option.some.injEq] at hc; omega),
              List.append_nil, ← hidx]
            exact hpre
        rw [hidx]
        exact ih h hp₁ hse₁ hsv₁ hget hft hl hnj hpre₁

theorem processDef_object_pos {st st' : PState} {t : TypeDefinition}
    {o : ObjectType} {U : String} {i : Nat} {f : FieldDefinition}
    (hk : t.kind = .object o) (hent : isEntityDecl t = true)
    (h : processDef st (.type t) = .ok st')
    (hUn : U ≠ t.name)
    (hp : smem U st.parsed_typedef_names = true)
    (hsc : smem U baseScalarNames = false)
    (hse : smem U st.enum_names = false)
    (hsv : smem U st.virtual_type_names = false)
    (hpre : alLookup st.join_table_meta t.name = none)
    (hget : o.fields.get? i = some f)
    (hft : field_type_name f = U)
    (hl : is_list_type f = true)
    (hnj : f.directives.find? (fun d => decide (d.name = "join")) = none) :
    posFilter ((alLookup st'.join_table_meta t.name).getD []) i
      = [JoinTableMeta.new (rsToLower t.name) "id" (rsToLower U) "id" (some i)] := by
  obtain ⟨tn, tdirs, tkind⟩ := t
  simp only at hk hUn hpre ⊢
  subst hk
  simp only [processDef] at h
  rw [if_pos hent] at h
  split at h
  · exact absurd h (by simp)
  next p st₁ fm₁ hpof =>
    rw [Except.ok.injEq] at h
    have hst : st' = { st₁ with
        object_field_mappings := alInsert st₁.object_field_mappings tn fm₁ } := by
      rw [← h]
    subst hst
    simp only []
    have hspec := processObjFields_pos_spec (t := ⟨tn, tdirs, .object o⟩) (n := tn)
      (U := U) hUn hsc hpof
      (by simp only []; exact smem_sInsert_of hp)
      (by simp only []; exact hse)
      (by simp only []; exact hsv)
      hget hft hl hnj
      (by simp only [Nat.zero_add, hpre]; rfl)
    rw [Nat.zero_add] at hspec
    exact hspec

/-- **C3 (amended)**: for every entity Object `T` with a list-typed field at
index `i` whose named type is an entity object `U` that is declared *before*
`T` (the pass tests membership of the field's type name in the
already-parsed-name set), with no explicit `join` directive, provided that
type names are distinct, `U` is neither a base scalar nor virtual, and `T` is
not a member of any union in the document (union processing deletes member
keys), the constructed model's join-table map holds under `T`'s declared name
exactly one entry at position `i`: parent table `lowercase(T)`, parent column
`id`, child table `lowercase(U)`, child column `id`. -/
theorem C3_object_list_fk_amended
    {pre mid post : List TypeSystemDefinition} {tU tT : TypeDefinition}
    {oU oT : ObjectType} {i : Nat} {f : FieldDefinition}
    {nsp idf : String} {es : ExecutionSource} {sch : GraphQLSchema}
    {model : ParsedGraphQLSchema}
    (hnodup : (typeNames (pre ++ TypeSystemDefinition.type tU :: mid
        ++ TypeSystemDefinition.type tT :: post)).Nodup)
    (hok : ParsedGraphQLSchema.new nsp idf es sch
        (pre ++ TypeSystemDefinition.type tU :: mid
          ++ TypeSystemDefinition.type tT :: post) = .ok model)
    (hUk : tU.kind = .object oU) (hUent : isEntityDecl tU = true)
    (hUnv : hasVirtualArg tU = false)
    (hUsc : smem tU.name baseScalarNames = false)
    (hTk : tT.kind = .object oT) (hTent : isEntityDecl tT = true)
    (hget : oT.fields.get? i = some f)
    (hft : field_type_name f = tU.name)
    (hl : is_list_type f = true)
    (hnj : f.directives.find? (fun d => decide (d.name = "join")) = none)
    (hnoun : ∀ t' ms, TypeSystemDefinition.type t' ∈
        (pre ++ TypeSystemDefinition.type tU :: mid
          ++ TypeSystemDefinition.type tT :: post) →
        t'.kind = .union ms → ¬ tT.name ∈ ms) :
    posFilter ((alLookup model.join_table_meta tT.name).getD []) i
      = [JoinTableMeta.new (rsToLower tT.name) "id" (rsToLower tU.name) "id"
          (some i)] := by
  obtain ⟨stf, hds, hme, hmv, hmp, hmj, hmu, hmo, hms, hmt⟩ := new_ok_spec hok
  obtain ⟨s3, hd_seg, h3⟩ := processDefs_decomp hds
  obtain ⟨s4, hdT, hd_post⟩ := processDefs_cons_ok h3
  obtain ⟨s1, hd_pre, h1⟩ := processDefs_decomp hd_seg
  obtain ⟨s2, hdU, hd_mid⟩ := processDefs_cons_ok h1
  have hseg : processDefs PState.init
      ((pre ++ [TypeSystemDefinition.type tU]) ++ mid) = .ok s3 :=
    processDefs_append (processDefs_append hd_pre (processDefs_single hdU))
      hd_mid
  have hAB : pre ++ TypeSystemDefinition.type tU :: mid
      ++ TypeSystemDefinition.type tT :: post
      = ((pre ++ [TypeSystemDefinition.type tU]) ++ mid)
        ++ (TypeSystemDefinition.type tT :: post) := by
    simp [List.append_assoc]
  have hnAB : (typeNames (((pre ++ [TypeSystemDefinition.type tU]) ++ mid)
      ++ (TypeSystemDefinition.type tT :: post))).Nodup := by
    rw [← hAB]
    exact hnodup
  rw [typeNames_append] at hnAB
  have hsplit := List.nodup_append.mp hnAB
  have hTmemB : tT.name ∈ typeNames (TypeSystemDefinition.type tT :: post) :=
    mem_typeNames (List.mem_cons_self _ _)
  have hTnotA :
      ¬ tT.name ∈ typeNames ((pre ++ [TypeSystemDefinition.type tU]) ++ mid) :=
    fun hmem => hsplit.2.2 hmem hTmemB
  have hUmemA :
      tU.name ∈ typeNames ((pre ++ [TypeSystemDefinition.type tU]) ++ mid) :=
    mem_typeNames (by simp)
  have hUT : tU.name ≠ tT.name := fun he => hTnotA (he ▸ hUmemA)
  have hUdoc : TypeSystemDefinition.type tU ∈
      (pre ++ TypeSystemDefinition.type tU :: mid
        ++ TypeSystemDefinition.type tT :: post) := by simp
  obtain ⟨_, _, _, hparsed_self, _, _, _, _, _, _, _⟩ :=
    processDef_object_spec hUk hUent hdU
  obtain ⟨mp3, _, _, _, _, _, _⟩ := processDefs_sets_spec hd_mid
  have hG1 : smem tU.name s3.parsed_typedef_names = true :=
    mp3 _ hparsed_self
  obtain ⟨_, _, svu, se, sj, _, _⟩ := processDefs_sets_spec hseg
  have hG2 : smem tU.name s3.enum_names = false := by
    cases hv : smem tU.name s3.enum_names
    · rfl
    · exfalso
      rcases (se tU.name).mp hv with hbad | ⟨t', vals, hmem', hkind', hname'⟩
      · exact absurd hbad (by simp [PState.init, smem])
      · have ht'doc : TypeSystemDefinition.type t' ∈
            (pre ++ TypeSystemDefinition.type tU :: mid
              ++ TypeSystemDefinition.type tT :: post) := by
          rw [hAB]
          exact List.mem_append_left _ hmem'
        have heq := typeNames_nodup_unique hnodup hUdoc ht'doc hname'
        rw [← heq, hUk] at hkind'
        simp at hkind'
  have hG3 : smem tU.name s3.virtual_type_names = false := by
    cases hv : smem tU.name s3.virtual_type_names
    · rfl
    · exfalso
      rcases svu tU.name hv with hbad | ⟨t', hmem', hname', hcause⟩
      · exact absurd hbad (by simp [PState.init, smem])
      · have ht'doc : TypeSystemDefinition.type t' ∈
            (pre ++ TypeSystemDefinition.type tU :: mid
              ++ TypeSystemDefinition.type tT :: post) := by
          rw [hAB]
          exact List.mem_append_left _ hmem'
        have heq := typeNames_nodup_unique hnodup hUdoc ht'doc hname'
        rw [← heq] at hcause
        rcases hcause with ⟨o', _, _, _, hvo⟩ | ⟨vals, hke⟩ | ⟨ms, hku⟩
        · rw [hUnv] at hvo
          cases hvo
        · rw [hUk] at hke
          simp at hke
        · rw [hUk] at hku
          simp at hku
  have hG4 : alLookup s3.join_table_meta tT.name = none := by
    cases hv : alLookup s3.join_table_meta tT.name
    · rfl
    · exfalso
      have hne : alLookup s3.join_table_meta tT.name ≠ none := by
        rw [hv]
        simp
      rcases sj tT.name hne with hbad | ⟨t', hmem', hname'⟩
      · exact hbad rfl
      · have hmemN : t'.name ∈
            typeNames ((pre ++ [TypeSystemDefinition.type tU]) ++ mid) :=
          mem_typeNames hmem'
        rw [← hname'] at hmemN
        exact hTnotA hmemN
  have hBnodup : (typeNames (TypeSystemDefinition.type tT :: post)).Nodup :=
    hsplit.2.1
  have hTnotpost : ¬ tT.name ∈ typeNames post := by
    have hc : typeNames (TypeSystemDefinition.type tT :: post)
        = tT.name :: typeNames post := rfl
    rw [hc] at hBnodup
    exact (List.nodup_cons.mp hBnodup).1
  have hpres : alLookup stf.join_table_meta tT.name
      = alLookup s4.join_table_meta tT.name :=
    processDefs_jtm_preserve hd_post (fun t' hmem' =>
      ⟨fun he => hTnotpost (he ▸ mem_typeNames hmem'),
       fun ms hk => hnoun t' ms (by
          rw [hAB]
          exact List.mem_append_right _ (List.mem_cons_of_mem _ hmem')) hk⟩)
  rw [hmj, hpres]
  exact processDef_object_pos hTk hTent hdT hUT hG1 hUsc hG2 hG3 hG4 hget hft
    hl hnj

/-- A schema where `Safe` is an entity object whose `account` field is a
list of the entity type `Account` (no explicit `join` directive), but `Safe`
is a member of the derived union `Storage`: union processing deletes the
member's join-table key. -/
def c3DocUnion : ServiceDocument :=
  [.type ⟨"Account", [entityDir], .object ⟨[fld "id" (tyNN "ID")]⟩⟩,
   .type ⟨"Safe", [entityDir], .object ⟨[fld "id" (tyNN "ID"),
      fld "account" (tyListNN "Account")]⟩⟩,
   .type ⟨"Storage", [], .union ["Safe"]⟩]

/-- A schema where the entity object `Safe` lists entity type `Account`,
but `Account` is declared *after* `Safe`: the pass tests the field's type
name against the names parsed so far, so no join-table entry is created. -/
def c3DocForward : ServiceDocument :=
  [.type ⟨"Safe", [entityDir], .object ⟨[fld "id" (tyNN "ID"),
      fld "account" (tyListNN "Account")]⟩⟩,
   .type ⟨"Account", [entityDir], .object ⟨[fld "id" (tyNN "ID")]⟩⟩]

/-- **C3 counterexample**: in both schemas `Safe` is an entity Object with a
list-typed field whose named type is the entity type `Account` and no `join`
directive, yet construction succeeds with *no* join-table entry keyed under
`Safe` — the claimed entry is absent when the owner is a union member and
when the referenced entity is declared later. -/
theorem C3_counterexample :
    ((ParsedGraphQLSchema.new "t" "t" .wasm ⟨"", ""⟩ c3DocUnion).toOption.map
      (fun m => alLookup m.join_table_meta "Safe")) = some none
    ∧ ((ParsedGraphQLSchema.new "t" "t" .wasm ⟨"", ""⟩
        c3DocForward).toOption.map
      (fun m => alLookup m.join_table_meta "Safe")) = some none :=
  ⟨rfl, rfl⟩

/-- **C3 witness**: the amended theorem applied to the §8 schema at
`T = Wallet`, `U = Account`, field index 1 (`accounts: [Account!]!`)
produces exactly the entry parent=(wallet, id), child=(account, id),
position 1. -/
theorem C3_witness :
    posFilter ((alLookup c1Model.join_table_meta "Wallet").getD []) 1
      = [JoinTableMeta.new "wallet" "id" "account" "id" (some 1)] := by
  have h := @C3_object_list_fk_amended
    [.type ⟨"AccountLabel", [], .enum ["PRIMARY", "SECONDARY"]⟩]
    [.type ⟨"User", [entityDir], .object ⟨[fld "id" (tyNN "ID"),
        fld "account" (tyNN "Account"), fld "username" (tyNN "Charfield")]⟩⟩,
     .type ⟨"Loser", [entityDir], .object ⟨[fld "id" (tyNN "ID"),
        fld "account" (tyNN "Account"), fld "age" (tyNN "UInt8")]⟩⟩,
     .type ⟨"Metadata", [virtualEntityDir],
        .object ⟨[fld "count" (tyNN "UInt8")]⟩⟩,
     .type ⟨"Person", [], .union ["User", "Loser"]⟩]
    [.type ⟨"Safe", [entityDir], .object ⟨[fld "id" (tyNN "ID"),
        fld "account" (tyListNN "Account")]⟩⟩,
     .type ⟨"Vault", [entityDir], .object ⟨[fld "id" (tyNN "ID"),
        fld "label" (tyNN "Charfield"), fld "user" (tyListNN "User")]⟩⟩,
     .type ⟨"Storage", [], .union ["Safe", "Vault"]⟩,
     .type ⟨"IndexMetadataEntity", [entityDir],
        .object ⟨[fld "id" (tyNN "ID"), fld "time" (tyNN "UInt8"),
          fld "block_height" (tyNN "UInt8"),
          fld "block_id" (tyNN "Bytes32")]⟩⟩]
    ⟨"Account", [entityDir], .object ⟨[fld "id" (tyNN "ID"),
        fld "address" (tyNN "Address"), fld "label" (tyOpt "AccountLabel")]⟩⟩
    ⟨"Wallet", [entityDir], .object ⟨[fld "id" (tyNN "ID"),
        fld "accounts" (tyListNN "Account")]⟩⟩
    ⟨[fld "id" (tyNN "ID"), fld "address" (tyNN "Address"),
        fld "label" (tyOpt "AccountLabel")]⟩
    ⟨[fld "id" (tyNN "ID"), fld "accounts" (tyListNN "Account")]⟩
    1 (fld "accounts" (tyListNN "Account"))
    "test" "test" .wasm ⟨"", ""⟩ c1Model
    (by decide) (by rfl) rfl rfl rfl rfl rfl rfl rfl rfl rfl rfl
    (by
      intro t' ms hmem hk
      simp only [List.mem_append, List.mem_cons, List.mem_singleton,
        List.not_mem_nil, or_false, TypeSystemDefinition.type.injEq,
        or_assoc] at hmem
      rcases hmem with rfl | rfl | rfl | rfl | rfl | rfl | rfl | rfl | rfl
        | rfl | rfl
      all_goals first
        | exact TypeKind.noConfusion hk
        | (injection hk with h2; subst h2; decide))
  exact h

/-! ## Claim C2: union members lose their entries, the union gains them -/

/-- All join-table entries filed under `u` sit at positions strictly below
`pos` (the running child ordinal of the union loops). -/
def jtmBelow (st : PState) (u : String) (pos : Nat) : Prop :=
  ∀ e ∈ (alLookup st.join_table_meta u).getD [], ∀ q,
    e.parent.child_position = some q → q < pos

theorem jtmBelow_mono {st : PState} {u : String} {p p' : Nat}
    (h : jtmBelow st u p) (hpp : p ≤ p') : jtmBelow st u p' :=
  fun e he q hq => Nat.lt_of_lt_of_le (h e he q hq) hpp

theorem posFilter_nil_of_lt {l : List JoinTableMeta} {p : Nat}
    (h : ∀ e ∈ l, ∀ q, e.parent.child_position = some q → q < p) :
    posFilter l p = [] := by
  rw [posFilter, List.filter_eq_nil_iff]
  intro e he
  simp only [decide_eq_true_eq]
  intro hc
  exact Nat.lt_irrefl p (h e he p hc)

theorem field_id_inj {u a b : String} (h : field_id u a = field_id u b) :
    a = b := by
  unfold field_id at h
  have hd : (u ++ "." ++ a).data = (u ++ "." ++ b).data := by rw [h]
  rw [strData_append, strData_append, strData_append, strData_append] at hd
  have hab : a.data = b.data := List.append_cancel_left hd
  obtain ⟨la⟩ := a
  obtain ⟨lb⟩ := b
  have hab2 : la = lb := hab
  rw [hab2]

theorem jtmBelow_push {st : PState} {u : String} {pos : Nat}
    {a b c d : String}
    (hb : jtmBelow st u pos) :
    jtmBelow
      { st with
          join_table_meta := alPush st.join_table_meta u
            (JoinTableMeta.new a b c d (some pos)) }
      u (pos + 1) := by
  intro e he q hq
  simp only [] at he
  rw [alPush_getD] at he
  rcases List.mem_append.mp he with he' | he'
  · exact Nat.lt_succ_of_lt (hb e he' q hq)
  · rw [List.mem_singleton] at he'
    subst he'
    have hq' : some pos = some q := hq
    rw [Option.some.injEq] at hq'
    rw [← hq']
    exact Nat.lt_succ_self pos

theorem processDef_object_objects {st st' : PState} {t : TypeDefinition}
    {o : ObjectType} (hk : t.kind = .object o) (hent : isEntityDecl t = true)
    (h : processDef st (.type t) = .ok st') :
    alLookup st'.objects t.name = some o := by
  obtain ⟨tn, tdirs, tkind⟩ := t
  simp only at hk
  subst hk
  simp only [processDef] at h
  rw [if_pos hent] at h
  split at h
  · exact absurd h (by simp)
  next p st₁ fm₁ hpof =>
    rw [Except.ok.injEq] at h
    obtain ⟨_, _, hobjs, _, _, _, _, _⟩ := processObjFields_spec hpof
    have hst : st' = { st₁ with
        object_field_mappings := alInsert st₁.object_field_mappings tn fm₁ } := by
      rw [← h]
    subst hst
    simp only []
    rw [hobjs]
    exact alLookup_alInsert_self

theorem processDef_objects_ne {st st' : PState} {d : TypeSystemDefinition}
    {k : String}
    (h : processDef st d = .ok st')
    (hne : ∀ t, d = TypeSystemDefinition.type t → t.name ≠ k) :
    alLookup st'.objects k = alLookup st.objects k := by
  cases d with
  | directiveDef nm =>
    rw [processDef_nonType (by intro t hc; exact absurd hc (by simp)),
      Except.ok.injEq] at h
    rw [← h]
  | schemaDef =>
    rw [processDef_nonType (by intro t hc; exact absurd hc (by simp)),
      Except.ok.injEq] at h
    rw [← h]
  | type t =>
    have hk := hne t rfl
    cases ht : t.kind with
    | object o =>
      by_cases hent : isEntityDecl t = true
      · obtain ⟨_, _, _, _, _, _, _, oobjne, _, _, _⟩ :=
          processDef_object_spec ht hent h
        exact oobjne k (fun hc => hk hc.symm)
      · rw [processDef_skip ht (by simpa using hent), Except.ok.injEq] at h
        rw [← h]
    | enum vals =>
      obtain ⟨eo, _, _, _, _, _, _⟩ := processDef_enum_spec ht h
      rw [eo]
    | union ms =>
      rw [(processDef_union_spec ht h).1]
    | unsupported =>
      obtain ⟨tn, tdirs, tkind⟩ := t
      simp only at ht
      subst ht
      simp only [processDef] at h
      exact absurd h (by simp)

theorem processDefs_objects_ne :
    ∀ {defs : List TypeSystemDefinition} {st st' : PState} {k : String},
    processDefs st defs = .ok st' →
    (∀ t, (TypeSystemDefinition.type t) ∈ defs → t.name ≠ k) →
    alLookup st'.objects k = alLookup st.objects k := by
  intro defs
  induction defs with
  | nil =>
    intro st st' k h _
    rw [processDefs, Except.ok.injEq] at h
    rw [← h]
  | cons d rest ih =>
    intro st st' k h hcond
    obtain ⟨st₁, hd, hrest⟩ := processDefs_cons_ok h
    rw [ih hrest (fun t hm => hcond t (List.mem_cons_of_mem d hm))]
    exact processDef_objects_ne hd
      (fun t hdt => hcond t (by rw [hdt]; exact List.mem_cons_self _ _))

theorem processDef_objects_backward {st st' : PState}
    {d : TypeSystemDefinition} {k : String} {o : ObjectType}
    (h : processDef st d = .ok st')
    (hlk : alLookup st'.objects k = some o) :
    alLookup st.objects k = some o
    ∨ ∃ t, d = TypeSystemDefinition.type t ∧ t.name = k ∧ t.kind = .object o
        ∧ isEntityDecl t = true := by
  cases d with
  | directiveDef nm =>
    rw [processDef_nonType (by intro t hc; exact absurd hc (by simp)),
      Except.ok.injEq] at h
    rw [h]
    exact Or.inl hlk
  | schemaDef =>
    rw [processDef_nonType (by intro t hc; exact absurd hc (by simp)),
      Except.ok.injEq] at h
    rw [h]
    exact Or.inl hlk
  | type t =>
    cases ht : t.kind with
    | object o' =>
      by_cases hent : isEntityDecl t = true
      · by_cases hkn : k = t.name
        · subst hkn
          have hself : alLookup st'.objects t.name = some o' :=
            processDef_object_objects ht hent h
          rw [hself, Option.some.injEq] at hlk
          subst hlk
          exact Or.inr ⟨t, rfl, rfl, ht, hent⟩
        · obtain ⟨_, _, _, _, _, _, _, oobjne, _, _, _⟩ :=
            processDef_object_spec ht hent h
          rw [oobjne k hkn] at hlk
          exact Or.inl hlk
      · rw [processDef_skip ht (by simpa using hent), Except.ok.injEq] at h
        rw [h]
        exact Or.inl hlk
    | enum vals =>
      obtain ⟨eo, _, _, _, _, _, _⟩ := processDef_enum_spec ht h
      rw [eo] at hlk
      exact Or.inl hlk
    | union ms =>
      rw [(processDef_union_spec ht h).1] at hlk
      exact Or.inl hlk
    | unsupported =>
      obtain ⟨tn, tdirs, tkind⟩ := t
      simp only at ht
      subst ht
      simp only [processDef] at h
      exact absurd h (by simp)

theorem processDefs_objects_backward :
    ∀ {defs : List TypeSystemDefinition} {st st' : PState} {k : String}
      {o : ObjectType},
    processDefs st defs = .ok st' →
    alLookup st'.objects k = some o →
    alLookup st.objects k = some o
    ∨ ∃ t, (TypeSystemDefinition.type t) ∈ defs ∧ t.name = k
        ∧ t.kind = .object o ∧ isEntityDecl t = true := by
  intro defs
  induction defs with
  | nil =>
    intro st st' k o h hlk
    rw [processDefs, Except.ok.injEq] at h
    rw [h]
    exact Or.inl hlk
  | cons d rest ih =>
    intro st st' k o h hlk
    obtain ⟨st₁, hd, hrest⟩ := processDefs_cons_ok h
    rcases ih hrest hlk with h1 | ⟨t, hmem, hname, hkind, hent⟩
    · rcases processDef_objects_backward hd h1 with h2 | ⟨t, hdt, hname, hkind, hent⟩
      · exact Or.inl h2
      · exact Or.inr ⟨t, by rw [hdt]; exact List.mem_cons_self _ _,
          hname, hkind, hent⟩
    · exact Or.inr ⟨t, List.mem_cons_of_mem d hmem, hname, hkind, hent⟩

theorem processDefs_union_member_decl :
    ∀ {defs : List TypeSystemDefinition} {st st' : PState},
    processDefs st defs = .ok st' →
    ∀ {t : TypeDefinition} {ms : List String},
    (TypeSystemDefinition.type t) ∈ defs → t.kind = .union ms →
    ∀ m' ∈ ms, alLookup st.objects m' ≠ none
      ∨ ∃ t₃ o₃, (TypeSystemDefinition.type t₃) ∈ defs ∧ t₃.name = m'
          ∧ t₃.kind = .object o₃ ∧ isEntityDecl t₃ = true := by
  intro defs
  induction defs with
  | nil =>
    intro st st' h t ms hmem _ _ _
    exact absurd hmem (by simp)
  | cons d rest ih =>
    intro st st' h t ms hmem hk m' hm'
    obtain ⟨st₁, hd, hrest⟩ := processDefs_cons_ok h
    rcases List.mem_cons.mp hmem with rfl | hmem'
    · exact Or.inl ((processDef_union_spec hk hd).2.2.2.2.2.2.2.2.1 m' hm')
    · rcases ih hrest hmem' hk m' hm' with h1 | ⟨t₃, o₃, hmem₃, hname₃, hkind₃, hent₃⟩
      · cases hlk : alLookup st₁.objects m' with
        | none => exact absurd hlk h1
        | some o₀ =>
          rcases processDef_objects_backward hd hlk with
            h2 | ⟨t₃, hdt, hname₃, hkind₃, hent₃⟩
          · exact Or.inl (by rw [h2]; simp)
          · exact Or.inr ⟨t₃, o₀, by rw [hdt]; exact List.mem_cons_self _ _,
              hname₃, hkind₃, hent₃⟩
      · exact Or.inr ⟨t₃, o₃, List.mem_cons_of_mem d hmem₃, hname₃, hkind₃, hent₃⟩

theorem processDefs_object_present {defs : List TypeSystemDefinition}
    {st' : PState} {t : TypeDefinition} {o : ObjectType}
    (h : processDefs PState.init defs = .ok st')
    (hnodup : (typeNames defs).Nodup)
    (hmem : (TypeSystemDefinition.type t) ∈ defs)
    (hk : t.kind = .object o) (hent : isEntityDecl t = true) :
    smem t.name st'.parsed_typedef_names = true
    ∧ alLookup st'.objects t.name = some o := by
  obtain ⟨d₁, d₂, hdoc⟩ := List.append_of_mem hmem
  subst hdoc
  obtain ⟨s1, h1, hrest⟩ := processDefs_decomp h
  obtain ⟨s2, hd, h2⟩ := processDefs_cons_ok hrest
  obtain ⟨_, _, _, hself, _, _, _, _, _, _, _⟩ := processDef_object_spec hk hent hd
  obtain ⟨mp, _, _, _, _, _, _⟩ := processDefs_sets_spec h2
  have htn : typeNames (d₁ ++ TypeSystemDefinition.type t :: d₂)
      = typeNames d₁ ++ t.name :: typeNames d₂ := by
    rw [typeNames_append]
    rfl
  rw [htn] at hnodup
  have hnotd₂ : ¬ t.name ∈ typeNames d₂ :=
    (List.nodup_cons.mp (List.nodup_append.mp hnodup).2.1).1
  refine ⟨mp _ hself, ?_⟩
  have hfr : alLookup st'.objects t.name = alLookup s2.objects t.name :=
    processDefs_objects_ne h2 (by
      intro t'' hmem'' hc
      exact hnotd₂ (by rw [← hc]; exact mem_typeNames hmem''))
  rw [hfr]
  exact processDef_object_objects hk hent hd

theorem processDefs_object_unflagged {defs : List TypeSystemDefinition}
    {st' : PState} {t : TypeDefinition} {o : ObjectType}
    (h : processDefs PState.init defs = .ok st')
    (hnodup : (typeNames defs).Nodup)
    (hmem : (TypeSystemDefinition.type t) ∈ defs)
    (hk : t.kind = .object o)
    (hnv : hasVirtualArg t = false) :
    smem t.name st'.enum_names = false
    ∧ smem t.name st'.virtual_type_names = false := by
  obtain ⟨_, _, svu, se, _, _, _⟩ := processDefs_sets_spec h
  constructor
  · cases hv : smem t.name st'.enum_names
    · rfl
    · exfalso
      rcases (se t.name).mp hv with hbad | ⟨t', vals, hmem', hkind', hname'⟩
      · exact absurd hbad (by simp [PState.init, smem])
      · have heq := typeNames_nodup_unique hnodup hmem hmem' hname'
        rw [← heq, hk] at hkind'
        simp at hkind'
  · cases hv : smem t.name st'.virtual_type_names
    · rfl
    · exfalso
      rcases svu t.name hv with hbad | ⟨t', hmem', hname', hcause⟩
      · exact absurd hbad (by simp [PState.init, smem])
      · have heq := typeNames_nodup_unique hnodup hmem hmem' hname'
        rw [← heq] at hcause
        rcases hcause with ⟨o', _, _, _, hvo⟩ | ⟨vals, hke⟩ | ⟨ms', hku⟩
        · rw [hnv] at hvo
          cases hvo
        · rw [hk] at hke
          simp at hke
        · rw [hk] at hku
          simp at hku

theorem processUnionFields_bounds {u : String} :
    ∀ {fs : List FieldDefinition} {st : PState} {pr : List String} {pos : Nat}
      {st' : PState} {pr' : List String} {pos' : Nat},
    processUnionFields u fs st pr pos = .ok (st', pr', pos') →
    pos ≤ pos' ∧ (jtmBelow st u pos → jtmBelow st' u pos') := by
  intro fs
  induction fs with
  | nil =>
    intro st pr pos st' pr' pos' h
    rw [processUnionFields, Except.ok.injEq, Prod.mk.injEq] at h
    obtain ⟨h1, h2⟩ := h
    rw [Prod.mk.injEq] at h2
    obtain ⟨_, hpos⟩ := h2
    subst h1
    subst hpos
    exact ⟨Nat.le_refl _, fun hb => hb⟩
  | cons f rest ih =>
    intro st pr pos st' pr' pos' h
    rw [processUnionFields] at h
    split at h
    · exact ih h
    · split at h
      · split at h
        · exact absurd h (by simp)
        · split at h
          · obtain ⟨hle, hbel⟩ := ih h
            exact ⟨Nat.le_trans (Nat.le_succ _) hle,
              fun hb => hbel (jtmBelow_push hb)⟩
          · obtain ⟨hle, hbel⟩ := ih h
            exact ⟨Nat.le_trans (Nat.le_succ _) hle,
              fun hb => hbel (jtmBelow_mono hb (Nat.le_succ _))⟩
      · obtain ⟨hle, hbel⟩ := ih h
        exact ⟨Nat.le_trans (Nat.le_succ _) hle,
          fun hb => hbel (jtmBelow_mono hb (Nat.le_succ _))⟩

theorem processUnionFields_pr {u : String} :
    ∀ {fs : List FieldDefinition} {st : PState} {pr : List String} {pos : Nat}
      {st' : PState} {pr' : List String} {pos' : Nat},
    processUnionFields u fs st pr pos = .ok (st', pr', pos') →
    ∀ x, smem x pr = false → (∀ f' ∈ fs, field_id u f'.name ≠ x) →
    smem x pr' = false := by
  intro fs
  induction fs with
  | nil =>
    intro st pr pos st' pr' pos' h x hx _
    rw [processUnionFields, Except.ok.injEq, Prod.mk.injEq] at h
    obtain ⟨_, h2⟩ := h
    rw [Prod.mk.injEq] at h2
    obtain ⟨hpr, _⟩ := h2
    rw [← hpr]
    exact hx
  | cons f rest ih =>
    intro st pr pos st' pr' pos' h x hx hf
    have hne : x ≠ field_id u f.name :=
      fun hc => hf f (List.mem_cons_self _ _) hc.symm
    have hx' : smem x (sInsert pr (field_id u f.name)) = false :=
      smem_sInsert_false hne hx
    have hf' : ∀ f' ∈ rest, field_id u f'.name ≠ x :=
      fun f' hf'' => hf f' (List.mem_cons_of_mem f hf'')
    rw [processUnionFields] at h
    split at h
    · exact ih h x hx hf'
    · split at h
      · split at h
        · exact absurd h (by simp)
        · split at h
          · exact ih h x hx' hf'
          · exact ih h x hx' hf'
      · exact ih h x hx' hf'

theorem processUnionFields_pos_keep {u : String} :
    ∀ {fs : List FieldDefinition} {st : PState} {pr : List String} {pos : Nat}
      {st' : PState} {pr' : List String} {pos' : Nat},
    processUnionFields u fs st pr pos = .ok (st', pr', pos') →
    ∀ p, p < pos →
    posFilter ((alLookup st'.join_table_meta u).getD []) p
      = posFilter ((alLookup st.join_table_meta u).getD []) p := by
  intro fs
  induction fs with
  | nil =>
    intro st pr pos st' pr' pos' h p _
    rw [processUnionFields, Except.ok.injEq, Prod.mk.injEq] at h
    obtain ⟨h1, _⟩ := h
    subst h1
    rfl
  | cons f rest ih =>
    intro st pr pos st' pr' pos' h p hp
    rw [processUnionFields] at h
    split at h
    · exact ih h p hp
    · split at h
      · split at h
        · exact absurd h (by simp)
        · split at h
          · rw [ih h p (Nat.lt_succ_of_lt hp)]
            simp only []
            rw [alPush_getD, posFilter_append,
              posFilter_single_ne (by
                intro hc
                have hc' : some pos = some p := hc
                rw [Option.some.injEq] at hc'
                rw [hc'] at hp
                exact Nat.lt_irrefl p hp),
              List.append_nil]
          · exact ih h p (Nat.lt_succ_of_lt hp)
      · exact ih h p (Nat.lt_succ_of_lt hp)

theorem processUnionFields_push_mem {u U : String} :
    ∀ {fs : List FieldDefinition} {st : PState} {pr : List String} {pos : Nat}
      {st' : PState} {pr' : List String} {pos' : Nat} {j : Nat}
      {f : FieldDefinition},
    processUnionFields u fs st pr pos = .ok (st', pr', pos') →
    smem U st.parsed_typedef_names = true →
    smem U baseScalarNames = false →
    smem U st.enum_names = false →
    smem U st.virtual_type_names = false →
    jtmBelow st u pos →
    fs.get? j = some f →
    field_type_name f = U →
    is_list_type f = true →
    f.directives.find? (fun d => decide (d.name = "join")) = none →
    smem (field_id u f.name) pr = false →
    (∀ j' f', j' < j → fs.get? j' = some f' → f'.name ≠ f.name) →
    ∃ p, pos ≤ p ∧ p < pos' ∧
      posFilter ((alLookup st'.join_table_meta u).getD []) p
        = [JoinTableMeta.new (rsToLower u) "id" (rsToLower U) "id" (some p)] := by
  intro fs
  induction fs with
  | nil =>
    intro st pr pos st' pr' pos' j f _ _ _ _ _ _ hget
    exact absurd hget (by simp)
  | cons f₀ rest ih =>
    intro st pr pos st' pr' pos' j f h hp hsc hse hsv hb hget hft hl hnj hpr hfr
    cases j with
    | zero =>
      have hf0 : f₀ = f := by
        have : some f₀ = some f := hget
        rw [Option.some.injEq] at this
        exact this
      subst hf0
      rw [processUnionFields] at h
      split at h
      · next hsk =>
        rw [hpr] at hsk
        cases hsk
      · split at h
        · split at h
          · exact absurd h (by simp)
          · next fst ref_colname ref_tablename hexeq =>
            have hex2 : extract_foreign_key_info f₀ st.field_type_mappings
                = .ok ("UInt8", "id", rsToLower U) := by
              unfold extract_foreign_key_info
              rw [hnj, hft]
              rfl
            have hcomb := hex2.symm.trans hexeq
            rw [Except.ok.injEq, Prod.mk.injEq] at hcomb
            obtain ⟨_, hrest2⟩ := hcomb
            rw [Prod.mk.injEq] at hrest2
            obtain ⟨hcol, htab⟩ := hrest2
            subst hcol
            subst htab
            refine ⟨pos, Nat.le_refl _,
              Nat.lt_of_lt_of_le (Nat.lt_succ_self _)
                (processUnionFields_bounds h).1, ?_⟩
            rw [processUnionFields_pos_keep h pos (Nat.lt_succ_self _)]
            simp only []
            rw [alPush_getD, posFilter_append, posFilter_nil_of_lt hb,
              posFilter_single_eq rfl]
            rfl
        · next hg =>
          exfalso
          apply hg
          rw [hft, hp, hsc, hse, hsv]
          rfl
    | succ j₁ =>
      have hget' : rest.get? j₁ = some f := hget
      have hfr' : ∀ j' f', j' < j₁ → rest.get? j' = some f' → f'.name ≠ f.name :=
        fun j' f' hj' hg => hfr (j' + 1) f' (Nat.succ_lt_succ hj') hg
      have hf0ne : f₀.name ≠ f.name :=
        hfr 0 f₀ (Nat.succ_pos _) rfl
      have hprne : smem (field_id u f.name)
          (sInsert pr (field_id u f₀.name)) = false :=
        smem_sInsert_false
          (fun hc => hf0ne ((field_id_inj hc).symm)) hpr
      rw [processUnionFields] at h
      split at h
      · exact ih h hp hsc hse hsv hb hget' hft hl hnj hpr hfr'
      · split at h
        · split at h
          · exact absurd h (by simp)
          · split at h
            · obtain ⟨p, hp1, hp2, hfil⟩ :=
                ih h hp hsc hse hsv (jtmBelow_push hb) hget' hft hl hnj
                  hprne hfr'
              exact ⟨p, Nat.le_trans (Nat.le_succ _) hp1, hp2, hfil⟩
            · obtain ⟨p, hp1, hp2, hfil⟩ :=
                ih h hp hsc hse hsv (jtmBelow_mono hb (Nat.le_succ _)) hget'
                  hft hl hnj hprne hfr'
              exact ⟨p, Nat.le_trans (Nat.le_succ _) hp1, hp2, hfil⟩
        · obtain ⟨p, hp1, hp2, hfil⟩ :=
            ih h hp hsc hse hsv (jtmBelow_mono hb (Nat.le_succ _)) hget' hft
              hl hnj hprne hfr'
          exact ⟨p, Nat.le_trans (Nat.le_succ _) hp1, hp2, hfil⟩

theorem processUnionMembers_pos_keep {u : String} :
    ∀ {ms : List String} {st : PState} {pr : List String} {pos : Nat}
      {st' : PState} {pr' : List String} {pos' : Nat},
    processUnionMembers u ms st pr pos = .ok (st', pr', pos') →
    ¬ u ∈ ms →
    ∀ p, p < pos →
    posFilter ((alLookup st'.join_table_meta u).getD []) p
      = posFilter ((alLookup st.join_table_meta u).getD []) p := by
  intro ms
  induction ms with
  | nil =>
    intro st pr pos st' pr' pos' h _ p _
    rw [processUnionMembers, Except.ok.injEq, Prod.mk.injEq] at h
    obtain ⟨h1, _⟩ := h
    subst h1
    rfl
  | cons m rest ih =>
    intro st pr pos st' pr' pos' h hu p hp
    have hum : u ≠ m := fun hc => hu (hc ▸ List.mem_cons_self m rest)
    have hur : ¬ u ∈ rest := fun hc => hu (List.mem_cons_of_mem m hc)
    rw [processUnionMembers] at h
    set st₀ : PState :=
      (if alContains st.join_table_meta m then
        { st with join_table_meta := alRemove st.join_table_meta m }
      else st) with hst₀
    have hjtmu : alLookup st₀.join_table_meta u
        = alLookup st.join_table_meta u := by
      rw [hst₀]
      split
      · exact alLookup_alRemove_ne hum
      · rfl
    split at h
    · exact absurd h (by simp)
    · rename_i obj hobj
      split at h
      · exact absurd h (by simp)
      next st₁ pr₁ pos₁ hpf =>
        have hle := (processUnionFields_bounds hpf).1
        rw [ih h hur p (Nat.lt_of_lt_of_le hp hle),
          processUnionFields_pos_keep hpf p hp, hjtmu]

theorem processUnionMembers_push {u U : String} :
    ∀ {ms₁ : List String} {m : String} {ms₂ : List String}
      {st : PState} {pr : List String} {pos : Nat}
      {st' : PState} {pr' : List String} {pos' : Nat}
      {oB : ObjectType} {j : Nat} {f : FieldDefinition},
    processUnionMembers u (ms₁ ++ m :: ms₂) st pr pos = .ok (st', pr', pos') →
    ¬ u ∈ ms₁ ++ m :: ms₂ →
    smem U st.parsed_typedef_names = true →
    smem U baseScalarNames = false →
    smem U st.enum_names = false →
    smem U st.virtual_type_names = false →
    jtmBelow st u pos →
    alLookup st.objects m = some oB →
    oB.fields.get? j = some f →
    field_type_name f = U →
    is_list_type f = true →
    f.directives.find? (fun d => decide (d.name = "join")) = none →
    smem (field_id u f.name) pr = false →
    (∀ m' ∈ ms₁, ∀ o', alLookup st.objects m' = some o' →
      ∀ f' ∈ o'.fields, f'.name ≠ f.name) →
    (∀ j' f', j' < j → oB.fields.get? j' = some f' → f'.name ≠ f.name) →
    ∃ p, posFilter ((alLookup st'.join_table_meta u).getD []) p
      = [JoinTableMeta.new (rsToLower u) "id" (rsToLower U) "id" (some p)] := by
  intro ms₁
  induction ms₁ with
  | nil =>
    intro m ms₂ st pr pos st' pr' pos' oB j f h hu hp hsc hse hsv hb hobj hget
      hft hl hnj hpr _ hfirst₂
    have hum : u ≠ m := fun hc => hu (by rw [hc]; simp)
    have hur : ¬ u ∈ ms₂ := fun hc => hu (by simp [hc])
    rw [List.nil_append] at h
    rw [processUnionMembers] at h
    set st₀ : PState :=
      (if alContains st.join_table_meta m then
        { st with join_table_meta := alRemove st.join_table_meta m }
      else st) with hst₀
    have hjtmu : alLookup st₀.join_table_meta u
        = alLookup st.join_table_meta u := by
      rw [hst₀]
      split
      · exact alLookup_alRemove_ne hum
      · rfl
    have hfields : st₀.parsed_typedef_names = st.parsed_typedef_names
        ∧ st₀.enum_names = st.enum_names
        ∧ st₀.virtual_type_names = st.virtual_type_names
        ∧ st₀.objects = st.objects := by
      rw [hst₀]
      split <;> exact ⟨rfl, rfl, rfl, rfl⟩
    split at h
    · exact absurd h (by simp)
    · rename_i obj hobj'
      split at h
      · exact absurd h (by simp)
      next st₁ pr₁ pos₁ hpf =>
        have hobj₀ : alLookup st₀.objects m = some oB := by
          rw [hfields.2.2.2]
          exact hobj
        rw [hobj₀, Option.some.injEq] at hobj'
        subst hobj'
        have hb₀ : jtmBelow st₀ u pos := by
          intro e he q hq
          rw [hjtmu] at he
          exact hb e he q hq
        obtain ⟨p, hp1, hp2, hfil⟩ := processUnionFields_push_mem hpf
          (by rw [hfields.1]; exact hp) hsc
          (by rw [hfields.2.1]; exact hse)
          (by rw [hfields.2.2.1]; exact hsv)
          hb₀ hget hft hl hnj hpr hfirst₂
        refine ⟨p, ?_⟩
        rw [processUnionMembers_pos_keep h hur p hp2]
        exact hfil
  | cons m₀ ms₁' ih =>
    intro m ms₂ st pr pos st' pr' pos' oB j f h hu hp hsc hse hsv hb hobj hget
      hft hl hnj hpr hfirst₁ hfirst₂
    have hum : u ≠ m₀ := fun hc => hu (by rw [hc]; simp)
    have hur : ¬ u ∈ ms₁' ++ m :: ms₂ := fun hc => hu (by simp [hc])
    rw [List.cons_append] at h
    rw [processUnionMembers] at h
    set st₀ : PState :=
      (if alContains st.join_table_meta m₀ then
        { st with join_table_meta := alRemove st.join_table_meta m₀ }
      else st) with hst₀
    have hjtmu : alLookup st₀.join_table_meta u
        = alLookup st.join_table_meta u := by
      rw [hst₀]
      split
      · exact alLookup_alRemove_ne hum
      · rfl
    have hfields : st₀.parsed_typedef_names = st.parsed_typedef_names
        ∧ st₀.enum_names = st.enum_names
        ∧ st₀.virtual_type_names = st.virtual_type_names
        ∧ st₀.objects = st.objects := by
      rw [hst₀]
      split <;> exact ⟨rfl, rfl, rfl, rfl⟩
    split at h
    · exact absurd h (by simp)
    · rename_i obj₀ hobj₀
      split at h
      · exact absurd h (by simp)
      next st₁ pr₁ pos₁ hpf =>
        obtain ⟨fp, fe, _, fv, fo, _, _, _, _⟩ := processUnionFields_spec hpf
        have hobj₀' : alLookup st.objects m₀ = some obj₀ := by
          rw [← hfields.2.2.2]
          exact hobj₀
        have hb₁ : jtmBelow st₁ u pos₁ :=
          (processUnionFields_bounds hpf).2 (by
            intro e he q hq
            rw [hjtmu] at he
            exact hb e he q hq)
        have hpr₁ : smem (field_id u f.name) pr₁ = false :=
          processUnionFields_pr hpf _ hpr (by
            intro f' hf' hc
            exact hfirst₁ m₀ (List.mem_cons_self _ _) obj₀ hobj₀' f' hf'
              (field_id_inj hc))
        refine ih h hur ?_ hsc ?_ ?_ hb₁ ?_ hget hft hl hnj hpr₁ ?_ hfirst₂
        · rw [fp, hfields.1]
          exact hp
        · rw [fe, hfields.2.1]
          exact hse
        · rw [fv, hfields.2.2.1]
          exact hsv
        · rw [fo, hfields.2.2.2]
          exact hobj
        · intro m' hm' o' ho' f' hf'
          refine hfirst₁ m' (List.mem_cons_of_mem m₀ hm') o' ?_ f' hf'
          rw [← hfields.2.2.2, ← fo]
          exact ho'

theorem processDef_union_push {st st' : PState} {t : TypeDefinition}
    {ms₁ ms₂ : List String} {m U : String} {oB : ObjectType} {j : Nat}
    {f : FieldDefinition}
    (hk : t.kind = .union (ms₁ ++ m :: ms₂))
    (h : processDef st (.type t) = .ok st')
    (hUt : U ≠ t.name)
    (hnos : alLookup st.objects t.name = none)
    (hp : smem U st.parsed_typedef_names = true)
    (hsc : smem U baseScalarNames = false)
    (hse : smem U st.enum_names = false)
    (hsv : smem U st.virtual_type_names = false)
    (hpre : alLookup st.join_table_meta t.name = none)
    (hobj : alLookup st.objects m = some oB)
    (hget : oB.fields.get? j = some f)
    (hft : field_type_name f = U)
    (hl : is_list_type f = true)
    (hnj : f.directives.find? (fun d => decide (d.name = "join")) = none)
    (hfirst₁ : ∀ m' ∈ ms₁, ∀ o', alLookup st.objects m' = some o' →
      ∀ f' ∈ o'.fields, f'.name ≠ f.name)
    (hfirst₂ : ∀ j' f', j' < j → oB.fields.get? j' = some f' →
      f'.name ≠ f.name) :
    ∃ p, posFilter ((alLookup st'.join_table_meta t.name).getD []) p
      = [JoinTableMeta.new (rsToLower t.name) "id" (rsToLower U) "id"
          (some p)] := by
  obtain ⟨tn, tdirs, tkind⟩ := t
  simp only at hk hUt hnos hpre ⊢
  subst hk
  simp only [processDef] at h
  split at h
  · exact absurd h (by simp)
  next st₁ hchk =>
    split at h
    · exact absurd h (by simp)
    next p₂ st₂ pr₂ pos₂ hpum =>
      obtain ⟨cp, ce, _, co, _, _, _, cj, cv⟩ := check_derived_spec hchk
      have hnotin : ¬ tn ∈ ms₁ ++ m :: ms₂ := by
        intro hc
        have hrobj := (processUnionMembers_spec hpum).2.2.2.2.2.2.2.2.2 tn hc
        rw [co] at hrobj
        simp only [] at hrobj
        exact hrobj hnos
      have hp₁ : smem U st₁.parsed_typedef_names = true := by
        rw [cp]
        simp only []
        exact smem_sInsert_of hp
      have hse₁ : smem U st₁.enum_names = false := by
        rw [ce]
        exact hse
      have hsv₁ : smem U st₁.virtual_type_names = false := by
        rcases cv with hveq | hveq
        · rw [hveq]
          exact hsv
        · rw [hveq]
          simp only []
          exact smem_sInsert_false hUt hsv
      have hb₁ : jtmBelow st₁ tn 0 := by
        intro e he q hq
        rw [cj] at he
        simp only [] at he
        rw [hpre] at he
        simp at he
      have hobj₁ : alLookup st₁.objects m = some oB := by
        rw [co]
        exact hobj
      obtain ⟨p, hfil⟩ := processUnionMembers_push hpum hnotin hp₁ hsc hse₁
        hsv₁ hb₁ hobj₁ hget hft hl hnj rfl
        (by
          intro m' hm' o' ho' f' hf'
          refine hfirst₁ m' hm' o' ?_ f' hf'
          rw [co] at ho'
          exact ho')
        hfirst₂
      obtain ⟨_, _, _, _, _, _, _, rj⟩ := reRegisterMembers_spec h
      refine ⟨p, ?_⟩
      rw [rj]
      exact hfil

/-- **C2**: in a successfully constructed model over uniquely-named
declarations, for a union `S` whose members are entity objects declared
before it, (1) no member retains a join-table entry under its own name —
every member's key is removed during union processing and never re-created;
(2) every entry keyed under `S` is attributed to the union (its parent side
is the lowercased union name with the identifier column `id`); and (3) the
relationship of a member's list-typed foreign-key field (child entity `U`
declared earlier, first occurrence of the field name across the union's
member traversal) exists exactly once, keyed under `S`: at its running
child ordinal `p` the list under `S` holds exactly the entry
parent = (lowercase(S), id, position p), child = (lowercase(U), id). -/
theorem C2_union_supersedes_member_join_tables
    {pre post : List TypeSystemDefinition} {tS tB tU : TypeDefinition}
    {ms₁ ms₂ : List String} {m : String} {oB oU : ObjectType}
    {j : Nat} {f : FieldDefinition}
    {ns ident : String} {es : ExecutionSource} {sch : GraphQLSchema}
    {model : ParsedGraphQLSchema}
    (hnodup : (typeNames (pre ++ TypeSystemDefinition.type tS :: post)).Nodup)
    (hok : ParsedGraphQLSchema.new ns ident es sch
        (pre ++ TypeSystemDefinition.type tS :: post) = .ok model)
    (hSk : tS.kind = .union (ms₁ ++ m :: ms₂))
    (hBpre : TypeSystemDefinition.type tB ∈ pre)
    (hBname : tB.name = m) (hBk : tB.kind = .object oB)
    (hBent : isEntityDecl tB = true)
    (hUpre : TypeSystemDefinition.type tU ∈ pre)
    (hUk : tU.kind = .object oU) (hUent : isEntityDecl tU = true)
    (hUnv : hasVirtualArg tU = false)
    (hUsc : smem tU.name baseScalarNames = false)
    (hget : oB.fields.get? j = some f)
    (hft : field_type_name f = tU.name)
    (hl : is_list_type f = true)
    (hnj : f.directives.find? (fun d => decide (d.name = "join")) = none)
    (hfirst₁ : ∀ m' ∈ ms₁, ∀ t' o', TypeSystemDefinition.type t' ∈ pre →
      t'.name = m' → t'.kind = .object o' →
      ∀ f' ∈ o'.fields, f'.name ≠ f.name)
    (hfirst₂ : ∀ j' f', j' < j → oB.fields.get? j' = some f' →
      f'.name ≠ f.name) :
    (∀ m' ∈ ms₁ ++ m :: ms₂, alLookup model.join_table_meta m' = none)
    ∧ (∀ l, alLookup model.join_table_meta tS.name = some l →
        ∀ e ∈ l, e.parent.typedef_name = rsToLower tS.name
          ∧ e.parent.column_name = "id")
    ∧ ∃ p, posFilter ((alLookup model.join_table_meta tS.name).getD []) p
        = [JoinTableMeta.new (rsToLower tS.name) "id" (rsToLower tU.name)
            "id" (some p)] := by
  obtain ⟨stf, hds, _, _, _, hmj, _, _, _, _⟩ := new_ok_spec hok
  obtain ⟨sP, hd_pre, h1⟩ := processDefs_decomp hds
  obtain ⟨sS, hdS, hd_post⟩ := processDefs_cons_ok h1
  have hnodup' := hnodup
  have htn : typeNames (pre ++ TypeSystemDefinition.type tS :: post)
      = typeNames pre ++ tS.name :: typeNames post := by
    rw [typeNames_append]
    rfl
  rw [htn] at hnodup'
  have hsplit := List.nodup_append.mp hnodup'
  have hpreN := hsplit.1
  have hdisj := hsplit.2.2
  have hSnotpre : ¬ tS.name ∈ typeNames pre :=
    fun hc => hdisj hc (List.mem_cons_self _ _)
  have hSnotpost : ¬ tS.name ∈ typeNames post :=
    (List.nodup_cons.mp hsplit.2.1).1
  obtain ⟨hUp, hUo⟩ := processDefs_object_present hd_pre hpreN hUpre hUk hUent
  obtain ⟨hUe, hUv⟩ := processDefs_object_unflagged hd_pre hpreN hUpre hUk hUnv
  obtain ⟨hBp, hBo⟩ := processDefs_object_present hd_pre hpreN hBpre hBk hBent
  rw [hBname] at hBo
  have hUTS : tU.name ≠ tS.name :=
    fun hc => hSnotpre (by rw [← hc]; exact mem_typeNames hUpre)
  obtain ⟨_, _, _, _, sj, _, _⟩ := processDefs_sets_spec hd_pre
  have hjS : alLookup sP.join_table_meta tS.name = none := by
    cases hv : alLookup sP.join_table_meta tS.name with
    | none => rfl
    | some l₀ =>
      exfalso
      have hne : alLookup sP.join_table_meta tS.name ≠ none := by
        rw [hv]
        simp
      rcases sj tS.name hne with hbad | ⟨t', hmem', hname'⟩
      · exact hbad rfl
      · exact hSnotpre (by rw [hname']; exact mem_typeNames hmem')
  have hnoS : alLookup sP.objects tS.name = none := by
    cases hv : alLookup sP.objects tS.name with
    | none => rfl
    | some o₀ =>
      exfalso
      rcases processDefs_objects_backward hd_pre hv with
        hbad | ⟨t₃, hmem₃, hname₃, _, _⟩
      · simp [PState.init, alLookup] at hbad
      · exact hSnotpre (by rw [← hname₃]; exact mem_typeNames hmem₃)
  obtain ⟨p, hfil⟩ := processDef_union_push hSk hdS hUTS hnoS hUp hUsc hUe
    hUv hjS hBo hget hft hl hnj
    (by
      intro m' hm' o' ho' f' hf'
      rcases processDefs_objects_backward hd_pre ho' with
        hbad | ⟨t₃, hmem₃, hname₃, hkind₃, _⟩
      · simp [PState.init, alLookup] at hbad
      · exact hfirst₁ m' hm' t₃ o' hmem₃ hname₃ hkind₃ f' hf')
    hfirst₂
  obtain ⟨uo, _, _, _, _, _, _, uj, uobj, _⟩ := processDef_union_spec hSk hdS
  have hmember_pre : ∀ m' ∈ ms₁ ++ m :: ms₂, m' ∈ typeNames pre := by
    intro m' hm'
    have hno := uobj m' hm'
    cases hv : alLookup sP.objects m' with
    | none => exact absurd hv hno
    | some o₀ =>
      rcases processDefs_objects_backward hd_pre hv with
        hbad | ⟨t₃, hmem₃, hname₃, _, _⟩
      · simp [PState.init, alLookup] at hbad
      · rw [← hname₃]
        exact mem_typeNames hmem₃
  have hmemS : ∀ m' ∈ ms₁ ++ m :: ms₂, m' ≠ tS.name := by
    intro m' hm' hc
    exact hSnotpre (hc ▸ hmember_pre m' hm')
  have hrem : ∀ m' ∈ ms₁ ++ m :: ms₂,
      alLookup sS.join_table_meta m' = none := by
    intro m' hm'
    rw [uj m' (hmemS m' hm'), if_pos hm']
  obtain ⟨_, _, _, _, psj, _, _⟩ := processDefs_sets_spec hd_post
  have hremf : ∀ m' ∈ ms₁ ++ m :: ms₂,
      alLookup stf.join_table_meta m' = none := by
    intro m' hm'
    cases hv : alLookup stf.join_table_meta m' with
    | none => rfl
    | some l₀ =>
      exfalso
      have hne : alLookup stf.join_table_meta m' ≠ none := by
        rw [hv]
        simp
      rcases psj m' hne with hbad | ⟨t', hmem', hname'⟩
      · exact hbad (hrem m' hm')
      · exact hdisj (hmember_pre m' hm')
          (by
            rw [hname']
            exact List.mem_cons_of_mem _ (mem_typeNames hmem'))
  have hSpres : alLookup stf.join_table_meta tS.name
      = alLookup sS.join_table_meta tS.name := by
    refine processDefs_jtm_preserve hd_post ?_
    intro t' hmem'
    refine ⟨fun hc => hSnotpost (by rw [← hc]; exact mem_typeNames hmem'), ?_⟩
    intro ms' hk' hin
    rcases processDefs_union_member_decl hd_post hmem' hk' tS.name hin with
      hne | ⟨t₃, o₃, hmem₃, hname₃, hkind₃, _⟩
    · apply hne
      rw [uo]
      exact hnoS
    · have h3doc : TypeSystemDefinition.type t₃
          ∈ (pre ++ TypeSystemDefinition.type tS :: post) :=
        List.mem_append_right _ (List.mem_cons_of_mem _ hmem₃)
      have hSdoc : TypeSystemDefinition.type tS
          ∈ (pre ++ TypeSystemDefinition.type tS :: post) := by simp
      have heq3 := typeNames_nodup_unique hnodup hSdoc h3doc hname₃.symm
      rw [← heq3, hSk] at hkind₃
      simp at hkind₃
  have hattrib : jtmAttrib stf := processDefs_attrib hds (by
    intro k l hl'
    simp [PState.init, alLookup] at hl')
  rw [hmj]
  refine ⟨hremf, ?_, ⟨p, ?_⟩⟩
  · intro l hl' e he
    exact hattrib tS.name l hl' e he
  · rw [hSpres]
    exact hfil

/-- Witness for C2 at the §8 schema: `Safe` and `Vault`, the members of
`Storage`, have no join-table entries of their own; entries under `Storage`
are attributed to it; and the `Safe.account : [Account!]!` relationship
exists exactly once under `Storage`. -/
theorem C2_witness :
    (∀ m' ∈ ([] : List String) ++ "Safe" :: ["Vault"],
      alLookup c1Model.join_table_meta m' = none)
    ∧ (∀ l, alLookup c1Model.join_table_meta "Storage" = some l →
        ∀ e ∈ l, e.parent.typedef_name = "storage"
          ∧ e.parent.column_name = "id")
    ∧ ∃ p, posFilter ((alLookup c1Model.join_table_meta "Storage").getD []) p
        = [JoinTableMeta.new "storage" "id" "account" "id" (some p)] := by
  have h := @C2_union_supersedes_member_join_tables
    [.type ⟨"AccountLabel", [], .enum ["PRIMARY", "SECONDARY"]⟩,
     .type ⟨"Account", [entityDir], .object ⟨[fld "id" (tyNN "ID"),
        fld "address" (tyNN "Address"), fld "label" (tyOpt "AccountLabel")]⟩⟩,
     .type ⟨"User", [entityDir], .object ⟨[fld "id" (tyNN "ID"),
        fld "account" (tyNN "Account"), fld "username" (tyNN "Charfield")]⟩⟩,
     .type ⟨"Loser", [entityDir], .object ⟨[fld "id" (tyNN "ID"),
        fld "account" (tyNN "Account"), fld "age" (tyNN "UInt8")]⟩⟩,
     .type ⟨"Metadata", [virtualEntityDir],
        .object ⟨[fld "count" (tyNN "UInt8")]⟩⟩,
     .type ⟨"Person", [], .union ["User", "Loser"]⟩,
     .type ⟨"Wallet", [entityDir], .object ⟨[fld "id" (tyNN "ID"),
        fld "accounts" (tyListNN "Account")]⟩⟩,
     .type ⟨"Safe", [entityDir], .object ⟨[fld "id" (tyNN "ID"),
        fld "account" (tyListNN "Account")]⟩⟩,
     .type ⟨"Vault", [entityDir], .object ⟨[fld "id" (tyNN "ID"),
        fld "label" (tyNN "Charfield"), fld "user" (tyListNN "User")]⟩⟩]
    [.type ⟨"IndexMetadataEntity", [entityDir],
        .object ⟨[fld "id" (tyNN "ID"), fld "time" (tyNN "UInt8"),
          fld "block_height" (tyNN "UInt8"),
          fld "block_id" (tyNN "Bytes32")]⟩⟩]
    ⟨"Storage", [], .union ["Safe", "Vault"]⟩
    ⟨"Safe", [entityDir], .object ⟨[fld "id" (tyNN "ID"),
        fld "account" (tyListNN "Account")]⟩⟩
    ⟨"Account", [entityDir], .object ⟨[fld "id" (tyNN "ID"),
        fld "address" (tyNN "Address"), fld "label" (tyOpt "AccountLabel")]⟩⟩
    [] ["Vault"] "Safe"
    ⟨[fld "id" (tyNN "ID"), fld "account" (tyListNN "Account")]⟩
    ⟨[fld "id" (tyNN "ID"), fld "address" (tyNN "Address"),
        fld "label" (tyOpt "AccountLabel")]⟩
    1 (fld "account" (tyListNN "Account"))
    "test" "test" .wasm ⟨"", ""⟩ c1Model
    (by decide) (by rfl) rfl (by simp) rfl rfl rfl (by simp) rfl rfl rfl
    rfl rfl rfl rfl rfl
    (by
      intro m' hm'
      exact absurd hm' (List.not_mem_nil m'))
    (by
      intro j' f' hj' hg
      have hz : j' = 0 := Nat.lt_one_iff.mp hj'
      subst hz
      have hf0 : some (fld "id" (tyNN "ID")) = some f' := hg
      rw [Option.some.injEq] at hf0
      rw [← hf0]
      decide)
  exact h
